import Mathlib

/-! simtrax: the DWARF reader of the profiler (`sim/DwarfReader.cc`)

A shallow embedding of the debug-information decoder of the simulator: the
primitive readers, the abbreviation-table scan, the attribute decoder, the
recursive entry reader, the flattening of the tree, the reference
resolution loop and the program-counter lookup.

Conventions of the embedding.

* `jump_table` (a `const char*`) is a list of bytes; the byte at an index is
  taken modulo 256, as `readByte` returns an `unsigned char`.  A read at an
  index outside the list is undefined behaviour in C++ and ends the run with
  `Abort.undefinedBehaviour`; the same holds for an index outside a
  `std::vector`.
* `int` values are `Int`.  A `uint32_t` stored into an `int`, and a sum of an
  `int` and a value decoded from the input, is reduced to the two's complement
  range by `toInt32`; a cursor that moves by a constant is not reduced.
* The parameter `attribute` is written `attr` and the member `abbrev` is
  written `abbrevCode`, as both words are keywords of Lean.
* The `case` labels of a `switch` are pairwise different in C++; a `switch` is
  written as a chain of tests in the order of its labels.
* `exit(1)` ends the run with the `Abort` value of the message printed.
* Loops that need not terminate take a fuel argument and end with
  `Abort.outOfFuel` when it is used up.
* A `CompilationUnit*` into the tree owned by `rootSource` is the list of child
  indices that leads from `rootSource` to the node.
* Multi-byte reads are little-endian (the simulator runs on x86 hosts).
-/

namespace Simtrax

/-! ## Results of a run -/

/-- How a run ends when it does not return: one constructor for each `exit`
of `DwarfReader.cc`, one for undefined behaviour, one for the fuel. -/
inductive Abort where
  /-- line 105: the cursor is outside the debug section -/
  | exitInvalidProfile
  /-- line 135: no symbol has the address of the cursor -/
  | exitNoSymbol
  /-- line 151: no abbreviation has the code of the entry -/
  | exitNoAbbrev
  /-- line 180: `ReadAttribute` returned false -/
  | exitAttribute
  /-- line 251: "Invalid or inverted PC ranges" -/
  | exitInvertedRanges
  /-- line 271: "Can't find debug ranges symbol" -/
  | exitNoRangesSymbol
  /-- line 278: "invalid debug ranges" -/
  | exitInvalidRanges
  /-- line 346: wrong DWARF version number -/
  | exitWrongVersion
  /-- line 354: wrong address size -/
  | exitWrongAddressSize
  /-- line 383: the attribute scan of the abbreviation table reached `jtable_size` -/
  | exitAbbrevOverrun
  /-- line 507: a size other than 1, 2 or 4 -/
  | exitInvalidSize
  /-- line 539: unhandled DWARF format specifier -/
  | exitUnhandledForm
  /-- line 78: found no "main" routine -/
  | exitNoMain
  /-- line 436: the DOT file could not be opened -/
  | exitDotFile
  /-- a read outside `jump_table` or outside a vector -/
  | undefinedBehaviour
  /-- the fuel of the model ran out -/
  | outOfFuel
deriving DecidableEq, Repr

instance instDecidableEqExcept {ε α : Type} [DecidableEq ε] [DecidableEq α] :
    DecidableEq (Except ε α) := fun a b =>
  match a, b with
  | .ok x, .ok y =>
    if h : x = y then isTrue (congrArg Except.ok h)
    else isFalse (fun h2 => h (Except.ok.inj h2))
  | .error x, .error y =>
    if h : x = y then isTrue (congrArg Except.error h)
    else isFalse (fun h2 => h (Except.error.inj h2))
  | .ok _, .error _ => isFalse (fun h => Except.noConfusion h)
  | .error _, .ok _ => isFalse (fun h => Except.noConfusion h)

/-! ## Machine integers -/

/-- The value an `int` holds after a 32-bit two's complement wrap. -/
def toInt32 (x : Int) : Int :=
  (x + 2147483648) % 4294967296 - 2147483648

/-- The value of `(unsigned)x` for an `int` x. -/
def toUInt32 (x : Int) : Int :=
  x % 4294967296

/-! ## Declarations of the headers -/

/-- The declarations of `DwarfReader.h` that `DwarfReader.cc` uses and that are
not part of the sources at hand: the `DW_` constants and the values the
constructor of `CompilationUnit` gives to `tag` and `pointsTo`.  They are a
parameter of the embedding. -/
structure DwarfHeader where
  DW_AT_name : Int
  DW_AT_low_pc : Int
  DW_AT_high_pc : Int
  DW_AT_ranges : Int
  DW_AT_specification : Int
  DW_AT_abstract_origin : Int
  DW_AT_MIPS_linkage_name : Int
  DW_AT_APPLE_optimized : Int
  DW_FORM_addr : Int
  DW_FORM_data1 : Int
  DW_FORM_data2 : Int
  DW_FORM_data4 : Int
  DW_FORM_strp : Int
  DW_FORM_ref_addr : Int
  DW_FORM_ref1 : Int
  DW_FORM_ref2 : Int
  DW_FORM_ref4 : Int
  DW_FORM_exprloc : Int
  DW_FORM_block : Int
  DW_FORM_block1 : Int
  DW_FORM_block2 : Int
  DW_FORM_block4 : Int
  DW_FORM_flag_present : Int
  DW_TAG_compile_unit : Int
  DW_TAG_class_type : Int
  DW_TAG_subprogram : Int
  /-- the `tag` of a freshly constructed `CompilationUnit` -/
  initialTag : Int
  /-- the `pointsTo` of a freshly constructed `CompilationUnit` -/
  initialPointsTo : Int

/-- The constants with the values of the DWARF 4 standard; the two vendor
attributes, which the standard encodes in two bytes, stand with their first
byte.  A fresh unit has tag 0 and no reference (-1). -/
def dwarf4 : DwarfHeader where
  DW_AT_name := 0x03
  DW_AT_low_pc := 0x11
  DW_AT_high_pc := 0x12
  DW_AT_ranges := 0x55
  DW_AT_specification := 0x47
  DW_AT_abstract_origin := 0x31
  DW_AT_MIPS_linkage_name := 0x87
  DW_AT_APPLE_optimized := 0xe1
  DW_FORM_addr := 0x01
  DW_FORM_data1 := 0x0b
  DW_FORM_data2 := 0x05
  DW_FORM_data4 := 0x06
  DW_FORM_strp := 0x0e
  DW_FORM_ref_addr := 0x10
  DW_FORM_ref1 := 0x11
  DW_FORM_ref2 := 0x12
  DW_FORM_ref4 := 0x13
  DW_FORM_exprloc := 0x18
  DW_FORM_block := 0x09
  DW_FORM_block1 := 0x0a
  DW_FORM_block2 := 0x03
  DW_FORM_block4 := 0x04
  DW_FORM_flag_present := 0x19
  DW_TAG_compile_unit := 0x11
  DW_TAG_class_type := 0x02
  DW_TAG_subprogram := 0x2e
  initialTag := 0
  initialPointsTo := -1

/-- The labels of the attribute `switch` of `ReadAttribute` are pairwise
different, which C++ requires of the `case` labels of one `switch`. -/
def DwarfHeader.attributeLabelsDistinct (k : DwarfHeader) : Prop :=
  [k.DW_AT_name, k.DW_AT_APPLE_optimized, k.DW_AT_low_pc, k.DW_AT_high_pc,
   k.DW_AT_ranges, k.DW_AT_specification, k.DW_AT_abstract_origin].Nodup

instance (k : DwarfHeader) : Decidable k.attributeLabelsDistinct := by
  unfold DwarfHeader.attributeLabelsDistinct; infer_instance

/-- The form is one of the block forms, the first five labels of the form
`switch` of `ReadAttribute` (lines 313-317). -/
def DwarfHeader.isBlockForm (k : DwarfHeader) (type : Int) : Bool :=
  type == k.DW_FORM_exprloc || type == k.DW_FORM_block || type == k.DW_FORM_block1
    || type == k.DW_FORM_block2 || type == k.DW_FORM_block4

/-- A `symbol` of the assembler (`Assembler.h`), as far as the reader uses it. -/
structure symbol where
  address : Int
  size : Int
deriving DecidableEq, Repr

/-- One record of `abbrevCodes`. -/
structure AbbreviationCode where
  addr : Int
  code : Int
deriving DecidableEq, Repr

/-- A node of the source tree (`class CompilationUnit`).  A name is the list
of the bytes of the `std::string`. -/
structure CompilationUnit where
  addr : Int
  top_level_addr : Int
  /-- the member `abbrev` (a keyword of Lean) -/
  abbrevCode : Int
  tag : Int
  name : List Nat
  ranges : List (Int × Int)
  pointsTo : Int
  children : List CompilationUnit
deriving Repr

/-- A `CompilationUnit*` that points into the tree of `rootSource`: the child
indices on the way from `rootSource` to the node. -/
abbrev UnitPtr := List Nat

/-- The bytes of the string "main". -/
def strMain : List Nat := [109, 97, 105, 110]

/-- The bytes of the string "::". -/
def strColons : List Nat := [58, 58]

/-! ## Helpers (lines 471-543) -/

/-- `readByte`: the byte at `addr`, and `addr + 1`. -/
def readByte (jump_table : List Nat) (addr : Int) : Except Abort (Int × Int) :=
  if 0 ≤ addr then
    match jump_table[addr.toNat]? with
    | some b => .ok (((b % 256 : Nat) : Int), addr + 1)
    | none => .error .undefinedBehaviour
  else .error .undefinedBehaviour

/-- `readHalf`: the 16-bit value at `addr`, and `addr + 2`. -/
def readHalf (jump_table : List Nat) (addr : Int) : Except Abort (Int × Int) :=
  if 0 ≤ addr then
    match jump_table[addr.toNat]?, jump_table[addr.toNat + 1]? with
    | some b0, some b1 => .ok (((b0 % 256 + 256 * (b1 % 256) : Nat) : Int), addr + 2)
    | _, _ => .error .undefinedBehaviour
  else .error .undefinedBehaviour

/-- `readWord`: the 32-bit value at `addr`, and `addr + 4`. -/
def readWord (jump_table : List Nat) (addr : Int) : Except Abort (Int × Int) :=
  if 0 ≤ addr then
    match jump_table[addr.toNat]?, jump_table[addr.toNat + 1]?,
        jump_table[addr.toNat + 2]?, jump_table[addr.toNat + 3]? with
    | some b0, some b1, some b2, some b3 =>
      .ok (((b0 % 256 + 256 * (b1 % 256) + 65536 * (b2 % 256) + 16777216 * (b3 % 256) : Nat) : Int),
        addr + 4)
    | _, _, _, _ => .error .undefinedBehaviour
  else .error .undefinedBehaviour

/-- `readVarSize`: a read of the width `size`. -/
def readVarSize (jump_table : List Nat) (addr : Int) (size : Int) : Except Abort (Int × Int) :=
  if size = 1 then readByte jump_table addr
  else if size = 2 then readHalf jump_table addr
  else if size = 4 then readWord jump_table addr
  else .error .exitInvalidSize

/-- `readVarType`: a read of the width of the form `type`. -/
def readVarType (k : DwarfHeader) (jump_table : List Nat) (addr : Int) (type : Int) :
    Except Abort (Int × Int) :=
  if type = k.DW_FORM_addr ∨ type = k.DW_FORM_data4 ∨ type = k.DW_FORM_strp
      ∨ type = k.DW_FORM_ref_addr ∨ type = k.DW_FORM_ref4 then
    readWord jump_table addr
  else if type = k.DW_FORM_data2 ∨ type = k.DW_FORM_ref2 then
    readHalf jump_table addr
  else if type = k.DW_FORM_data1 ∨ type = k.DW_FORM_ref1 then
    readByte jump_table addr
  else .error .exitUnhandledForm

/-- The bytes of a C string: up to the first zero byte, which must exist. -/
def cString : List Nat → Except Abort (List Nat)
  | [] => .error .undefinedBehaviour
  | b :: bs =>
    if b % 256 = 0 then .ok []
    else match cString bs with
      | .ok s => .ok (b % 256 :: s)
      | .error e => .error e

/-- `std::string((const char*)&(jump_table[value]))`. -/
def readString (jump_table : List Nat) (value : Int) : Except Abort (List Nat) :=
  if 0 ≤ value then cString (jump_table.drop value.toNat)
  else .error .undefinedBehaviour

/-- `data_table[i]` for an `int` index. -/
def symbolAt (data_table : List symbol) (i : Int) : Except Abort symbol :=
  if 0 ≤ i then
    match data_table[i.toNat]? with
    | some s => .ok s
    | none => .error .undefinedBehaviour
  else .error .undefinedBehaviour

/-! ## FindAbbrevCodes (lines 360-396) -/

/-- The inner `while(true)` of `FindAbbrevCodes`: reads bytes from `addr` until
two zero bytes in a row; the result is `addr` after the second one. -/
def scanAttributes (jump_table : List Nat) (jtable_size : Int) :
    Nat → Int → Bool → Except Abort Int
  | 0, _, _ => .error .outOfFuel
  | fuel + 1, addr, read_zero =>
    if addr ≥ jtable_size then .error .exitAbbrevOverrun
    else
      match readByte jump_table addr with
      | .error e => .error e
      | .ok (b, addr1) =>
        if b = 0 then
          if read_zero then .ok addr1
          else scanAttributes jump_table jtable_size fuel addr1 true
        else scanAttributes jump_table jtable_size fuel addr1 false

/-- The outer loop of `FindAbbrevCodes`.  The result is `abbrevCodes` and the
address at which the scan stopped: `ac.addr` when it returns at the end
marker, `addr` when the loop condition fails. -/
def findAbbrevLoop (jump_table : List Nat) (jtable_size : Int) :
    Nat → Int → List AbbreviationCode → Except Abort (List AbbreviationCode × Int)
  | 0, _, _ => .error .outOfFuel
  | fuel + 1, addr, abbrevCodes =>
    if addr < jtable_size - 2 then
      match readByte jump_table addr with
      | .error e => .error e
      | .ok (code, addr1) =>
        if code = 0 then .ok (abbrevCodes, addr)
        else
          match readByte jump_table addr1 with
          | .error e => .error e
          | .ok (_, addr2) =>
            match readByte jump_table addr2 with
            | .error e => .error e
            | .ok (_, addr3) =>
              match scanAttributes jump_table jtable_size (jump_table.length + 1) addr3 false with
              | .error e => .error e
              | .ok addr4 =>
                findAbbrevLoop jump_table jtable_size fuel addr4
                  (abbrevCodes ++ [{ addr := addr, code := code }])
    else .ok (abbrevCodes, addr)

/-- `DwarfReader::FindAbbrevCodes`: the new value of the member `abbrevCodes`. -/
def FindAbbrevCodes (jump_table : List Nat) (abbrev_start jtable_size : Int)
    (abbrevCodes : List AbbreviationCode) : Except Abort (List AbbreviationCode) :=
  match findAbbrevLoop jump_table jtable_size (jump_table.length + 1) abbrev_start abbrevCodes with
  | .ok r => .ok r.1
  | .error e => .error e

/-! ## ReadAttribute (lines 222-336) -/

/-- One bound of a range pair (lines 282-283 and 285-286): the value read at
the address of the symbol `data_table[i]` with the size of that symbol,
stored into an `int`. -/
def readRangeBound (jump_table : List Nat) (data_table : List symbol) (i : Int) :
    Except Abort Int := do
  let s ← symbolAt data_table i
  let (value, _) ← readVarSize jump_table s.address s.size
  pure (toInt32 value)

/-- The `while(true)` of the case `DW_AT_ranges` (lines 274-294): the range
list of the entry after the pairs read from the symbol `rangePtr` on.  The
vector size is a 64-bit `size_t`. -/
def readRangePairs (jump_table : List Nat) (data_table : List symbol) (top_unit_pc : Int) :
    Nat → Int → List (Int × Int) → Except Abort (List (Int × Int))
  | 0, _, _ => .error .outOfFuel
  | fuel + 1, rangePtr, ranges =>
    if toUInt32 rangePtr > ((data_table.length : Int) - 2) % 18446744073709551616 then
      .error .exitInvalidRanges
    else do
      let low_pc ← readRangeBound jump_table data_table (rangePtr + 0)
      let high_pc ← readRangeBound jump_table data_table (rangePtr + 1)
      if low_pc = 0 ∧ high_pc = 0 then pure ranges
      else
        readRangePairs jump_table data_table top_unit_pc fuel (rangePtr + 2)
          (ranges ++ [(toInt32 (low_pc + top_unit_pc), toInt32 (high_pc + top_unit_pc))])

/-- The attribute `switch` of `ReadAttribute` (lines 233-307) without the case
`DW_AT_APPLE_optimized`: the entry, `current_addr` and `unused_attribute`. -/
def readAttributeValue (k : DwarfHeader) (retval : CompilationUnit) (attr type : Int)
    (debug_start : Int) (jump_table : List Nat) (current_addr : Int)
    (data_table : List symbol) (top_unit_pc : Int) :
    Except Abort (CompilationUnit × Int × Bool) :=
  if attr = k.DW_AT_name then do
    let (value, current_addr) ← readWord jump_table current_addr
    let name ← readString jump_table (toInt32 value)
    pure ({ retval with name := name }, current_addr, false)
  else if attr = k.DW_AT_low_pc then do
    let (value, current_addr) ← readWord jump_table current_addr
    pure ({ retval with ranges := retval.ranges ++ [(toInt32 value, -1)] }, current_addr, false)
  else if attr = k.DW_AT_high_pc then
    match retval.ranges.getLast? with
    | none => .error .exitInvertedRanges
    | some (first, second) =>
      if first = -1 ∨ second ≠ -1 then .error .exitInvertedRanges
      else do
        let (value, current_addr) ← readWord jump_table current_addr
        let second := toInt32 value
        let second := if type ≠ k.DW_FORM_addr then toInt32 (second + first) else second
        pure ({ retval with ranges := retval.ranges.dropLast ++ [(first, second)] },
          current_addr, false)
  else if attr = k.DW_AT_ranges then do
    let (value, current_addr) ← readWord jump_table current_addr
    let rangePtr := toInt32 value
    let i := data_table.findIdx (fun s => s.address == rangePtr)
    let rangePtr := if i < data_table.length then (i : Int) else rangePtr
    if rangePtr = -1 then .error .exitNoRangesSymbol
    else do
      let ranges ← readRangePairs jump_table data_table top_unit_pc (data_table.length + 1)
        rangePtr retval.ranges
      pure ({ retval with ranges := ranges }, current_addr, false)
  else if attr = k.DW_AT_specification ∨ attr = k.DW_AT_abstract_origin then do
    let (value, current_addr) ← readVarType k jump_table current_addr type
    if type = k.DW_FORM_ref_addr then
      pure ({ retval with pointsTo := toInt32 (value + debug_start) }, current_addr, false)
    else
      pure ({ retval with pointsTo := toInt32 (value + retval.top_level_addr) },
        current_addr, false)
  else pure (retval, current_addr, true)

/-- `DwarfReader::ReadAttribute`: the entry, `current_addr` and `dtable_ptr`
after the call.  The function returns `true` whenever it returns. -/
def ReadAttribute (k : DwarfHeader) (retval : CompilationUnit) (attr type : Int)
    (debug_start : Int) (jump_table : List Nat) (current_addr : Int)
    (data_table : List symbol) (dtable_ptr : Int) (top_unit_pc : Int) :
    Except Abort (CompilationUnit × Int × Int) :=
  if attr ≠ k.DW_AT_name ∧ attr = k.DW_AT_APPLE_optimized then
    pure (retval, current_addr, dtable_ptr)
  else do
    let (retval, current_addr, unused_attribute) ←
      readAttributeValue k retval attr type debug_start jump_table current_addr
        data_table top_unit_pc
    if k.isBlockForm type then do
      let s ← symbolAt data_table dtable_ptr
      let (length, current_addr) ← readVarSize jump_table current_addr s.size
      let value := toInt32 length
      pure (retval, toInt32 (current_addr + value), toInt32 (dtable_ptr + value) + 1)
    else if type = k.DW_FORM_flag_present then
      pure (retval, current_addr, dtable_ptr - 1 + 1)
    else if unused_attribute then do
      let s ← symbolAt data_table dtable_ptr
      pure (retval, toInt32 (current_addr + s.size), dtable_ptr + 1)
    else pure (retval, current_addr, dtable_ptr + 1)

/-! ## ReadUnitHeader (lines 338-357) -/

/-- `DwarfReader::ReadUnitHeader`: `unit_length` and `current_addr` after the
call. -/
def ReadUnitHeader (jump_table : List Nat) (current_addr : Int) : Except Abort (Int × Int) := do
  let (length, current_addr) ← readWord jump_table current_addr
  let unit_length := toInt32 length
  let (DWARF_version, current_addr) ← readHalf jump_table current_addr
  if DWARF_version ≠ 4 ∧ DWARF_version ≠ 2 then .error .exitWrongVersion
  else do
    let (_, current_addr) ← readWord jump_table current_addr
    let (address_size, current_addr) ← readByte jump_table current_addr
    if address_size ≠ 4 then .error .exitWrongAddressSize
    else pure (unit_length, current_addr)

/-! ## ReadCompilationUnit (lines 96-218) -/

/-- The attribute loop of `ReadCompilationUnit` (lines 163-182): the entry and
`current_addr` after the end marker of the attribute list. -/
def readAttributes (k : DwarfHeader) (debug_start : Int) (jump_table : List Nat)
    (data_table : List symbol) (top_unit_pc : Int) :
    Nat → Int → CompilationUnit → Int → Int → Except Abort (CompilationUnit × Int)
  | 0, _, _, _, _ => .error .outOfFuel
  | fuel + 1, abbrev_addr, retval, current_addr, dtable_ptr => do
    let (attr, abbrev_addr) ← readByte jump_table abbrev_addr
    let abbrev_addr ←
      if attr = k.DW_AT_MIPS_linkage_name ∨ attr = k.DW_AT_APPLE_optimized then do
        let (_, next) ← readByte jump_table abbrev_addr
        pure next
      else pure abbrev_addr
    let (type, abbrev_addr) ← readByte jump_table abbrev_addr
    if attr = 0 ∧ type = 0 then pure (retval, current_addr)
    else do
      let (retval, current_addr, dtable_ptr) ←
        ReadAttribute k retval attr type debug_start jump_table current_addr
          data_table dtable_ptr top_unit_pc
      readAttributes k debug_start jump_table data_table top_unit_pc fuel abbrev_addr retval
        current_addr dtable_ptr

/-- The name a child gets in the children loop (lines 204-206). -/
def qualifyChild (k : DwarfHeader) (retval child : CompilationUnit) : CompilationUnit :=
  if retval.tag = k.DW_TAG_class_type ∧ retval.name.length > 0 then
    if child.name.length > 0 then
      { child with name := retval.name ++ strColons ++ child.name }
    else child
  else child

mutual
/-- `DwarfReader::ReadCompilationUnit`: the entry read at `current_addr` and
`current_addr` after the call.  The parameters `labels` and `elf_vars` are not
used by the function. -/
def ReadCompilationUnit (k : DwarfHeader) (abbrevCodes : List AbbreviationCode)
    (data_table : List symbol) (jump_table : List Nat) (jtable_size : Int)
    (debug_start abbrev_start top_unit_start : Int) :
    Nat → Int → Int → Except Abort (CompilationUnit × Int)
  | 0, _, _ => .error .outOfFuel
  | fuel + 1, current_addr, top_unit_pc =>
    if current_addr < debug_start ∨ current_addr ≥ abbrev_start then
      .error .exitInvalidProfile
    else do
      let start := current_addr
      let (abbrev_code, current_addr) ← readByte jump_table current_addr
      let retval : CompilationUnit :=
        { addr := start, top_level_addr := top_unit_start, abbrevCode := abbrev_code,
          tag := k.initialTag, name := [], ranges := [], pointsTo := k.initialPointsTo,
          children := [] }
      if abbrev_code = 0 then pure (retval, current_addr)
      else
        let i := data_table.findIdx (fun s => current_addr == s.address)
        if ¬ i < data_table.length then .error .exitNoSymbol
        else
          let dtable_ptr : Int := i
          let j := abbrevCodes.findIdx (fun ac => ac.code == abbrev_code)
          let abbrev_addr : Int :=
            match abbrevCodes[j]? with
            | some ac => ac.addr
            | none => -1
          if abbrev_addr < 0 then .error .exitNoAbbrev
          else do
            let (_, abbrev_addr) ← readByte jump_table abbrev_addr
            let (tag, abbrev_addr) ← readByte jump_table abbrev_addr
            let retval := { retval with tag := tag }
            let (has_children, abbrev_addr) ← readByte jump_table abbrev_addr
            let (retval, current_addr) ←
              readAttributes k debug_start jump_table data_table top_unit_pc
                (jump_table.length + 1) abbrev_addr retval current_addr dtable_ptr
            let top_unit_pc :=
              if retval.tag = k.DW_TAG_compile_unit then
                match retval.ranges with
                | [r] => r.1
                | _ => 0
              else top_unit_pc
            if has_children ≠ 0 then do
              let (children, current_addr) ←
                readChildren k abbrevCodes data_table jump_table jtable_size debug_start
                  abbrev_start top_unit_start fuel current_addr top_unit_pc retval []
              pure ({ retval with children := children }, current_addr)
            else pure (retval, current_addr)
/-- The children loop of `ReadCompilationUnit` (lines 197-214): the children
read so far are `children`; the result is the final list and `current_addr`. -/
def readChildren (k : DwarfHeader) (abbrevCodes : List AbbreviationCode)
    (data_table : List symbol) (jump_table : List Nat) (jtable_size : Int)
    (debug_start abbrev_start top_unit_start : Int) :
    Nat → Int → Int → CompilationUnit → List CompilationUnit →
      Except Abort (List CompilationUnit × Int)
  | 0, _, _, _, _ => .error .outOfFuel
  | fuel + 1, current_addr, top_unit_pc, retval, children => do
    let (child, current_addr) ←
      ReadCompilationUnit k abbrevCodes data_table jump_table jtable_size debug_start
        abbrev_start top_unit_start fuel current_addr top_unit_pc
    let child := qualifyChild k retval child
    if child.abbrevCode = 0 then pure (children, current_addr)
    else
      readChildren k abbrevCodes data_table jump_table jtable_size debug_start abbrev_start
        top_unit_start fuel current_addr top_unit_pc retval (children ++ [child])
end

/-! ## AddUnitList (lines 399-405) -/

mutual
/-- `DwarfReader::AddUnitList`: the pointers pushed to `unit_list`, in order,
for the unit `cu` that `this` points to. -/
def AddUnitList : CompilationUnit → UnitPtr → List UnitPtr
  | ⟨_, _, _, _, _, _, _, children⟩, this => this :: addChildren children this 0
/-- The `for` loop of `AddUnitList` from the child with index `i` on. -/
def addChildren : List CompilationUnit → UnitPtr → Nat → List UnitPtr
  | [], _, _ => []
  | c :: cs, this, i => AddUnitList c (this ++ [i]) ++ addChildren cs this (i + 1)
end

/-! ## FindFunctionCall (lines 408-426) -/

/-- Modelled from the spec: `CompilationUnit::ContainsPC`, defined in
`DwarfReader.h`, which is not among the sources: the unit contains `pc` when
`pc` falls within one of its ranges, `low <= pc < high`. -/
def ContainsPC (ranges : List (Int × Int)) (pc : Int) : Bool :=
  ranges.any (fun r => decide (r.1 ≤ pc) && decide (pc < r.2))

mutual
/-- `CompilationUnit::FindFunctionCall` for the unit that `this` points to and
`ins->pc_address = pc`; `none` is `NULL`. -/
def FindFunctionCall (k : DwarfHeader) (pc : Int) : CompilationUnit → UnitPtr → Option UnitPtr
  | ⟨_, _, _, tag, _, ranges, _, children⟩, this =>
    if ContainsPC ranges pc then
      if tag ≠ k.DW_TAG_compile_unit then some this
      else findInChildren k pc children this 0
    else none
/-- The `for` loop of `FindFunctionCall` from the child with index `i` on. -/
def findInChildren (k : DwarfHeader) (pc : Int) :
    List CompilationUnit → UnitPtr → Nat → Option UnitPtr
  | [], _, _ => none
  | c :: cs, this, i =>
    match FindFunctionCall k pc c (this ++ [i]) with
    | some cu => some cu
    | none => findInChildren k pc cs this (i + 1)
end

/-! ## BuildSourceTree (lines 23-88) -/

/-- The unit a pointer points to; `none` for a pointer to no unit of the tree. -/
def unitAt (root : CompilationUnit) : UnitPtr → Option CompilationUnit
  | [] => some root
  | i :: ptr =>
    match root.children[i]? with
    | some c => unitAt c ptr
    | none => none

/-- The tree after `ptr->name = name`. -/
def setName (name : List Nat) : UnitPtr → CompilationUnit → CompilationUnit
  | [], root => { root with name := name }
  | i :: ptr, root => { root with children := root.children.modify (setName name ptr) i }

/-- The state of a `DwarfReader` object.  `rootRuntime` is the `source_node` of
the runtime node, `none` when `rootRuntime` is `NULL`. -/
structure DwarfReader where
  rootSource : CompilationUnit
  unit_list : List UnitPtr
  abbrevCodes : List AbbreviationCode
  rootRuntime : Option UnitPtr

/-- The object is as its constructor leaves it: `rootRuntime` is `NULL`, the
vectors are empty. -/
def DwarfReader.isNew (self : DwarfReader) : Prop :=
  self.rootSource.children = [] ∧ self.unit_list = [] ∧ self.abbrevCodes = []
    ∧ self.rootRuntime = none

/-- The loop over the top-level units (lines 33-45): the children of
`rootSource`.  `fuel` is the fuel of each call of `ReadCompilationUnit`. -/
def readUnits (k : DwarfHeader) (abbrevCodes : List AbbreviationCode)
    (data_table : List symbol) (jump_table : List Nat) (jtable_size : Int)
    (debug_start abbrev_start : Int) (fuel : Nat) :
    Nat → Int → List CompilationUnit → Except Abort (List CompilationUnit)
  | 0, _, _ => .error .outOfFuel
  | n + 1, unit_ptr, children =>
    if unit_ptr < abbrev_start then do
      let start_unit := unit_ptr
      let (_, unit_ptr) ← ReadUnitHeader jump_table unit_ptr
      let (unit, unit_ptr) ←
        ReadCompilationUnit k abbrevCodes data_table jump_table jtable_size debug_start
          abbrev_start start_unit fuel unit_ptr 0
      readUnits k abbrevCodes data_table jump_table jtable_size debug_start abbrev_start fuel
        n unit_ptr (children ++ [unit])
    else pure children

/-- The inner loop of the resolution (lines 68-72) for the unit `pi` points
to, over the pointers `pj` of the rest of `unit_list`. -/
def copyNames (pi : UnitPtr) : List UnitPtr → CompilationUnit → Except Abort CompilationUnit
  | [], root => .ok root
  | pj :: rest, root =>
    match unitAt root pj, unitAt root pi with
    | some uj, some ui =>
      if uj.addr = ui.pointsTo then copyNames pi rest (setName uj.name pi root)
      else copyNames pi rest root
    | _, _ => .error .undefinedBehaviour

/-- The resolution loop (lines 54-74) over the pointers that are left of
`unit_list`; the state is the tree and `rootRuntime`. -/
def resolveLoop (unit_list : List UnitPtr) :
    List UnitPtr → CompilationUnit × Option UnitPtr →
      Except Abort (CompilationUnit × Option UnitPtr)
  | [], state => .ok state
  | pi :: rest, (root, rootRuntime) =>
    match unitAt root pi with
    | none => .error .undefinedBehaviour
    | some ui =>
      let rootRuntime :=
        if ui.name = strMain then
          if ui.ranges.length > 0 then some pi else rootRuntime
        else rootRuntime
      if ui.pointsTo ≥ 0 then
        match copyNames pi unit_list root with
        | .ok root => resolveLoop unit_list rest (root, rootRuntime)
        | .error e => .error e
      else resolveLoop unit_list rest (root, rootRuntime)

/-- Lines 47-88 of `BuildSourceTree`, which follow the parse: the flattening,
the resolution loop, the check for "main" and `WriteDot`, of which only the
`exit` on a file that cannot be opened is kept (`dotFileOpens`). -/
def finishSourceTree (self : DwarfReader) (dotFileOpens : Bool) : Except Abort DwarfReader := do
  let unit_list := self.unit_list ++ (addChildren self.rootSource.children [] 0)
  let (rootSource, rootRuntime) ←
    resolveLoop unit_list unit_list (self.rootSource, self.rootRuntime)
  if rootRuntime = none then .error .exitNoMain
  else if dotFileOpens then
    pure { self with rootSource := rootSource, unit_list := unit_list, rootRuntime := rootRuntime }
  else .error .exitDotFile

/-- `DwarfReader::BuildSourceTree`: the object after the call, which returns
`true` whenever it returns.  The parameters `labels` and `elf_vars` are only
passed on. -/
def BuildSourceTree (k : DwarfHeader) (self : DwarfReader) (data_table : List symbol)
    (jump_table : List Nat) (jtable_size debug_start abbrev_start : Int)
    (dotFileOpens : Bool) (fuel : Nat) : Except Abort DwarfReader := do
  let abbrevCodes ← FindAbbrevCodes jump_table abbrev_start jtable_size self.abbrevCodes
  let children ←
    readUnits k abbrevCodes data_table jump_table jtable_size debug_start abbrev_start fuel
      fuel debug_start self.rootSource.children
  finishSourceTree
    { self with abbrevCodes := abbrevCodes,
                rootSource := { self.rootSource with children := children } }
    dotFileOpens

/-! ## Inputs of the examples -/

/-- The function F of the containment example: one range `[0x100, 0x200)`. -/
def specFunction : CompilationUnit :=
  { addr := 20, top_level_addr := 0, abbrevCode := 2, tag := 0x2e, name := [102],
    ranges := [(0x100, 0x200)], pointsTo := -1, children := [] }

/-- The compilation unit U of the containment example, with the ranges given
and F as its only child. -/
def specUnit (ranges : List (Int × Int)) : CompilationUnit :=
  { addr := 11, top_level_addr := 0, abbrevCode := 1, tag := 0x11, name := [],
    ranges := ranges, pointsTo := -1, children := [specFunction] }

/-- The synthetic root of the containment example: no ranges, U its child. -/
def specRoot (ranges : List (Int × Int)) : CompilationUnit :=
  { addr := 0, top_level_addr := 0, abbrevCode := 0, tag := 0, name := [],
    ranges := [], pointsTo := -1, children := [specUnit ranges] }

/-- The buffer of the end-to-end example.  Bytes 0-12: the entry (code 1, the
offset 25 of the name, the word 0x1000, the word 0x40).  Bytes 13-23: the
abbreviation 1 (tag subprogram, no children, name/strp, low_pc/addr,
high_pc/data4, end marker).  Byte 24: the end of the abbreviation table.
Bytes 25-28: "foo" and its terminator. -/
def endToEndTable : List Nat :=
  [1, 25, 0, 0, 0, 0x00, 0x10, 0, 0, 0x40, 0, 0, 0,
   1, 0x2e, 0, 0x03, 0x0e, 0x11, 0x01, 0x12, 0x06, 0, 0,
   0,
   102, 111, 111, 0]

/-- The buffer of the end-to-end example for the constants of any header: as
`endToEndTable`, with the bytes of the abbreviation taken from `k`. -/
def endToEndTableOf (k : DwarfHeader) : List Nat :=
  [1, 25, 0, 0, 0, 0x00, 0x10, 0, 0, 0x40, 0, 0, 0,
   1, k.DW_TAG_subprogram.toNat, 0,
   k.DW_AT_name.toNat, k.DW_FORM_strp.toNat,
   k.DW_AT_low_pc.toNat, k.DW_FORM_addr.toNat,
   k.DW_AT_high_pc.toNat, k.DW_FORM_data4.toNat, 0, 0,
   0,
   102, 111, 111, 0]

/-- The constants of the header can stand in the abbreviation of the
end-to-end example: the three attributes and the three forms are non-zero
bytes, the tag is a byte, neither the attributes nor the zero of the end
marker are the first byte of one of the two-byte attributes, the forms are not
block forms nor the flag-present form, and the form of the high bound is not
the address form. -/
def DwarfHeader.fitsEndToEnd (k : DwarfHeader) : Prop :=
  k.attributeLabelsDistinct
  ∧ (∀ c ∈ [k.DW_AT_name, k.DW_AT_low_pc, k.DW_AT_high_pc, k.DW_FORM_strp, k.DW_FORM_addr,
        k.DW_FORM_data4], 0 < c ∧ c < 256)
  ∧ (0 ≤ k.DW_TAG_subprogram ∧ k.DW_TAG_subprogram < 256)
  ∧ (∀ a ∈ [k.DW_AT_name, k.DW_AT_low_pc, k.DW_AT_high_pc, 0],
        a ≠ k.DW_AT_MIPS_linkage_name ∧ a ≠ k.DW_AT_APPLE_optimized)
  ∧ (∀ f ∈ [k.DW_FORM_strp, k.DW_FORM_addr, k.DW_FORM_data4],
        k.isBlockForm f = false ∧ f ≠ k.DW_FORM_flag_present)
  ∧ k.DW_FORM_data4 ≠ k.DW_FORM_addr

instance (k : DwarfHeader) : Decidable k.fitsEndToEnd := by
  unfold DwarfHeader.fitsEndToEnd; infer_instance

/-- The entry of the end-to-end example with the name and ranges given. -/
def endToEndEntry (top_unit_start : Int) (name : List Nat) (ranges : List (Int × Int)) :
    CompilationUnit :=
  { addr := 0, top_level_addr := top_unit_start, abbrevCode := 1, tag := 0x2e,
    name := name, ranges := ranges, pointsTo := -1, children := [] }

/-- The buffer of the range-list example.  Bytes 0-3: the value of the
`DW_AT_ranges` attribute, the address 4 of the list.  Byte 4: 0x10 (a 1-byte
low bound).  Bytes 5-6: 0x0120 (a 2-byte high bound).  Bytes 7-10 and byte 11:
the terminator (a 4-byte and a 1-byte zero).  Bytes 12-13: a further pair,
behind the terminator. -/
def rangeListTable : List Nat :=
  [4, 0, 0, 0, 0x10, 0x20, 0x01, 0, 0, 0, 0, 0, 0x30, 0x40]

/-- The symbols of the range-list example. -/
def rangeListSymbols : List symbol :=
  [⟨0, 4⟩, ⟨4, 1⟩, ⟨5, 2⟩, ⟨7, 4⟩, ⟨11, 1⟩, ⟨12, 1⟩, ⟨13, 1⟩]

/-- The buffer of the label example.  Bytes 0-4: the entry (code 1, the word
0x1000).  Bytes 5-11: the abbreviation 1 (tag label, no children,
low_pc/addr, end marker).  Byte 12: the end of the abbreviation table. -/
def labelTable : List Nat :=
  [1, 0x00, 0x10, 0, 0,
   1, 0x0a, 0, 0x11, 0x01, 0, 0,
   0, 0, 0]

/-! ## The abbreviation table as the spec describes it (section 4.1) -/

/-- The byte of the buffer at the index `i`. -/
def byteAt (jump_table : List Nat) (i : Nat) : Nat :=
  (jump_table.getD i 0) % 256

/-- The entry of the abbreviation table that starts at `a` ends before `q`:
after the code byte, the tag byte and the has-children byte, the bytes from
`a + 3` on are scanned, and the bytes `q - 2` and `q - 1` are the first two
consecutive zero bytes among them; all of it lies inside the buffer. -/
def IsAbbrevEntry (jump_table : List Nat) (a q : Nat) : Prop :=
  a + 5 ≤ q ∧ q ≤ jump_table.length
    ∧ byteAt jump_table (q - 2) = 0 ∧ byteAt jump_table (q - 1) = 0
    ∧ ∀ m, a + 3 ≤ m → m + 2 < q → ¬ (byteAt jump_table m = 0 ∧ byteAt jump_table (m + 1) = 0)

/-- The top-level entries of the abbreviation table from `a` up to `p`: each
starts with a code byte that is not zero, at the offset recorded with it, and
the next one starts where it ends. -/
inductive TopLevelEntries (jump_table : List Nat) : Nat → List AbbreviationCode → Nat → Prop
  | done (a : Nat) : TopLevelEntries jump_table a [] a
  | entry (a q p : Nat) (rest : List AbbreviationCode) :
      byteAt jump_table a ≠ 0 → IsAbbrevEntry jump_table a q →
      TopLevelEntries jump_table q rest p →
      TopLevelEntries jump_table a
        ({ addr := (a : Int), code := (byteAt jump_table a : Int) } :: rest) p

/-! ## Notions used to state the properties of the tree -/

/-- The pre-order position of pointers: `p` comes before `q` when `p` is a
proper ancestor of `q`, or when at the first index in which they differ `p`
takes the earlier child. -/
def ptrLt : UnitPtr → UnitPtr → Prop
  | [], [] => False
  | [], _ :: _ => True
  | _ :: _, [] => False
  | a :: p, b :: q => a < b ∨ (a = b ∧ ptrLt p q)

/-- The fields of a unit other than its name, with the number of its children
for the vector `children`. -/
def ownFields (u : CompilationUnit) : Int × Int × Int × Int × List (Int × Int) × Int × Nat :=
  (u.addr, u.top_level_addr, u.abbrevCode, u.tag, u.ranges, u.pointsTo, u.children.length)

/-- The unit `p` points to is named "main" and has a range (lines 56-58). -/
def isMain (root : CompilationUnit) (p : UnitPtr) : Bool :=
  match unitAt root p with
  | some u => decide (u.name = strMain) && decide (u.ranges.length > 0)
  | none => false

/-- A unit without children, for the examples of the resolution loop. -/
def leafUnit (addr pointsTo : Int) (name : List Nat) (ranges : List (Int × Int)) :
    CompilationUnit :=
  { addr := addr, top_level_addr := 0, abbrevCode := 1, tag := 0x2e, name := name,
    ranges := ranges, pointsTo := pointsTo, children := [] }

/-- A root with the children given. -/
def rootOf (children : List CompilationUnit) : CompilationUnit :=
  { addr := 0, top_level_addr := 0, abbrevCode := 0, tag := 0, name := [],
    ranges := [], pointsTo := -1, children := children }

/-- The chain example: "a" at address 10 refers to address 20, "b" at address
20 refers to address 30, "c" is at address 30. -/
def chainRoot : CompilationUnit :=
  rootOf [leafUnit 10 20 [97] [], leafUnit 20 30 [98] [], leafUnit 30 (-1) [99] []]

/-- The example of two units named "main", each with a range. -/
def twoMainsRoot : CompilationUnit :=
  rootOf [leafUnit 10 (-1) strMain [(0, 4)], leafUnit 20 (-1) strMain [(8, 12)]]

/-- The buffer of the "main" example.  Bytes 0-10: the unit header (length,
version 4, abbreviation offset, address size 4).  Bytes 11-23: the entry
(code 1, the offset 36 of the name, the word 0x1000, the word 0x40).  Bytes
24-34: the abbreviation 1 (tag subprogram, no children, name/strp,
low_pc/addr, high_pc/data4, end marker).  Byte 35: the end of the
abbreviation table.  Bytes 36-40: "main" and its terminator. -/
def mainTable : List Nat :=
  [20, 0, 0, 0, 4, 0, 0, 0, 0, 0, 4,
   1, 36, 0, 0, 0, 0x00, 0x10, 0, 0, 0x40, 0, 0, 0,
   1, 0x2e, 0, 0x03, 0x0e, 0x11, 0x01, 0x12, 0x06, 0, 0,
   0,
   109, 97, 105, 110, 0]

/-- The symbols of the fields of the entry of the "main" example. -/
def mainSymbols : List symbol :=
  [⟨12, 4⟩, ⟨16, 4⟩, ⟨20, 4⟩]

/-- The entry of the "main" example. -/
def mainEntry : CompilationUnit :=
  { addr := 11, top_level_addr := 0, abbrevCode := 1, tag := 0x2e, name := strMain,
    ranges := [(0x1000, 0x1040)], pointsTo := -1, children := [] }

/-- A `DwarfReader` as its constructor leaves it, with a root without
children. -/
def newReader : DwarfReader :=
  { rootSource := rootOf [], unit_list := [], abbrevCodes := [], rootRuntime := none }

/-- A unit header with the version and the address size given: the length 20,
the version (2 bytes), the abbreviation offset 0, the address size. -/
def headerBytes (version address_size : Nat) : List Nat :=
  [20, 0, 0, 0, version, 0, 0, 0, 0, 0, address_size]

/-- The buffer of the stray range list: bytes 0-3 are the value 2 of a
`DW_AT_ranges` attribute, which is the address of no symbol; the bytes 4-9
are six 1-byte items. -/
def strayRangeTable : List Nat :=
  [2, 0, 0, 0, 0x10, 0x20, 0x30, 0, 0, 0]

/-- The symbols of the stray range list: the word at 0 and the six bytes. -/
def strayRangeSymbols : List symbol :=
  [⟨0, 4⟩, ⟨4, 1⟩, ⟨5, 1⟩, ⟨6, 1⟩, ⟨7, 1⟩, ⟨8, 1⟩]

/-- As `strayRangeTable`, with the value 0xFFFFFFFF of the attribute. -/
def minusOneRangeTable : List Nat :=
  [255, 255, 255, 255, 0x10, 0x20, 0x30, 0, 0, 0]

/-- The example of a reference without a target: "a" at address 10 refers to
the address 99, which is the address of no unit; "b" at address 20 has no
reference. -/
def danglingRoot : CompilationUnit :=
  rootOf [leafUnit 10 99 [97] [], leafUnit 20 (-1) [98] []]

/-- Lines 139-217 of `ReadCompilationUnit`, which follow the symbol lookup, for
the index `dtable_ptr` the lookup has found: the lookup of the abbreviation,
the attribute loop, which starts at the symbol `dtable_ptr`, and the children
loop.  `retval` is the entry with the fields set so far, `current_addr` the
cursor after the code byte. -/
def readEntryBody (k : DwarfHeader) (abbrevCodes : List AbbreviationCode)
    (data_table : List symbol) (jump_table : List Nat) (jtable_size : Int)
    (debug_start abbrev_start top_unit_start : Int) (fuel : Nat) (retval : CompilationUnit)
    (abbrev_code current_addr top_unit_pc dtable_ptr : Int) :
    Except Abort (CompilationUnit × Int) :=
  let j := abbrevCodes.findIdx (fun ac => ac.code == abbrev_code)
  let abbrev_addr : Int :=
    match abbrevCodes[j]? with
    | some ac => ac.addr
    | none => -1
  if abbrev_addr < 0 then .error .exitNoAbbrev
  else do
    let (_, abbrev_addr) ← readByte jump_table abbrev_addr
    let (tag, abbrev_addr) ← readByte jump_table abbrev_addr
    let retval := { retval with tag := tag }
    let (has_children, abbrev_addr) ← readByte jump_table abbrev_addr
    let (retval, current_addr) ←
      readAttributes k debug_start jump_table data_table top_unit_pc
        (jump_table.length + 1) abbrev_addr retval current_addr dtable_ptr
    let top_unit_pc :=
      if retval.tag = k.DW_TAG_compile_unit then
        match retval.ranges with
        | [r] => r.1
        | _ => 0
      else top_unit_pc
    if has_children ≠ 0 then do
      let (children, current_addr) ←
        readChildren k abbrevCodes data_table jump_table jtable_size debug_start
          abbrev_start top_unit_start fuel current_addr top_unit_pc retval []
      pure ({ retval with children := children }, current_addr)
    else pure (retval, current_addr)

/-- The entry after line 116 of `ReadCompilationUnit`: the address, the address
of the top-level unit and the code are set, the other fields are those of the
constructor. -/
def newEntry (k : DwarfHeader) (addr top_unit_start abbrev_code : Int) : CompilationUnit :=
  { addr := addr, top_level_addr := top_unit_start, abbrevCode := abbrev_code,
    tag := k.initialTag, name := [], ranges := [], pointsTo := k.initialPointsTo,
    children := [] }

/-- The fields of an entry that `ReadAttribute` does not write. -/
def entryShell (u : CompilationUnit) : Int × Int × Int × Int × List CompilationUnit :=
  (u.addr, u.top_level_addr, u.abbrevCode, u.tag, u.children)

/-- The buffer of the nested-class example.  Bytes 0-4: the class A (code 2,
the offset 32 of its name).  Bytes 5-9: the class B, a child of A (code 2, the
offset 34 of its name).  Bytes 10-14: the function g, a child of B (code 3,
the offset 36 of its name).  Byte 15: the end of the children of B.  Byte 16:
the end of the children of A.  Bytes 17-23: the abbreviation 2 (tag class
type, children, name/strp, end marker).  Bytes 24-30: the abbreviation 3 (tag
subprogram, no children, name/strp, end marker).  Byte 31: the end of the
abbreviation table.  Bytes 32-37: "A", "B" and "g" with their terminators. -/
def classTable : List Nat :=
  [2, 32, 0, 0, 0,
   2, 34, 0, 0, 0,
   3, 36, 0, 0, 0,
   0,
   0,
   2, 0x02, 1, 0x03, 0x0e, 0, 0,
   3, 0x2e, 0, 0x03, 0x0e, 0, 0,
   0,
   65, 0, 66, 0, 103, 0]

/-- The symbols of the name fields of the three entries of the nested-class
example. -/
def classSymbols : List symbol :=
  [⟨1, 4⟩, ⟨6, 4⟩, ⟨11, 4⟩]

/-- An entry of the nested-class example. -/
def classEntry (addr abbrev_code tag : Int) (name : List Nat)
    (children : List CompilationUnit) : CompilationUnit :=
  { addr := addr, top_level_addr := 0, abbrevCode := abbrev_code, tag := tag, name := name,
    ranges := [], pointsTo := -1, children := children }

/-- The tree of the nested-class example as `ReadCompilationUnit` returns it:
the names are "A", "A::B" and "B::g". -/
def classTree : CompilationUnit :=
  classEntry 0 2 0x02 [65]
    [classEntry 5 2 0x02 [65, 58, 58, 66]
      [classEntry 10 3 0x2e [66, 58, 58, 103] []]]

/-- The buffer of the example of an empty unit.  Bytes 0-10: a unit header.
Byte 11: the code 0, where the entry of the unit is read.  Bytes 12-22: a
second unit header.  Bytes 23-35: the entry "main" (code 1, the offset 48 of
the name, the word 0x1000, the word 0x40).  Bytes 36-46: the abbreviation 1
(tag subprogram, no children, name/strp, low_pc/addr, high_pc/data4, end
marker).  Byte 47: the end of the abbreviation table.  Bytes 48-52: "main" and
its terminator. -/
def emptyUnitTable : List Nat :=
  [20, 0, 0, 0, 4, 0, 0, 0, 0, 0, 4,
   0,
   20, 0, 0, 0, 4, 0, 0, 0, 0, 0, 4,
   1, 48, 0, 0, 0, 0x00, 0x10, 0, 0, 0x40, 0, 0, 0,
   1, 0x2e, 0, 0x03, 0x0e, 0x11, 0x01, 0x12, 0x06, 0, 0,
   0,
   109, 97, 105, 110, 0]

/-- The symbols of the fields of the entry "main" of the example of an empty
unit. -/
def emptyUnitSymbols : List symbol :=
  [⟨24, 4⟩, ⟨28, 4⟩, ⟨32, 4⟩]

/-- The object `BuildSourceTree` leaves for the example of an empty unit: the
first child of the root is the entry with the code 0 that was read at the
address 11. -/
def emptyUnitReader : DwarfReader :=
  { rootSource :=
      rootOf
        [{ addr := 11, top_level_addr := 0, abbrevCode := 0, tag := 0, name := [],
           ranges := [], pointsTo := -1, children := [] },
         { addr := 23, top_level_addr := 12, abbrevCode := 1, tag := 0x2e, name := strMain,
           ranges := [(0x1000, 0x1040)], pointsTo := -1, children := [] }],
    unit_list := [[0], [1]],
    abbrevCodes := [{ addr := 36, code := 1 }],
    rootRuntime := some [1] }

/-- The number of bytes that `readVarType` reads for the form `type`: 4, 2 or 1
for the forms of its three groups of labels, 0 for a form it exits on. -/
def readVarTypeWidth (k : DwarfHeader) (type : Int) : Int :=
  if type = k.DW_FORM_addr ∨ type = k.DW_FORM_data4 ∨ type = k.DW_FORM_strp
      ∨ type = k.DW_FORM_ref_addr ∨ type = k.DW_FORM_ref4 then 4
  else if type = k.DW_FORM_data2 ∨ type = k.DW_FORM_ref2 then 2
  else if type = k.DW_FORM_data1 ∨ type = k.DW_FORM_ref1 then 1
  else 0

/-- The symbol table is contiguous: the address of each symbol is the address
of the symbol before it plus the size of that symbol. -/
def contiguous (data_table : List symbol) : Prop :=
  ∀ (i : Nat) (s t : symbol), data_table[i]? = some s → data_table[i + 1]? = some t →
    t.address = s.address + s.size

/-- The buffer of the example of a 2-byte `DW_AT_high_pc`: the 2-byte value
0x40, the form of which is `DW_FORM_data2`, and a word behind it. -/
def shortHighTable : List Nat :=
  [0x40, 0, 0x11, 0x22, 0x33, 0x44]

/-- The symbols of the example of a 2-byte `DW_AT_high_pc`: a 2-byte symbol at
the address 0 and a 4-byte symbol at the address 2. -/
def shortHighSymbols : List symbol :=
  [⟨0, 2⟩, ⟨2, 4⟩]

/-- The number of bytes by which `ReadAttribute` moves `current_addr` for an
attribute with a form of a fixed width, when the symbol of the attribute has
the size `size`: the word read for the name, the bounds and the range list
(lines 236, 244, 254, 262), the width of the form for the two references
(lines 299 and 301), and the size of the symbol for an attribute that is not used
(line 328). -/
def attributeWidth (k : DwarfHeader) (attr type size : Int) : Int :=
  if attr = k.DW_AT_name ∨ attr = k.DW_AT_low_pc ∨ attr = k.DW_AT_high_pc
      ∨ attr = k.DW_AT_ranges then 4
  else if attr = k.DW_AT_specification ∨ attr = k.DW_AT_abstract_origin then
    readVarTypeWidth k type
  else size

/-- The labels of the form `switch` of `ReadAttribute` (lines 311-331) are
pairwise different, which C++ requires of the `case` labels of one `switch`. -/
def DwarfHeader.formLabelsDistinct (k : DwarfHeader) : Prop :=
  [k.DW_FORM_exprloc, k.DW_FORM_block, k.DW_FORM_block1, k.DW_FORM_block2,
   k.DW_FORM_block4, k.DW_FORM_flag_present].Nodup

instance (k : DwarfHeader) : Decidable k.formLabelsDistinct := by
  unfold DwarfHeader.formLabelsDistinct; infer_instance

/-- The labels of the `switch` of `readVarType` (lines 515-536) are pairwise
different, which C++ requires of the `case` labels of one `switch`. -/
def DwarfHeader.varTypeLabelsDistinct (k : DwarfHeader) : Prop :=
  [k.DW_FORM_addr, k.DW_FORM_data4, k.DW_FORM_strp, k.DW_FORM_ref_addr, k.DW_FORM_ref4,
   k.DW_FORM_data2, k.DW_FORM_ref2, k.DW_FORM_data1, k.DW_FORM_ref1].Nodup

instance (k : DwarfHeader) : Decidable k.varTypeLabelsDistinct := by
  unfold DwarfHeader.varTypeLabelsDistinct; infer_instance

/-- The attribute is none of the `case` labels of the attribute `switch` of
`ReadAttribute` (lines 233-307), which then takes `default` and sets
`unused_attribute`. -/
def DwarfHeader.isUnusedAttribute (k : DwarfHeader) (attr : Int) : Prop :=
  attr ∉ [k.DW_AT_name, k.DW_AT_APPLE_optimized, k.DW_AT_low_pc, k.DW_AT_high_pc,
    k.DW_AT_ranges, k.DW_AT_specification, k.DW_AT_abstract_origin]

instance (k : DwarfHeader) (attr : Int) : Decidable (k.isUnusedAttribute attr) := by
  unfold DwarfHeader.isUnusedAttribute; infer_instance

/-- The form is one of the `case` labels of the `switch` of `readVarType`. -/
def DwarfHeader.isVarTypeForm (k : DwarfHeader) (type : Int) : Prop :=
  type ∈ [k.DW_FORM_addr, k.DW_FORM_data4, k.DW_FORM_strp, k.DW_FORM_ref_addr, k.DW_FORM_ref4,
    k.DW_FORM_data2, k.DW_FORM_ref2, k.DW_FORM_data1, k.DW_FORM_ref1]

instance (k : DwarfHeader) (type : Int) : Decidable (k.isVarTypeForm type) := by
  unfold DwarfHeader.isVarTypeForm; infer_instance

/-- The buffer of the block example: the length 3 of a block, in one byte, the
three bytes of the block, and a byte behind it. -/
def blockTable : List Nat :=
  [3, 0xaa, 0xbb, 0xcc, 0x99]

/-- The symbols of the block example: a 1-byte symbol for each byte. -/
def blockSymbols : List symbol :=
  [⟨0, 1⟩, ⟨1, 1⟩, ⟨2, 1⟩, ⟨3, 1⟩, ⟨4, 1⟩]

/-- The buffer of the reference example: the value 0x10 in four bytes. -/
def referenceTable : List Nat :=
  [0x10, 0, 0, 0]

/-- The value of the `w` bytes of the buffer from the index `a` on, the least
significant byte first: what the claim calls a value read with the declared
width `w`.  It is written from the claim, to be compared with the reads of the
code. -/
def littleEndian (jump_table : List Nat) (a : Nat) : Nat → Nat
  | 0 => 0
  | w + 1 => byteAt jump_table a + 256 * littleEndian jump_table (a + 1) w

/-- The bound that the claim describes for the symbol with the index `j`: the
value of the bytes at the address of that symbol, as many as its own size
declares, stored into an `int`.  It is written from the claim, to be compared
with `readRangeBound`. -/
def specBound (jump_table : List Nat) (data_table : List symbol) (j : Nat) : Int :=
  match data_table[j]? with
  | some s => toInt32 (littleEndian jump_table s.address.toNat s.size.toNat)
  | none => 0

/-- The address of the abbreviation with the code `abbrev_code`, as the lookup
of `ReadCompilationUnit` finds it (lines 139-145): `addr` of the first record
of `abbrevCodes` with that code, -1 when there is none. -/
def entryAbbrevAddr (abbrevCodes : List AbbreviationCode) (abbrev_code : Int) : Int :=
  match abbrevCodes[abbrevCodes.findIdx (fun ac => ac.code == abbrev_code)]? with
  | some ac => ac.addr
  | none => -1

/-- The pairs (attribute, form) that the attribute loop of
`ReadCompilationUnit` (lines 163-182) reads from the abbreviation, from
`abbrev_addr` up to the end marker: the reads of the loop without the calls of
`ReadAttribute`. -/
def abbrevAttributes (k : DwarfHeader) (jump_table : List Nat) :
    Nat → Int → Except Abort (List (Int × Int))
  | 0, _ => .error .outOfFuel
  | fuel + 1, abbrev_addr => do
    let (attr, abbrev_addr) ← readByte jump_table abbrev_addr
    let abbrev_addr ←
      if attr = k.DW_AT_MIPS_linkage_name ∨ attr = k.DW_AT_APPLE_optimized then do
        let (_, next) ← readByte jump_table abbrev_addr
        pure next
      else pure abbrev_addr
    let (type, abbrev_addr) ← readByte jump_table abbrev_addr
    if attr = 0 ∧ type = 0 then pure []
    else do
      let rest ← abbrevAttributes k jump_table fuel abbrev_addr
      pure ((attr, type) :: rest)

/-- The calls of `ReadAttribute` of the attribute loop (line 178) for the pairs
(attribute, form) of the list, in order: the entry and `current_addr` after
the last of them. -/
def decodeAttributes (k : DwarfHeader) (debug_start : Int) (jump_table : List Nat)
    (data_table : List symbol) (top_unit_pc : Int) :
    List (Int × Int) → CompilationUnit → Int → Int → Except Abort (CompilationUnit × Int)
  | [], retval, current_addr, _ => pure (retval, current_addr)
  | (attr, type) :: rest, retval, current_addr, dtable_ptr => do
    let (retval, current_addr, dtable_ptr) ←
      ReadAttribute k retval attr type debug_start jump_table current_addr
        data_table dtable_ptr top_unit_pc
    decodeAttributes k debug_start jump_table data_table top_unit_pc rest retval current_addr
      dtable_ptr

/-- The list of an abbreviation pairs its bounds: each `DW_AT_low_pc` is
followed by a `DW_AT_high_pc` before the next `DW_AT_low_pc`, before a
`DW_AT_ranges` and before the end of the list, and it has no other
`DW_AT_high_pc`.  `pending` tells that a `DW_AT_low_pc` waits for its
`DW_AT_high_pc`. -/
def boundsPaired (k : DwarfHeader) : Bool → List (Int × Int) → Bool
  | pending, [] => !pending
  | pending, (attr, _) :: rest =>
    if attr = k.DW_AT_low_pc then !pending && boundsPaired k true rest
    else if attr = k.DW_AT_high_pc then pending && boundsPaired k false rest
    else if attr = k.DW_AT_ranges then !pending && boundsPaired k false rest
    else boundsPaired k pending rest

/-- The last of the attributes `DW_AT_low_pc`, `DW_AT_high_pc` and
`DW_AT_ranges` of the list is a `DW_AT_low_pc`: no `DW_AT_high_pc` and no
`DW_AT_ranges` stands behind it.  `last` is the answer for a list without any
of the three. -/
def endsWithLow (k : DwarfHeader) : Bool → List (Int × Int) → Bool
  | last, [] => last
  | last, (attr, _) :: rest =>
    if attr = k.DW_AT_low_pc then endsWithLow k true rest
    else if attr = k.DW_AT_high_pc ∨ attr = k.DW_AT_ranges then endsWithLow k false rest
    else endsWithLow k last rest

/-- No attribute of the list stores -1, the placeholder of an unset high
bound, as a high bound: after each call of `ReadAttribute` for a
`DW_AT_high_pc` that returns, the high bound of the last range is not -1, and
after each call for a `DW_AT_ranges` that returns, no range behind those the
entry had before has the high bound -1.  The calls are those of
`decodeAttributes`. -/
def highBoundsSet (k : DwarfHeader) (debug_start : Int) (jump_table : List Nat)
    (data_table : List symbol) (top_unit_pc : Int) :
    List (Int × Int) → CompilationUnit → Int → Int → Bool
  | [], _, _, _ => true
  | (attr, type) :: rest, retval, current_addr, dtable_ptr =>
    match ReadAttribute k retval attr type debug_start jump_table current_addr
        data_table dtable_ptr top_unit_pc with
    | .ok (r, c, d) =>
      (if attr = k.DW_AT_high_pc then
        match r.ranges.getLast? with
        | some p => decide (p.2 ≠ -1)
        | none => true
      else if attr = k.DW_AT_ranges then
        (r.ranges.drop retval.ranges.length).all (fun p => decide (p.2 ≠ -1))
      else true)
      && highBoundsSet k debug_start jump_table data_table top_unit_pc rest r c d
    | .error _ => true

/-- The value of `top_unit_pc` for the children of an entry (lines 186-191):
the low bound of its single range for a compile unit, 0 for a compile unit
with another number of ranges, and the value of the entry itself otherwise.
`retval` is the entry after the attribute loop. -/
def childBase (k : DwarfHeader) (retval : CompilationUnit) (top_unit_pc : Int) : Int :=
  if retval.tag = k.DW_TAG_compile_unit then
    match retval.ranges with
    | [r] => r.1
    | _ => 0
  else top_unit_pc

/-- The value of `top_unit_pc` with which the unit at `path` of the tree was
read, when the root of the tree was read with `top_unit_pc`. -/
def baseAt (k : DwarfHeader) : CompilationUnit → Int → UnitPtr → Int
  | _, top_unit_pc, [] => top_unit_pc
  | root, top_unit_pc, i :: path =>
    match root.children[i]? with
    | some c => baseAt k c (childBase k root top_unit_pc) path
    | none => top_unit_pc

/-- No range of the list is open: no high bound is -1, the placeholder that
`DW_AT_low_pc` writes. -/
def rangesClosed (ranges : List (Int × Int)) : Prop :=
  ∀ p ∈ ranges, p.2 ≠ -1

/-- The buffer of the example of a unit with a function, a label and a block.
Bytes 0-8: the compile unit U (code 1, the word 0x1000, the word 0x80).  Bytes
9-21: the function "f", a child of U (code 2, the offset 68 of its name, the
word 0x1000, the word 0x40).  Bytes 22-26: a label, a child of U (code 3, the
word 0x1020).  Bytes 27-31: a block, a child of U (code 4, the address 70 of
its range list).  Byte 32: the end of the children of U.  Bytes 33-41: the
abbreviation 1 (tag compile unit, children, low_pc/addr, high_pc/data4, end
marker).  Bytes 42-52: the abbreviation 2 (tag subprogram, no children,
name/strp, low_pc/addr, high_pc/data4, end marker).  Bytes 53-59: the
abbreviation 3 (tag label, no children, low_pc/addr, end marker).  Bytes
60-66: the abbreviation 4 (tag lexical block, no children, ranges/data4, end
marker).  Byte 67: the end of the abbreviation table.  Bytes 68-69: "f" and
its terminator.  Bytes 70-85: the range list, the pair (0x10, 0x20) and the
terminator, four words. -/
def unitTable : List Nat :=
  [1, 0x00, 0x10, 0, 0, 0x80, 0, 0, 0,
   2, 68, 0, 0, 0, 0x00, 0x10, 0, 0, 0x40, 0, 0, 0,
   3, 0x20, 0x10, 0, 0,
   4, 70, 0, 0, 0,
   0,
   1, 0x11, 1, 0x11, 0x01, 0x12, 0x06, 0, 0,
   2, 0x2e, 0, 0x03, 0x0e, 0x11, 0x01, 0x12, 0x06, 0, 0,
   3, 0x0a, 0, 0x11, 0x01, 0, 0,
   4, 0x0b, 0, 0x55, 0x06, 0, 0,
   0,
   102, 0,
   0x10, 0, 0, 0, 0x20, 0, 0, 0, 0, 0, 0, 0, 0, 0, 0, 0]

/-- The symbols of the fields of the four entries of `unitTable` and of the
four words of its range list. -/
def unitSymbols : List symbol :=
  [⟨1, 4⟩, ⟨5, 4⟩, ⟨10, 4⟩, ⟨14, 4⟩, ⟨18, 4⟩, ⟨23, 4⟩, ⟨28, 4⟩,
   ⟨70, 4⟩, ⟨74, 4⟩, ⟨78, 4⟩, ⟨82, 4⟩]

/-- The records of the four abbreviations of `unitTable`. -/
def unitCodes : List AbbreviationCode :=
  [{ addr := 33, code := 1 }, { addr := 42, code := 2 }, { addr := 53, code := 3 },
   { addr := 60, code := 4 }]

/-- The function "f" of `unitTable` as it is parsed: its range is closed. -/
def unitFunction : CompilationUnit :=
  { addr := 9, top_level_addr := 0, abbrevCode := 2, tag := 0x2e, name := [102],
    ranges := [(0x1000, 0x1040)], pointsTo := -1, children := [] }

/-- The label of `unitTable` as it is parsed: its range is open. -/
def unitLabel : CompilationUnit :=
  { addr := 22, top_level_addr := 0, abbrevCode := 3, tag := 0x0a, name := [],
    ranges := [(0x1020, -1)], pointsTo := -1, children := [] }

/-- The block of `unitTable` as it is parsed: the pair of its range list, with
the base 0x1000 of the unit. -/
def unitBlock : CompilationUnit :=
  { addr := 27, top_level_addr := 0, abbrevCode := 4, tag := 0x0b, name := [],
    ranges := [(0x1010, 0x1020)], pointsTo := -1, children := [] }

/-- The tree of `unitTable` as it is parsed. -/
def unitTree : CompilationUnit :=
  { addr := 0, top_level_addr := 0, abbrevCode := 1, tag := 0x11, name := [],
    ranges := [(0x1000, 0x1080)], pointsTo := -1,
    children := [unitFunction, unitLabel, unitBlock] }

/-- The buffer of the example of a high bound with the value 0xFFFFFFFF.
Bytes 0-8: the entry (code 1, the word 0x1000, the word 0xFFFFFFFF).  Bytes
9-17: the abbreviation 1 (tag subprogram, no children, low_pc/addr,
high_pc/addr, end marker).  Byte 18: the end of the abbreviation table. -/
def openHighTable : List Nat :=
  [1, 0x00, 0x10, 0, 0, 0xff, 0xff, 0xff, 0xff,
   1, 0x2e, 0, 0x11, 0x01, 0x12, 0x01, 0, 0,
   0]

/-- The buffer of the example of a range list with the high bound 0xFFFFFFFF.
Bytes 0-4: the entry (code 1, the address 5 of its range list).  Byte 5: 0x10
(a 1-byte low bound).  Bytes 6-9: 0xFFFFFFFF (a 4-byte high bound).  Bytes 10
and 11: the terminator.  Bytes 12-18: the abbreviation 1 (tag lexical block,
no children, ranges/data4, end marker).  Byte 19: the end of the abbreviation
table. -/
def openListTable : List Nat :=
  [1, 5, 0, 0, 0,
   0x10, 0xff, 0xff, 0xff, 0xff, 0, 0,
   1, 0x0b, 0, 0x55, 0x06, 0, 0,
   0]

/-- The symbols of `openListTable`: the field of the entry and the four bounds
of the range list. -/
def openListSymbols : List symbol :=
  [⟨1, 4⟩, ⟨5, 1⟩, ⟨6, 4⟩, ⟨10, 1⟩, ⟨11, 1⟩]

/-! # Theorems -/

/-! ## Auxiliary facts -/

theorem toInt32_of_range (x : Int) (h1 : -2147483648 ≤ x) (h2 : x < 2147483648) :
    toInt32 x = x := by
  unfold toInt32; omega

theorem labels_high_pc (k : DwarfHeader) (h : k.attributeLabelsDistinct) :
    k.DW_AT_high_pc ≠ k.DW_AT_name ∧ k.DW_AT_high_pc ≠ k.DW_AT_APPLE_optimized
      ∧ k.DW_AT_high_pc ≠ k.DW_AT_low_pc := by
  simp only [DwarfHeader.attributeLabelsDistinct, List.nodup_cons, List.mem_cons,
    List.mem_singleton, not_or] at h
  refine ⟨?_, ?_, ?_⟩ <;> intro e <;> simp_all

theorem labels_low_pc (k : DwarfHeader) (h : k.attributeLabelsDistinct) :
    k.DW_AT_low_pc ≠ k.DW_AT_name ∧ k.DW_AT_low_pc ≠ k.DW_AT_APPLE_optimized := by
  simp only [DwarfHeader.attributeLabelsDistinct, List.nodup_cons, List.mem_cons,
    List.mem_singleton, not_or] at h
  refine ⟨?_, ?_⟩ <;> intro e <;> simp_all

theorem labels_ranges (k : DwarfHeader) (h : k.attributeLabelsDistinct) :
    k.DW_AT_ranges ≠ k.DW_AT_name ∧ k.DW_AT_ranges ≠ k.DW_AT_APPLE_optimized
      ∧ k.DW_AT_ranges ≠ k.DW_AT_low_pc ∧ k.DW_AT_ranges ≠ k.DW_AT_high_pc := by
  simp only [DwarfHeader.attributeLabelsDistinct, List.nodup_cons, List.mem_cons,
    List.mem_singleton, not_or] at h
  refine ⟨?_, ?_, ?_, ?_⟩ <;> intro e <;> simp_all

theorem dwarf4_labels : dwarf4.attributeLabelsDistinct := by decide

theorem findIdx_lt_of_mem {α : Type} (p : α → Bool) (l : List α)
    (h : ∃ x ∈ l, p x = true) : l.findIdx p < l.length := by
  obtain ⟨x, hx, hp⟩ := h
  exact List.findIdx_lt_length_of_exists ⟨x, hx, hp⟩

theorem ContainsPC_singleton (lo hi pc : Int) :
    ContainsPC [(lo, hi)] pc = true ↔ lo ≤ pc ∧ pc < hi := by
  simp [ContainsPC]

/-- The attribute `switch` for `DW_AT_high_pc` on an entry whose last range is
open. -/
theorem readAttributeValue_high_pc (k : DwarfHeader) (retval : CompilationUnit) (type : Int)
    (debug_start : Int) (jump_table : List Nat) (current_addr : Int)
    (data_table : List symbol) (top_unit_pc : Int)
    (earlier : List (Int × Int)) (L w next : Int)
    (hk : k.attributeLabelsDistinct)
    (hr : retval.ranges = earlier ++ [(L, -1)]) (hL : L ≠ -1)
    (hw : readWord jump_table current_addr = .ok (w, next)) :
    readAttributeValue k retval k.DW_AT_high_pc type debug_start jump_table current_addr
        data_table top_unit_pc =
      .ok ({ retval with ranges := earlier ++
              [(L, if type = k.DW_FORM_addr then toInt32 w else toInt32 (toInt32 w + L))] },
           next, false) := by
  obtain ⟨h1, _, h3⟩ := labels_high_pc k hk
  simp [readAttributeValue, h1, h3, hr, hL, hw, bind, Except.bind, pure, Except.pure]

/-! ## C1: the containment example -/

/-- C1 (as stated, refuted): on the tree of the example, where the compilation
unit U has no ranges of its own, `FindFunctionCall` finds nothing for
pc = 0x150, neither from U nor from the root, although F, the unit at the
pointer [0, 0], has the range [0x100, 0x200). -/
theorem C1_example_finds_nothing :
    FindFunctionCall dwarf4 0x150 (specUnit []) [0] = none
      ∧ FindFunctionCall dwarf4 0x150 (specRoot []) [] = none
      ∧ unitAt (specRoot []) [0, 0] = some specFunction
      ∧ ContainsPC specFunction.ranges 0x150 = true :=
  ⟨rfl, rfl, rfl, rfl⟩

/-- C1 (amended): for a compilation unit U (tag compile-unit) whose only child
is F (tag not compile-unit) with the single range [0x100, 0x200),
`FindFunctionCall` from U returns F, the pointer to the child 0 of U, exactly
when pc lies in one of the ranges of U itself and 0x100 <= pc < 0x200;
with no ranges on U it returns none, and so does a search from a root that
has no ranges. -/
theorem C1_containment (k : DwarfHeader) (U F : CompilationUnit) (this : UnitPtr) (pc : Int)
    (hU : U.tag = k.DW_TAG_compile_unit) (hUc : U.children = [F])
    (hF : F.tag ≠ k.DW_TAG_compile_unit) (hFr : F.ranges = [(0x100, 0x200)]) :
    (FindFunctionCall k pc U this =
      if ContainsPC U.ranges pc = true ∧ 0x100 ≤ pc ∧ pc < 0x200 then some (this ++ [0])
      else none)
    ∧ (U.ranges = [] → FindFunctionCall k pc U this = none)
    ∧ (∀ root : CompilationUnit, root.ranges = [] → FindFunctionCall k pc root [] = none) := by
  obtain ⟨a1, a2, a3, a4, a5, a6, a7, a8⟩ := U
  obtain ⟨b1, b2, b3, b4, b5, b6, b7, b8⟩ := F
  simp only at hU hUc hF hFr
  subst hU hUc hFr
  refine ⟨?_, ?_, ?_⟩
  · simp only [FindFunctionCall, findInChildren, ContainsPC_singleton]
    by_cases h1 : ContainsPC a6 pc = true
    · by_cases h2 : (0x100 : Int) ≤ pc ∧ pc < 0x200
      · simp [h1, h2, hF]
      · have h3 : ¬ ((256 : Int) ≤ pc ∧ pc < 512) := h2
        simp [h1, h3]
    · simp [h1]
  · intro h
    simp only at h
    subst h
    simp [FindFunctionCall, ContainsPC]
  · rintro ⟨c1, c2, c3, c4, c5, c6, c7, c8⟩ h
    simp only at h
    subst h
    simp [FindFunctionCall, ContainsPC]

/-- Witness of C1 (amended): U with the range [0x100, 0x200), pc = 0x150. -/
theorem C1_containment_witness :
    (FindFunctionCall dwarf4 0x150 (specUnit [(0x100, 0x200)]) [0] =
      if ContainsPC (specUnit [(0x100, 0x200)]).ranges 0x150 = true
          ∧ (0x100 : Int) ≤ 0x150 ∧ (0x150 : Int) < 0x200
        then some ([0] ++ [0]) else none)
    ∧ ((specUnit [(0x100, 0x200)]).ranges = [] →
        FindFunctionCall dwarf4 0x150 (specUnit [(0x100, 0x200)]) [0] = none)
    ∧ (∀ root : CompilationUnit, root.ranges = [] →
        FindFunctionCall dwarf4 0x150 root [] = none) :=
  C1_containment dwarf4 (specUnit [(0x100, 0x200)]) specFunction [0] 0x150 rfl rfl
    (by decide) rfl

/-! ## C2: one entry, end to end -/

theorem byte_of_const (c : Int) (h0 : 0 ≤ c) (h1 : c < 256) :
    ((c.toNat % 256 : Nat) : Int) = c := by
  omega

/-- `ReadAttribute` for `DW_AT_name` with a form that is neither a block form
nor the flag-present form. -/
theorem ReadAttribute_name (k : DwarfHeader) (retval : CompilationUnit) (type : Int)
    (debug_start : Int) (jump_table : List Nat) (current_addr : Int)
    (data_table : List symbol) (dtable_ptr top_unit_pc : Int) (w next : Int) (s : List Nat)
    (hform : k.isBlockForm type = false) (hflag : type ≠ k.DW_FORM_flag_present)
    (hw : readWord jump_table current_addr = .ok (w, next))
    (hs : readString jump_table (toInt32 w) = .ok s) :
    ReadAttribute k retval k.DW_AT_name type debug_start jump_table current_addr
        data_table dtable_ptr top_unit_pc =
      .ok ({ retval with name := s }, next, dtable_ptr + 1) := by
  simp [ReadAttribute, readAttributeValue, hw, hs, hform, hflag, bind, Except.bind, pure,
    Except.pure]

/-- `ReadAttribute` for `DW_AT_low_pc` with a form that is neither a block form
nor the flag-present form. -/
theorem ReadAttribute_low_pc (k : DwarfHeader) (retval : CompilationUnit) (type : Int)
    (debug_start : Int) (jump_table : List Nat) (current_addr : Int)
    (data_table : List symbol) (dtable_ptr top_unit_pc : Int) (w next : Int)
    (hk : k.attributeLabelsDistinct)
    (hform : k.isBlockForm type = false) (hflag : type ≠ k.DW_FORM_flag_present)
    (hw : readWord jump_table current_addr = .ok (w, next)) :
    ReadAttribute k retval k.DW_AT_low_pc type debug_start jump_table current_addr
        data_table dtable_ptr top_unit_pc =
      .ok ({ retval with ranges := retval.ranges ++ [(toInt32 w, -1)] }, next,
        dtable_ptr + 1) := by
  obtain ⟨h1, h2⟩ := labels_low_pc k hk
  simp [ReadAttribute, readAttributeValue, h1, h2, hw, hform, hflag, bind, Except.bind, pure,
    Except.pure]

/-- `ReadAttribute` for `DW_AT_high_pc` on an open range, with a form that is
neither a block form nor the flag-present form. -/
theorem ReadAttribute_high_pc (k : DwarfHeader) (retval : CompilationUnit) (type : Int)
    (debug_start : Int) (jump_table : List Nat) (current_addr : Int)
    (data_table : List symbol) (dtable_ptr top_unit_pc : Int)
    (earlier : List (Int × Int)) (L w next : Int)
    (hk : k.attributeLabelsDistinct)
    (hform : k.isBlockForm type = false) (hflag : type ≠ k.DW_FORM_flag_present)
    (hr : retval.ranges = earlier ++ [(L, -1)]) (hL : L ≠ -1)
    (hw : readWord jump_table current_addr = .ok (w, next)) :
    ReadAttribute k retval k.DW_AT_high_pc type debug_start jump_table current_addr
        data_table dtable_ptr top_unit_pc =
      .ok ({ retval with ranges := earlier ++
              [(L, if type = k.DW_FORM_addr then toInt32 w else toInt32 (toInt32 w + L))] },
           next, dtable_ptr + 1) := by
  obtain ⟨_, h2, _⟩ := labels_high_pc k hk
  have hv := readAttributeValue_high_pc k retval type debug_start jump_table current_addr
    data_table top_unit_pc earlier L w next hk hr hL hw
  simp [ReadAttribute, h2, hv, hform, hflag, bind, Except.bind, pure, Except.pure]

/-- C2: on the buffer of the example, built with the constants of a header that
can stand in it, and with any symbol table that has a symbol at the address 1
of the first field, `FindAbbrevCodes` records the abbreviation 1 at offset 13,
and `ReadCompilationUnit` at the cursor 0 returns the entry with the tag
subprogram, named "foo", with the ranges [(0x1000, 0x1040)] and no children,
and leaves the cursor at 13, past the 13 bytes of the entry. -/
theorem C2_end_to_end (k : DwarfHeader) (data_table : List symbol) (fuel : Nat)
    (top_unit_start top_unit_pc : Int) (hk : k.fitsEndToEnd)
    (h : ∃ s ∈ data_table, s.address = 1) :
    FindAbbrevCodes (endToEndTableOf k) 13 29 [] = .ok [{ addr := 13, code := 1 }]
    ∧ ReadCompilationUnit k [{ addr := 13, code := 1 }] data_table (endToEndTableOf k) 29 0 13
        top_unit_start (fuel + 1) 0 top_unit_pc =
      .ok ({ addr := 0, top_level_addr := top_unit_start, abbrevCode := 1,
             tag := k.DW_TAG_subprogram, name := [102, 111, 111],
             ranges := [(0x1000, 0x1040)], pointsTo := k.initialPointsTo,
             children := [] }, 13) := by
  obtain ⟨hlab, hbytes, htag, hmips, hforms, hoff⟩ := hk
  simp only [List.mem_cons, List.mem_singleton, forall_eq_or_imp, forall_eq, List.not_mem_nil,
    false_implies, implies_true, and_true] at hbytes hmips hforms
  obtain ⟨bn, bl, bh, bs, ba, bd⟩ := hbytes
  obtain ⟨⟨mn, hAPn⟩, ⟨ml, hAPl⟩, ⟨mh, hAPh⟩, ⟨mz, hAPz⟩⟩ := hmips
  obtain ⟨⟨fs1, fs2⟩, ⟨fa1, fa2⟩, ⟨fd1, fd2⟩⟩ := hforms
  have r13 : readByte (endToEndTableOf k) 13 = .ok (1, 14) := rfl
  have r14 : readByte (endToEndTableOf k) 14 = .ok (k.DW_TAG_subprogram, 15) := by
    simp [readByte, endToEndTableOf, byte_of_const _ htag.1 htag.2]
  have r15 : readByte (endToEndTableOf k) 15 = .ok (0, 16) := rfl
  have r16 : readByte (endToEndTableOf k) 16 = .ok (k.DW_AT_name, 17) := by
    simp [readByte, endToEndTableOf, byte_of_const _ (le_of_lt bn.1) bn.2]
  have r17 : readByte (endToEndTableOf k) 17 = .ok (k.DW_FORM_strp, 18) := by
    simp [readByte, endToEndTableOf, byte_of_const _ (le_of_lt bs.1) bs.2]
  have r18 : readByte (endToEndTableOf k) 18 = .ok (k.DW_AT_low_pc, 19) := by
    simp [readByte, endToEndTableOf, byte_of_const _ (le_of_lt bl.1) bl.2]
  have r19 : readByte (endToEndTableOf k) 19 = .ok (k.DW_FORM_addr, 20) := by
    simp [readByte, endToEndTableOf, byte_of_const _ (le_of_lt ba.1) ba.2]
  have r20 : readByte (endToEndTableOf k) 20 = .ok (k.DW_AT_high_pc, 21) := by
    simp [readByte, endToEndTableOf, byte_of_const _ (le_of_lt bh.1) bh.2]
  have r21 : readByte (endToEndTableOf k) 21 = .ok (k.DW_FORM_data4, 22) := by
    simp [readByte, endToEndTableOf, byte_of_const _ (le_of_lt bd.1) bd.2]
  have r22 : readByte (endToEndTableOf k) 22 = .ok (0, 23) := rfl
  have r23 : readByte (endToEndTableOf k) 23 = .ok (0, 24) := rfl
  have r24 : readByte (endToEndTableOf k) 24 = .ok (0, 25) := rfl
  have hlen : (endToEndTableOf k).length = 29 := rfl
  have w1 : readWord (endToEndTableOf k) 1 = .ok (25, 5) := rfl
  have w5 : readWord (endToEndTableOf k) 5 = .ok (0x1000, 9) := rfl
  have w9 : readWord (endToEndTableOf k) 9 = .ok (0x40, 13) := rfl
  have s25 : readString (endToEndTableOf k) (toInt32 25) = .ok [102, 111, 111] := rfl
  have r0 : readByte (endToEndTableOf k) 0 = .ok (1, 1) := rfl
  have nn : k.DW_AT_name ≠ 0 := ne_of_gt bn.1
  have nl : k.DW_AT_low_pc ≠ 0 := ne_of_gt bl.1
  have nh : k.DW_AT_high_pc ≠ 0 := ne_of_gt bh.1
  have ns : k.DW_FORM_strp ≠ 0 := ne_of_gt bs.1
  have na : k.DW_FORM_addr ≠ 0 := ne_of_gt ba.1
  have nd : k.DW_FORM_data4 ≠ 0 := ne_of_gt bd.1
  constructor
  · simp [FindAbbrevCodes, findAbbrevLoop, scanAttributes, hlen, r13, r14, r15, r16, r17, r18,
      r19, r20, r21, r22, r23, r24, nn, nl, nh, ns, na, nd]
  · have hi : data_table.findIdx (fun s => (1 : Int) == s.address) < data_table.length := by
      apply findIdx_lt_of_mem
      obtain ⟨s, hs, ha⟩ := h
      exact ⟨s, hs, by simp [ha]⟩
    have a1 := ReadAttribute_name k
      { addr := 0, top_level_addr := top_unit_start, abbrevCode := 1,
        tag := k.DW_TAG_subprogram, name := [], ranges := [], pointsTo := k.initialPointsTo,
        children := [] }
      k.DW_FORM_strp 0 (endToEndTableOf k) 1 data_table
      (data_table.findIdx (fun s => (1 : Int) == s.address)) top_unit_pc 25 5 [102, 111, 111]
      fs1 fs2 w1 s25
    have a2 := ReadAttribute_low_pc k
      { addr := 0, top_level_addr := top_unit_start, abbrevCode := 1,
        tag := k.DW_TAG_subprogram, name := [102, 111, 111], ranges := [],
        pointsTo := k.initialPointsTo, children := [] }
      k.DW_FORM_addr 0 (endToEndTableOf k) 5 data_table
      ((data_table.findIdx (fun s => (1 : Int) == s.address) : Int) + 1) top_unit_pc 0x1000 9
      hlab fa1 fa2 w5
    have a3 := ReadAttribute_high_pc k
      { addr := 0, top_level_addr := top_unit_start, abbrevCode := 1,
        tag := k.DW_TAG_subprogram, name := [102, 111, 111], ranges := [(0x1000, -1)],
        pointsTo := k.initialPointsTo, children := [] }
      k.DW_FORM_data4 0 (endToEndTableOf k) 9 data_table
      ((data_table.findIdx (fun s => (1 : Int) == s.address) : Int) + 1 + 1) top_unit_pc
      [] 0x1000 0x40 13 hlab fd1 fd2 rfl (by decide) w9
    have t1 : toInt32 4096 = 4096 := rfl
    have t2 : toInt32 (toInt32 64 + 4096) = 4160 := rfl
    simp only [List.nil_append, t1] at a2
    simp only [List.nil_append, hoff, if_false, t2] at a3
    have hattrs : readAttributes k 0 (endToEndTableOf k) data_table top_unit_pc (26 + 4) 16
        { addr := 0, top_level_addr := top_unit_start, abbrevCode := 1,
          tag := k.DW_TAG_subprogram, name := [], ranges := [],
          pointsTo := k.initialPointsTo, children := [] }
        1 (data_table.findIdx (fun s => (1 : Int) == s.address)) =
        .ok ({ addr := 0, top_level_addr := top_unit_start, abbrevCode := 1,
               tag := k.DW_TAG_subprogram, name := [102, 111, 111],
               ranges := [(0x1000, 0x1040)], pointsTo := k.initialPointsTo,
               children := [] }, 13) := by
      rw [readAttributes]
      simp only [r16, r17, mn, hAPn, or_self, if_false, nn, false_and, bind, Except.bind,
        pure, Except.pure, a1]
      rw [readAttributes]
      simp only [r18, r19, ml, hAPl, or_self, if_false, nl, false_and, bind, Except.bind,
        pure, Except.pure, a2]
      rw [readAttributes]
      simp only [r20, r21, mh, hAPh, or_self, if_false, nh, false_and, bind, Except.bind,
        pure, Except.pure, a3]
      rw [readAttributes]
      simp only [r22, r23, mz, hAPz, or_self, if_false, bind, Except.bind, pure, Except.pure]
      simp
    rw [ReadCompilationUnit]
    simp only [r0, bind, Except.bind, pure, Except.pure]
    simp only [hlen] at hattrs ⊢
    have hj : List.findIdx (fun ac : AbbreviationCode => ac.code == 1)
        [{ addr := 13, code := 1 }] = 0 := rfl
    simp [hi, hj, r13, r14, r15, hattrs]

/-- Witness of C2: the constants of DWARF 4 and the symbol table with one
4-byte symbol for each field. -/
theorem C2_end_to_end_witness :
    FindAbbrevCodes (endToEndTableOf dwarf4) 13 29 [] = .ok [{ addr := 13, code := 1 }]
    ∧ ReadCompilationUnit dwarf4 [{ addr := 13, code := 1 }]
        [symbol.mk 1 4, symbol.mk 5 4, symbol.mk 9 4] (endToEndTableOf dwarf4) 29 0 13 0
        (0 + 1) 0 0 =
      .ok ({ addr := 0, top_level_addr := 0, abbrevCode := 1, tag := dwarf4.DW_TAG_subprogram,
             name := [102, 111, 111], ranges := [(0x1000, 0x1040)],
             pointsTo := dwarf4.initialPointsTo, children := [] }, 13) :=
  C2_end_to_end dwarf4 [symbol.mk 1 4, symbol.mk 5 4, symbol.mk 9 4] 0 0 0 (by decide)
    ⟨symbol.mk 1 4, by simp, rfl⟩

/-! ## C3: the high bound written by `DW_AT_high_pc` -/

/-- C3: on an entry whose last range is open, (L, -1) with the low bound L set,
decoding `DW_AT_high_pc` whose word is V (as an `int`) rewrites that range to
(L, V) for the form `DW_FORM_addr` and to (L, L + V), in `int` arithmetic, for
every other form; the ranges before it are unchanged.  Every result of the
call has these ranges, and for a form that is not a block form the call
returns with the cursor behind the word. -/
theorem C3_high_pc_bound (k : DwarfHeader) (retval : CompilationUnit) (type : Int)
    (debug_start : Int) (jump_table : List Nat) (current_addr : Int)
    (data_table : List symbol) (dtable_ptr top_unit_pc : Int)
    (earlier : List (Int × Int)) (L w next : Int)
    (hk : k.attributeLabelsDistinct)
    (hr : retval.ranges = earlier ++ [(L, -1)]) (hL : L ≠ -1)
    (hw : readWord jump_table current_addr = .ok (w, next)) :
    (∀ r a d, ReadAttribute k retval k.DW_AT_high_pc type debug_start jump_table current_addr
          data_table dtable_ptr top_unit_pc = .ok (r, a, d) →
        r = { retval with ranges := earlier ++
          [(L, if type = k.DW_FORM_addr then toInt32 w else toInt32 (toInt32 w + L))] })
    ∧ (k.isBlockForm type = false →
        ∃ d, ReadAttribute k retval k.DW_AT_high_pc type debug_start jump_table current_addr
          data_table dtable_ptr top_unit_pc =
        .ok ({ retval with ranges := earlier ++
          [(L, if type = k.DW_FORM_addr then toInt32 w else toInt32 (toInt32 w + L))] },
          next, d))
    ∧ (-2147483648 ≤ L + toInt32 w → L + toInt32 w < 2147483648 →
        toInt32 (toInt32 w + L) = L + toInt32 w) := by
  obtain ⟨h1, h2, _⟩ := labels_high_pc k hk
  have hv := readAttributeValue_high_pc k retval type debug_start jump_table current_addr
    data_table top_unit_pc earlier L w next hk hr hL hw
  refine ⟨?_, ?_, ?_⟩
  · intro r a d hres
    simp only [ReadAttribute, h2, and_false, if_false, hv, bind, Except.bind, pure,
      Except.pure] at hres
    split at hres
    · cases hs : symbolAt data_table dtable_ptr with
      | error e => simp [hs] at hres
      | ok s =>
        simp only [hs] at hres
        cases hv2 : readVarSize jump_table next s.size with
        | error e => simp [hv2] at hres
        | ok v =>
          simp only [hv2, Except.ok.injEq, Prod.mk.injEq] at hres
          exact hres.1.symm
    · split at hres
      · simp only [Except.ok.injEq, Prod.mk.injEq] at hres
        exact hres.1.symm
      · simp only [Bool.false_eq_true, if_false, Except.ok.injEq, Prod.mk.injEq] at hres
        exact hres.1.symm
  · intro hb
    simp only [ReadAttribute, h2, and_false, if_false, hv, bind, Except.bind, pure,
      Except.pure, hb]
    by_cases hf : type = k.DW_FORM_flag_present
    · exact ⟨dtable_ptr - 1 + 1, by simp [hf]⟩
    · exact ⟨dtable_ptr + 1, by simp [hf]⟩
  · intro h3 h4
    rw [add_comm]
    exact toInt32_of_range _ h3 h4

/-- Witness of C3: the open range (0x1000, -1) and the word 0x40 in the form
`DW_FORM_data4`. -/
theorem C3_high_pc_bound_witness :
    (∀ r a d, ReadAttribute dwarf4 (endToEndEntry 0 [] [(0x1000, -1)]) dwarf4.DW_AT_high_pc
          dwarf4.DW_FORM_data4 0 endToEndTable 9 [] 2 0 = .ok (r, a, d) →
        r = { endToEndEntry 0 [] [(0x1000, -1)] with ranges := [] ++
          [(0x1000, if dwarf4.DW_FORM_data4 = dwarf4.DW_FORM_addr then toInt32 0x40
              else toInt32 (toInt32 0x40 + 0x1000))] })
    ∧ (dwarf4.isBlockForm dwarf4.DW_FORM_data4 = false →
        ∃ d, ReadAttribute dwarf4 (endToEndEntry 0 [] [(0x1000, -1)]) dwarf4.DW_AT_high_pc
          dwarf4.DW_FORM_data4 0 endToEndTable 9 [] 2 0 =
        .ok ({ endToEndEntry 0 [] [(0x1000, -1)] with ranges := [] ++
          [(0x1000, if dwarf4.DW_FORM_data4 = dwarf4.DW_FORM_addr then toInt32 0x40
              else toInt32 (toInt32 0x40 + 0x1000))] }, 13, d))
    ∧ (-2147483648 ≤ 0x1000 + toInt32 0x40 → 0x1000 + toInt32 0x40 < 2147483648 →
        toInt32 (toInt32 0x40 + 0x1000) = 0x1000 + toInt32 0x40) :=
  C3_high_pc_bound dwarf4 (endToEndEntry 0 [] [(0x1000, -1)]) dwarf4.DW_FORM_data4 0
    endToEndTable 9 [] 2 0 [] 0x1000 0x40 13 dwarf4_labels rfl (by decide) rfl

theorem toUInt32_of_nat (n : Nat) (h : n < 4294967296) : toUInt32 (n : Int) = n := by
  unfold toUInt32; omega

/-- The loop of `DW_AT_ranges`: with the terminator at the pair `n`, the loop
returns the `n` pairs before it, each shifted by `top_unit_pc`. -/
theorem readRangePairs_terminator (jump_table : List Nat) (data_table : List symbol)
    (b : Int) (val : Nat → Int) (hlen : data_table.length < 2147483648) :
    ∀ (n fuel kk : Nat) (ranges : List (Int × Int)),
      n < fuel →
      kk + 2 * n + 1 < data_table.length →
      (∀ j, kk ≤ j → j ≤ kk + 2 * n + 1 →
        readRangeBound jump_table data_table (j : Int) = .ok (val j)) →
      (∀ m, m < n → ¬ (val (kk + 2 * m) = 0 ∧ val (kk + 2 * m + 1) = 0)) →
      val (kk + 2 * n) = 0 → val (kk + 2 * n + 1) = 0 →
      readRangePairs jump_table data_table b fuel (kk : Int) ranges =
        .ok (ranges ++ (List.range n).map
          (fun m => (toInt32 (val (kk + 2 * m) + b), toInt32 (val (kk + 2 * m + 1) + b)))) := by
  intro n
  induction n with
  | zero =>
    intro fuel kk ranges hf hk hv _ hz0 hz1
    obtain ⟨f, rfl⟩ : ∃ f, fuel = f + 1 := ⟨fuel - 1, by omega⟩
    have hg : ¬ (toUInt32 (kk : Int) > ((data_table.length : Int) - 2) % 18446744073709551616) := by
      rw [toUInt32_of_nat kk (by omega)]
      omega
    have e0 := hv kk (le_refl _) (by omega)
    have e1 := hv (kk + 1) (by omega) (by omega)
    simp only [Nat.mul_zero, Nat.add_zero] at hz0 hz1
    rw [hz0] at e0
    rw [hz1] at e1
    have e1' : readRangeBound jump_table data_table ((kk : Int) + 1) = .ok 0 := by
      exact_mod_cast e1
    simp [readRangePairs, hg, e0, e1', bind, Except.bind, pure, Except.pure]
  | succ n ih =>
    intro fuel kk ranges hf hk hv hnz hz0 hz1
    obtain ⟨f, rfl⟩ : ∃ f, fuel = f + 1 := ⟨fuel - 1, by omega⟩
    have hg : ¬ (toUInt32 (kk : Int) > ((data_table.length : Int) - 2) % 18446744073709551616) := by
      rw [toUInt32_of_nat kk (by omega)]
      omega
    have e0 := hv kk (le_refl _) (by omega)
    have e1 := hv (kk + 1) (by omega) (by omega)
    have e1' : readRangeBound jump_table data_table ((kk : Int) + 1) = .ok (val (kk + 1)) := by
      exact_mod_cast e1
    have hfirst := hnz 0 (by omega)
    simp only [Nat.mul_zero, Nat.add_zero] at hfirst
    have hrec := ih f (kk + 2) (ranges ++ [(toInt32 (val kk + b), toInt32 (val (kk + 1) + b))])
      (by omega) (by omega)
      (fun j h1 h2 => hv j (by omega) (by omega))
      (fun m hm => by
        have := hnz (m + 1) (by omega)
        have e : kk + 2 + 2 * m = kk + 2 * (m + 1) := by ring
        rw [e]; exact this)
      (by have e : kk + 2 + 2 * n = kk + 2 * (n + 1) := by ring
          rw [e]; exact hz0)
      (by have e : kk + 2 + 2 * n + 1 = kk + 2 * (n + 1) + 1 := by ring
          rw [e]; exact hz1)
    have hcast : ((kk : Int) + 2) = ((kk + 2 : Nat) : Int) := by push_cast; ring
    rw [readRangePairs]
    simp only [hg, if_false, Int.add_zero, e0, e1', bind, Except.bind, pure, Except.pure, hfirst]
    rw [hcast, hrec, List.range_succ_eq_map, List.map_cons, List.map_map]
    simp only [List.append_assoc, List.singleton_append, Nat.mul_zero, Nat.add_zero]
    congr 2
    apply congrArg
    apply List.map_congr_left
    intro m _
    simp only [Function.comp, Nat.succ_eq_add_one]
    have e : kk + 2 + 2 * m = kk + 2 * (m + 1) := by ring
    rw [e]

/-- A call of `ReadAttribute` that returns either took the early return of
`DW_AT_APPLE_optimized` or returns the entry of the attribute `switch`. -/
theorem ReadAttribute_value (k : DwarfHeader) (retval : CompilationUnit) (attr type : Int)
    (debug_start : Int) (jump_table : List Nat) (current_addr : Int)
    (data_table : List symbol) (dtable_ptr top_unit_pc : Int)
    (r : CompilationUnit) (a d : Int)
    (hres : ReadAttribute k retval attr type debug_start jump_table current_addr
      data_table dtable_ptr top_unit_pc = .ok (r, a, d)) :
    ((attr ≠ k.DW_AT_name ∧ attr = k.DW_AT_APPLE_optimized) ∧ r = retval)
    ∨ ∃ a1 u, readAttributeValue k retval attr type debug_start jump_table current_addr
        data_table top_unit_pc = .ok (r, a1, u) := by
  unfold ReadAttribute at hres
  split at hres
  · left
    rename_i h
    simp only [pure, Except.pure, Except.ok.injEq, Prod.mk.injEq] at hres
    exact ⟨h, hres.1.symm⟩
  · right
    cases hv : readAttributeValue k retval attr type debug_start jump_table current_addr
        data_table top_unit_pc with
    | error e => simp [hv, bind, Except.bind] at hres
    | ok v =>
      obtain ⟨r1, a1, u⟩ := v
      simp only [hv, bind, Except.bind, pure, Except.pure] at hres
      refine ⟨a1, u, ?_⟩
      split at hres
      · cases hs : symbolAt data_table dtable_ptr with
        | error e => simp [hs] at hres
        | ok s =>
          simp only [hs] at hres
          cases hv2 : readVarSize jump_table a1 s.size with
          | error e => simp [hv2] at hres
          | ok v =>
            simp only [hv2, Except.ok.injEq, Prod.mk.injEq] at hres
            rw [hres.1]
      · split at hres
        · simp only [Except.ok.injEq, Prod.mk.injEq] at hres
          rw [hres.1]
        · split at hres
          · cases hs : symbolAt data_table dtable_ptr with
            | error e => simp [hs] at hres
            | ok s =>
              simp only [hs, Except.ok.injEq, Prod.mk.injEq] at hres
              rw [hres.1]
          · simp only [Except.ok.injEq, Prod.mk.injEq] at hres
            rw [hres.1]

/-! ## The writes to the ranges -/

/-- The writes of `ReadAttribute` to the ranges.  Whenever it returns: for
`DW_AT_low_pc` it has appended an open range (v, -1); for `DW_AT_high_pc` the
last range of the entry was open, (L, -1) with L set, and it is now (L, h);
for every other attribute except `DW_AT_ranges` the ranges are unchanged.  At
the end marker of the attribute list the attribute loop returns the entry as
it is. -/
theorem ReadAttribute_range_writes (k : DwarfHeader) (retval : CompilationUnit) (attr type : Int)
    (debug_start : Int) (jump_table : List Nat) (current_addr : Int)
    (data_table : List symbol) (dtable_ptr top_unit_pc : Int)
    (r : CompilationUnit) (a d : Int)
    (hk : k.attributeLabelsDistinct)
    (hres : ReadAttribute k retval attr type debug_start jump_table current_addr
      data_table dtable_ptr top_unit_pc = .ok (r, a, d)) :
    (attr = k.DW_AT_low_pc → ∃ v, r.ranges = retval.ranges ++ [(v, -1)])
    ∧ (attr = k.DW_AT_high_pc → ∃ earlier L h, L ≠ -1
        ∧ retval.ranges = earlier ++ [(L, -1)] ∧ r.ranges = earlier ++ [(L, h)])
    ∧ (attr ≠ k.DW_AT_low_pc → attr ≠ k.DW_AT_high_pc → attr ≠ k.DW_AT_ranges →
        r.ranges = retval.ranges)
    ∧ (∀ (fuel : Nat) (abbrev_addr a1 a2 : Int),
        readByte jump_table abbrev_addr = .ok (0, a1) →
        readByte jump_table a1 = .ok (0, a2) →
        k.DW_AT_MIPS_linkage_name ≠ 0 → k.DW_AT_APPLE_optimized ≠ 0 →
        readAttributes k debug_start jump_table data_table top_unit_pc (fuel + 1) abbrev_addr
          r a d = .ok (r, a)) := by
  obtain ⟨hl1, hl2⟩ := labels_low_pc k hk
  obtain ⟨hh1, hh2, hh3⟩ := labels_high_pc k hk
  have hcases := ReadAttribute_value k retval attr type debug_start jump_table current_addr
    data_table dtable_ptr top_unit_pc r a d hres
  refine ⟨?_, ?_, ?_, ?_⟩
  · intro hattr
    subst hattr
    rcases hcases with ⟨⟨_, h⟩, _⟩ | ⟨a1, u, hv⟩
    · exact absurd h hl2
    · simp only [readAttributeValue, hl1, if_false, if_true, bind, Except.bind, pure,
        Except.pure] at hv
      cases hw : readWord jump_table current_addr with
      | error e => simp [hw] at hv
      | ok v =>
        simp only [hw, Except.ok.injEq, Prod.mk.injEq] at hv
        exact ⟨toInt32 v.1, by rw [← hv.1]⟩
  · intro hattr
    subst hattr
    rcases hcases with ⟨⟨_, h⟩, _⟩ | ⟨a1, u, hv⟩
    · exact absurd h hh2
    · simp only [readAttributeValue, hh1, hh3, if_false, if_true] at hv
      cases hlast : retval.ranges.getLast? with
      | none => simp [hlast] at hv
      | some p =>
        obtain ⟨first, second⟩ := p
        simp only [hlast] at hv
        split at hv
        · simp at hv
        · rename_i hopen
          have hfirst : first ≠ -1 := fun e => hopen (Or.inl e)
          have hsecond : second = -1 := by
            by_contra e
            exact hopen (Or.inr e)
          subst hsecond
          have hsplit : retval.ranges = retval.ranges.dropLast ++ [(first, -1)] :=
            (List.dropLast_append_getLast? (first, -1) (by simp [hlast])).symm
          cases hw : readWord jump_table current_addr with
          | error e => simp [hw, bind, Except.bind] at hv
          | ok v =>
            simp only [hw, bind, Except.bind, pure, Except.pure, Except.ok.injEq,
              Prod.mk.injEq] at hv
            exact ⟨retval.ranges.dropLast, first, _, hfirst, hsplit, by rw [← hv.1]⟩
  · intro h1 h2 h3
    rcases hcases with ⟨_, h⟩ | ⟨a1, u, hv⟩
    · rw [h]
    · simp only [readAttributeValue, h1, h2, h3, if_false] at hv
      split at hv
      · cases hw : readWord jump_table current_addr with
        | error e => simp [hw, bind, Except.bind] at hv
        | ok v =>
          simp only [hw, bind, Except.bind] at hv
          cases hs : readString jump_table (toInt32 v.1) with
          | error e => simp [hs] at hv
          | ok n =>
            simp only [hs, pure, Except.pure, Except.ok.injEq, Prod.mk.injEq] at hv
            rw [← hv.1]
      · split at hv
        · cases hw : readVarType k jump_table current_addr type with
          | error e => simp [hw, bind, Except.bind] at hv
          | ok v =>
            simp only [hw, bind, Except.bind] at hv
            split at hv <;>
              (simp only [pure, Except.pure, Except.ok.injEq, Prod.mk.injEq] at hv
               rw [← hv.1])
        · simp only [pure, Except.pure, Except.ok.injEq, Prod.mk.injEq] at hv
          rw [← hv.1]
  · intro fuel abbrev_addr a1 a2 hb1 hb2 hm ha
    have hm' : ¬ ((0 : Int) = k.DW_AT_MIPS_linkage_name) := fun e => hm e.symm
    have ha' : ¬ ((0 : Int) = k.DW_AT_APPLE_optimized) := fun e => ha e.symm
    simp [readAttributes, hb1, hb2, hm', ha', bind, Except.bind, pure, Except.pure]

/-! ## C10: the scan of the abbreviation table -/

theorem readByte_inside (jump_table : List Nat) (x : Nat) (h : x < jump_table.length) :
    readByte jump_table (x : Int) = .ok ((byteAt jump_table x : Int), ((x + 1 : Nat) : Int)) := by
  have hg : jump_table[x]? = some jump_table[x] := List.getElem?_eq_getElem h
  simp [readByte, byteAt, List.getD, hg]

/-- The attribute scan ends behind the first two consecutive zero bytes. -/
theorem scanAttributes_end (jump_table : List Nat) (q : Nat) (hq : q ≤ jump_table.length) :
    ∀ (n x : Nat) (rz : Bool) (fuel : Nat),
      x + n = q → 1 ≤ n → n ≤ fuel →
      byteAt jump_table (q - 1) = 0 →
      (2 ≤ n → byteAt jump_table (q - 2) = 0) →
      (n = 1 → rz = true) →
      (rz = true → x + 1 < q → byteAt jump_table x ≠ 0) →
      (∀ m, x ≤ m → m + 2 < q → ¬ (byteAt jump_table m = 0 ∧ byteAt jump_table (m + 1) = 0)) →
      scanAttributes jump_table (jump_table.length : Int) fuel (x : Int) rz = .ok (q : Int) := by
  intro n
  induction n with
  | zero => intro x rz fuel _ h; omega
  | succ n ih =>
    intro x rz fuel hx _ hf hz1 hz2 hone hrz hno
    obtain ⟨f, rfl⟩ : ∃ f, fuel = f + 1 := ⟨fuel - 1, by omega⟩
    have hin : x < jump_table.length := by omega
    have hguard : ¬ ((x : Int) ≥ (jump_table.length : Int)) := by omega
    rw [scanAttributes]
    simp only [hguard, if_false, readByte_inside jump_table x hin]
    by_cases hn : n = 0
    · subst hn
      have hxq : x = q - 1 := by omega
      have hb : (byteAt jump_table x : Int) = 0 := by rw [hxq, hz1]; rfl
      have hq1 : x + 1 = q := by omega
      simp [hb, hone rfl, hq1]
    · by_cases hb : byteAt jump_table x = 0
      · have hrzf : rz = false := by
          cases rz with
          | false => rfl
          | true => exact absurd hb (hrz rfl (by omega))
        have hb' : (byteAt jump_table x : Int) = 0 := by rw [hb]; rfl
        simp only [hb', if_true, hrzf, Bool.false_eq_true, if_false]
        apply ih (x + 1) true f (by omega) (by omega) (by omega) hz1
          (fun h => hz2 (by omega)) (fun _ => rfl)
        · intro _ h2 hb2
          exact hno x (le_refl _) (by omega) ⟨hb, hb2⟩
        · intro m h1 h2
          exact hno m (by omega) h2
      · have hb' : ¬ ((byteAt jump_table x : Int) = 0) := by
          intro e; exact hb (by exact_mod_cast e)
        simp only [hb', if_false]
        apply ih (x + 1) false f (by omega) (by omega) (by omega) hz1
          (fun h => hz2 (by omega))
        · intro h1
          exfalso
          have hx2 : x = q - 2 := by omega
          exact hb (by rw [hx2]; exact hz2 (by omega))
        · intro h; exact absurd h (by simp)
        · intro m h1 h2
          exact hno m (by omega) h2

theorem TopLevelEntries_length (jump_table : List Nat) (a p : Nat) (es : List AbbreviationCode)
    (h : TopLevelEntries jump_table a es p) : a + 5 * es.length ≤ p := by
  induction h with
  | done a => simp
  | entry a q p rest _ hq _ ih =>
    have := hq.1
    simp only [List.length_cons]
    omega

/-- The scan loop records the top-level entries up to a zero code byte and
stops at that byte. -/
theorem findAbbrevLoop_entries (jump_table : List Nat) (a p : Nat) (es : List AbbreviationCode)
    (h : TopLevelEntries jump_table a es p) (hp : p < jump_table.length)
    (hz : byteAt jump_table p = 0) :
    ∀ (fuel : Nat) (acc : List AbbreviationCode), es.length < fuel →
      findAbbrevLoop jump_table (jump_table.length : Int) fuel (a : Int) acc
        = .ok (acc ++ es, (p : Int)) := by
  induction h with
  | done a =>
    intro fuel acc hf
    obtain ⟨f, rfl⟩ : ∃ f, fuel = f + 1 := ⟨fuel - 1, by omega⟩
    have hz' : (byteAt jump_table a : Int) = 0 := by rw [hz]; rfl
    rw [findAbbrevLoop]
    split
    · simp [readByte_inside jump_table a hp, hz']
    · simp
  | entry a q p rest hcode hq _ ih =>
    intro fuel acc hf
    obtain ⟨f, rfl⟩ : ∃ f, fuel = f + 1 := ⟨fuel - 1, by simp at hf; omega⟩
    obtain ⟨hq1, hq2, hq3, hq4, hq5⟩ := hq
    have hguard : (a : Int) < (jump_table.length : Int) - 2 := by omega
    have hcode' : ¬ ((byteAt jump_table a : Int) = 0) := by
      intro e; exact hcode (by exact_mod_cast e)
    have hscan := scanAttributes_end jump_table q hq2 (q - (a + 3)) (a + 3) false
      (jump_table.length + 1) (by omega) (by omega) (by omega) hq4 (fun _ => hq3)
      (fun h => by omega) (fun h => absurd h (by simp)) hq5
    have hrec := ih hp hz f (acc ++ [{ addr := (a : Int), code := (byteAt jump_table a : Int) }])
      (by simp at hf; omega)
    have c1 : (((a + 1 : Nat) : Int)) = ((a + 1 : Nat) : Int) := rfl
    rw [findAbbrevLoop]
    simp only [hguard, if_true, readByte_inside jump_table a (by omega), hcode', if_false,
      readByte_inside jump_table (a + 1) (by omega),
      readByte_inside jump_table (a + 1 + 1) (by omega)]
    rw [show a + 1 + 1 + 1 = a + 3 from rfl, hscan]
    simp only [hrec, List.append_assoc, List.singleton_append]

theorem scanAttributes_safe (jump_table : List Nat) :
    ∀ (fuel x : Nat) (rz : Bool), jump_table.length - x < fuel →
      (∃ q : Nat, x < q ∧
        scanAttributes jump_table (jump_table.length : Int) fuel (x : Int) rz = .ok (q : Int))
      ∨ scanAttributes jump_table (jump_table.length : Int) fuel (x : Int) rz
          = .error .exitAbbrevOverrun := by
  intro fuel
  induction fuel with
  | zero => intro x rz h; omega
  | succ f ih =>
    intro x rz h
    rw [scanAttributes]
    by_cases hx : (x : Int) ≥ (jump_table.length : Int)
    · right; simp [hx]
    · have hin : x < jump_table.length := by omega
      simp only [hx, if_false, readByte_inside jump_table x hin]
      have step : ∀ rz2, (∃ q : Nat, x < q ∧
          scanAttributes jump_table (jump_table.length : Int) f ((x + 1 : Nat) : Int) rz2
            = .ok (q : Int))
          ∨ scanAttributes jump_table (jump_table.length : Int) f ((x + 1 : Nat) : Int) rz2
            = .error .exitAbbrevOverrun := by
        intro rz2
        rcases ih (x + 1) rz2 (by omega) with ⟨q, hq, e⟩ | e
        · exact Or.inl ⟨q, by omega, e⟩
        · exact Or.inr e
      split
      · split
        · exact Or.inl ⟨x + 1, by omega, rfl⟩
        · exact step true
      · exact step false

theorem findAbbrevLoop_safe (jump_table : List Nat) :
    ∀ (fuel x : Nat) (acc : List AbbreviationCode), jump_table.length - x < fuel →
      (∃ r, findAbbrevLoop jump_table (jump_table.length : Int) fuel (x : Int) acc = .ok r)
      ∨ findAbbrevLoop jump_table (jump_table.length : Int) fuel (x : Int) acc
          = .error .exitAbbrevOverrun := by
  intro fuel
  induction fuel with
  | zero => intro x acc h; omega
  | succ f ih =>
    intro x acc h
    rw [findAbbrevLoop]
    by_cases hx : (x : Int) < (jump_table.length : Int) - 2
    · simp only [hx, if_true, readByte_inside jump_table x (by omega),
        readByte_inside jump_table (x + 1) (by omega),
        readByte_inside jump_table (x + 1 + 1) (by omega)]
      split
      · exact Or.inl ⟨_, rfl⟩
      · rcases scanAttributes_safe jump_table (jump_table.length + 1) (x + 1 + 1 + 1) false
          (by omega) with ⟨q, hq, e⟩ | e
        · rw [e]
          exact ih q _ (by omega)
        · rw [e]
          exact Or.inr rfl
    · simp only [hx, if_false]
      exact Or.inl ⟨_, rfl⟩

/-- C10: for a buffer of which `jtable_size` is the length and a start offset
that is not negative, `FindAbbrevCodes` never ends in a read outside the
buffer (the only undefined behaviour of the scan in this model) and never
runs out of fuel; and when the top-level entries from the start offset on lead
to a zero code byte at the offset p of the buffer, the scan stops at p and has
recorded exactly these entries, in order, behind the records it had. -/
theorem C10_abbrev_scan (jump_table : List Nat) (abbrev_start : Int)
    (abbrevCodes : List AbbreviationCode) (h0 : 0 ≤ abbrev_start) :
    FindAbbrevCodes jump_table abbrev_start (jump_table.length : Int) abbrevCodes
        ≠ .error .undefinedBehaviour
    ∧ FindAbbrevCodes jump_table abbrev_start (jump_table.length : Int) abbrevCodes
        ≠ .error .outOfFuel
    ∧ ∀ (es : List AbbreviationCode) (p : Nat),
        TopLevelEntries jump_table abbrev_start.toNat es p →
        p < jump_table.length → byteAt jump_table p = 0 →
        findAbbrevLoop jump_table (jump_table.length : Int) (jump_table.length + 1)
            abbrev_start abbrevCodes = .ok (abbrevCodes ++ es, (p : Int))
        ∧ FindAbbrevCodes jump_table abbrev_start (jump_table.length : Int) abbrevCodes
            = .ok (abbrevCodes ++ es) := by
  obtain ⟨x, rfl⟩ : ∃ x : Nat, abbrev_start = (x : Int) := ⟨abbrev_start.toNat, by omega⟩
  have hsafe := findAbbrevLoop_safe jump_table (jump_table.length + 1) x abbrevCodes (by omega)
  refine ⟨?_, ?_, ?_⟩
  · rcases hsafe with ⟨r, e⟩ | e <;> simp [FindAbbrevCodes, e]
  · rcases hsafe with ⟨r, e⟩ | e <;> simp [FindAbbrevCodes, e]
  · intro es p hchain hp hz
    simp only [Int.toNat_ofNat] at hchain
    have hlen := TopLevelEntries_length jump_table x p es hchain
    have hloop := findAbbrevLoop_entries jump_table x p es hchain hp hz
      (jump_table.length + 1) abbrevCodes (by omega)
    exact ⟨hloop, by simp [FindAbbrevCodes, hloop]⟩

/-- Witness of C10: the abbreviation table of the end-to-end example, from the
offset 13; its only entry ends before the zero code byte at the offset 24. -/
theorem C10_abbrev_scan_witness :
    FindAbbrevCodes endToEndTable 13 (endToEndTable.length : Int) []
        ≠ .error .undefinedBehaviour
    ∧ FindAbbrevCodes endToEndTable 13 (endToEndTable.length : Int) [] ≠ .error .outOfFuel
    ∧ findAbbrevLoop endToEndTable (endToEndTable.length : Int) (endToEndTable.length + 1)
        13 [] = .ok ([] ++ [{ addr := 13, code := 1 }], ((24 : Nat) : Int))
    ∧ FindAbbrevCodes endToEndTable 13 (endToEndTable.length : Int) []
        = .ok ([] ++ [{ addr := 13, code := 1 }]) :=
  have h := C10_abbrev_scan endToEndTable 13 [] (by decide)
  ⟨h.1, h.2.1,
   h.2.2 [{ addr := 13, code := 1 }] 24
     (TopLevelEntries.entry 13 24 24 [] (by decide)
       ⟨by decide, by decide, by decide, by decide, fun m h1 h2 => by
         have h3 : m = 16 ∨ m = 17 ∨ m = 18 ∨ m = 19 ∨ m = 20 ∨ m = 21 := by omega
         rcases h3 with rfl | rfl | rfl | rfl | rfl | rfl <;> decide⟩
       (TopLevelEntries.done 24))
     (by decide) (by decide)⟩

/-! ## Pointers into the tree -/

theorem ptrLt_irrefl : ∀ p : UnitPtr, ¬ ptrLt p p
  | [] => by simp [ptrLt]
  | a :: p => by
    simp only [ptrLt, lt_self_iff_false, true_and, false_or]
    exact ptrLt_irrefl p

theorem ptrLt_asymm : ∀ p q : UnitPtr, ptrLt p q → ¬ ptrLt q p
  | [], [] => by simp [ptrLt]
  | [], _ :: _ => by simp [ptrLt]
  | _ :: _, [] => by simp [ptrLt]
  | a :: p, b :: q => by
    simp only [ptrLt]
    rintro (h | ⟨h1, h2⟩) (h3 | ⟨h4, h5⟩)
    · omega
    · omega
    · omega
    · exact ptrLt_asymm p q h2 h5

theorem ptrLt_append_left : ∀ (t a b : UnitPtr), ptrLt (t ++ a) (t ++ b) ↔ ptrLt a b
  | [], a, b => by simp
  | x :: t, a, b => by
    simp only [List.cons_append, ptrLt, lt_self_iff_false, true_and, false_or]
    exact ptrLt_append_left t a b

theorem ptrLt_extension (p r : UnitPtr) (h : r ≠ []) : ptrLt p (p ++ r) := by
  have h1 : ptrLt (p ++ []) (p ++ r) := by
    rw [ptrLt_append_left]
    cases r with
    | nil => exact absurd rfl h
    | cons a r => simp [ptrLt]
  simpa using h1

theorem unitAt_cons (u : CompilationUnit) (j : Nat) (r : UnitPtr) :
    unitAt u (j :: r) = u.children[j]?.bind (fun c => unitAt c r) := by
  rw [unitAt]
  cases u.children[j]? <;> rfl

mutual
/-- The pointers `AddUnitList` pushes for a unit are the pointers to the units
of its subtree. -/
theorem mem_AddUnitList : ∀ (u : CompilationUnit) (this q : UnitPtr),
    q ∈ AddUnitList u this ↔ ∃ r, q = this ++ r ∧ (unitAt u r).isSome = true
  | ⟨a1, a2, a3, a4, a5, a6, a7, children⟩, this, q => by
    rw [AddUnitList, List.mem_cons, mem_addChildren children this 0 q]
    constructor
    · rintro (h | ⟨j, c, r, hc, hq, hr⟩)
      · exact ⟨[], by simp [h], by simp [unitAt]⟩
      · refine ⟨j :: r, by simpa using hq, ?_⟩
        rw [unitAt_cons]
        simp only [hc, Option.bind]
        exact hr
    · rintro ⟨r, hq, hr⟩
      cases r with
      | nil => left; simpa using hq
      | cons j r =>
        right
        rw [unitAt_cons] at hr
        cases hc : children[j]? with
        | none => simp [hc] at hr
        | some c =>
          simp only [hc, Option.bind] at hr
          exact ⟨j, c, r, hc, by simpa using hq, hr⟩
theorem mem_addChildren : ∀ (cs : List CompilationUnit) (this : UnitPtr) (i : Nat) (q : UnitPtr),
    q ∈ addChildren cs this i ↔
      ∃ j c r, cs[j]? = some c ∧ q = this ++ (i + j) :: r ∧ (unitAt c r).isSome = true
  | [], this, i, q => by simp [addChildren]
  | c :: cs, this, i, q => by
    rw [addChildren, List.mem_append, mem_AddUnitList c (this ++ [i]) q,
      mem_addChildren cs this (i + 1) q]
    constructor
    · rintro (⟨r, hq, hr⟩ | ⟨j, d, r, hd, hq, hr⟩)
      · exact ⟨0, c, r, by simp, by simpa using hq, hr⟩
      · refine ⟨j + 1, d, r, by simpa using hd, ?_, hr⟩
        rw [hq]
        congr 2
        omega
    · rintro ⟨j, d, r, hd, hq, hr⟩
      cases j with
      | zero =>
        left
        simp only [List.getElem?_cons_zero, Option.some.injEq] at hd
        subst hd
        exact ⟨r, by simpa using hq, hr⟩
      | succ j =>
        right
        refine ⟨j, d, r, by simpa using hd, ?_, hr⟩
        rw [hq]
        congr 2
        omega
end

mutual
/-- The pointers `AddUnitList` pushes are in pre-order. -/
theorem sorted_AddUnitList : ∀ (u : CompilationUnit) (this : UnitPtr),
    (AddUnitList u this).Pairwise ptrLt
  | ⟨a1, a2, a3, a4, a5, a6, a7, children⟩, this => by
    rw [AddUnitList, List.pairwise_cons]
    refine ⟨?_, sorted_addChildren children this 0⟩
    intro q hq
    rw [mem_addChildren] at hq
    obtain ⟨j, c, r, _, hq, _⟩ := hq
    rw [hq]
    exact ptrLt_extension this _ (by simp)
theorem sorted_addChildren : ∀ (cs : List CompilationUnit) (this : UnitPtr) (i : Nat),
    (addChildren cs this i).Pairwise ptrLt
  | [], this, i => by simp [addChildren]
  | c :: cs, this, i => by
    rw [addChildren, List.pairwise_append]
    refine ⟨sorted_AddUnitList c (this ++ [i]), sorted_addChildren cs this (i + 1), ?_⟩
    intro a ha b hb
    rw [mem_AddUnitList] at ha
    rw [mem_addChildren] at hb
    obtain ⟨r, ha, _⟩ := ha
    obtain ⟨j, d, r2, _, hb, _⟩ := hb
    rw [ha, hb, List.append_assoc, ptrLt_append_left]
    simp only [List.singleton_append, ptrLt]
    left
    omega
end

theorem AddUnitList_head (u : CompilationUnit) (this : UnitPtr) :
    (AddUnitList u this).head? = some this := by
  obtain ⟨a1, a2, a3, a4, a5, a6, a7, children⟩ := u
  rw [AddUnitList]
  rfl

/-- The pointers pushed for a child are a contiguous block of the pointers
pushed by the loop over the children. -/
theorem block_addChildren (this : UnitPtr) :
    ∀ (cs : List CompilationUnit) (i j : Nat) (c : CompilationUnit), cs[j]? = some c →
      ∃ l1 l2, addChildren cs this i = l1 ++ AddUnitList c (this ++ [i + j]) ++ l2 := by
  intro cs
  induction cs with
  | nil => intro i j c h; simp at h
  | cons x cs ih =>
    intro i j c h
    rw [addChildren]
    cases j with
    | zero =>
      simp only [List.getElem?_cons_zero, Option.some.injEq] at h
      subst h
      exact ⟨[], addChildren cs this (i + 1), by simp⟩
    | succ j =>
      simp only [List.getElem?_cons_succ] at h
      obtain ⟨l1, l2, e⟩ := ih (i + 1) j c h
      refine ⟨AddUnitList x (this ++ [i]) ++ l1, l2, ?_⟩
      rw [e]
      have e2 : i + 1 + j = i + (j + 1) := by omega
      rw [e2]
      simp only [List.append_assoc]

/-- The pointers pushed for a unit of the subtree are a contiguous block of
the pointers pushed for the subtree. -/
theorem block_AddUnitList : ∀ (r : UnitPtr) (u v : CompilationUnit) (this : UnitPtr),
    unitAt u r = some v →
      ∃ l1 l2, AddUnitList u this = l1 ++ AddUnitList v (this ++ r) ++ l2 := by
  intro r
  induction r with
  | nil =>
    intro u v this h
    simp only [unitAt, Option.some.injEq] at h
    subst h
    exact ⟨[], [], by simp⟩
  | cons j r ih =>
    intro u v this h
    rw [unitAt_cons] at h
    cases hc : u.children[j]? with
    | none => simp [hc] at h
    | some c =>
      simp only [hc, Option.bind] at h
      obtain ⟨l1, l2, e1⟩ := block_addChildren this u.children 0 j c hc
      obtain ⟨l3, l4, e2⟩ := ih c v (this ++ [0 + j]) h
      obtain ⟨a1, a2, a3, a4, a5, a6, a7, children⟩ := u
      rw [AddUnitList]
      simp only at e1
      rw [e1, e2]
      refine ⟨this :: (l1 ++ l3), l4 ++ l2, ?_⟩
      simp only [Nat.zero_add, List.append_assoc, List.cons_append, List.singleton_append,
        List.nil_append]

/-! ## C9: the flattening -/

/-- C9: the pointers that the loop of `BuildSourceTree` over the children of
the root pushes to `unit_list` are the pointers to the units below the root,
each once, in pre-order: an ancestor stands at a smaller index than each of
its descendants, and the pointers to the units of a subtree form a contiguous
block that starts with the pointer to the root of the subtree. -/
theorem C9_flatten_preorder (root : CompilationUnit) :
    (∀ p, p ∈ addChildren root.children [] 0 ↔ p ≠ [] ∧ (unitAt root p).isSome = true)
    ∧ (addChildren root.children [] 0).Nodup
    ∧ (addChildren root.children [] 0).Pairwise ptrLt
    ∧ (∀ (i j : Nat) (p q : UnitPtr), (addChildren root.children [] 0)[i]? = some p →
        (addChildren root.children [] 0)[j]? = some q →
        (∃ r, r ≠ [] ∧ q = p ++ r) → i < j)
    ∧ (∀ (p : UnitPtr) (v : CompilationUnit), p ≠ [] → unitAt root p = some v →
        ∃ l1 l2, addChildren root.children [] 0 = l1 ++ AddUnitList v p ++ l2
          ∧ (AddUnitList v p).head? = some p
          ∧ ∀ q, q ∈ AddUnitList v p ↔ ∃ r, q = p ++ r ∧ (unitAt v r).isSome = true) := by
  have hsorted := sorted_addChildren root.children [] 0
  have hmem : ∀ p, p ∈ addChildren root.children [] 0 ↔
      p ≠ [] ∧ (unitAt root p).isSome = true := by
    intro p
    rw [mem_addChildren]
    constructor
    · rintro ⟨j, c, r, hc, hp, hr⟩
      simp only [List.nil_append, Nat.zero_add] at hp
      subst hp
      refine ⟨by simp, ?_⟩
      rw [unitAt_cons]
      simp only [hc, Option.bind]
      exact hr
    · rintro ⟨hp, hr⟩
      cases p with
      | nil => exact absurd rfl hp
      | cons j r =>
        rw [unitAt_cons] at hr
        cases hc : root.children[j]? with
        | none => simp [hc] at hr
        | some c =>
          simp only [hc, Option.bind] at hr
          exact ⟨j, c, r, hc, by simp, hr⟩
  refine ⟨hmem, ?_, hsorted, ?_, ?_⟩
  · unfold List.Nodup
    refine hsorted.imp ?_
    intro a b h e
    subst e
    exact ptrLt_irrefl a h
  · intro i j p q hi hj hr
    obtain ⟨r, hr, hq⟩ := hr
    have hpq : ptrLt p q := hq ▸ ptrLt_extension p r hr
    by_contra hij
    have hji : j ≤ i := by omega
    rcases Nat.lt_or_eq_of_le hji with h | h
    · have := List.pairwise_iff_getElem.mp hsorted j i
        (List.getElem?_eq_some_iff.mp hj).1 (List.getElem?_eq_some_iff.mp hi).1 h
      rw [(List.getElem?_eq_some_iff.mp hj).2, (List.getElem?_eq_some_iff.mp hi).2] at this
      exact ptrLt_asymm p q hpq this
    · subst h
      rw [hi] at hj
      simp only [Option.some.injEq] at hj
      subst hj
      exact ptrLt_irrefl p hpq
  · intro p v hp hv
    cases p with
    | nil => exact absurd rfl hp
    | cons j r =>
      rw [unitAt_cons] at hv
      cases hc : root.children[j]? with
      | none => simp [hc] at hv
      | some c =>
        simp only [hc, Option.bind] at hv
        obtain ⟨l1, l2, e1⟩ := block_addChildren [] root.children 0 j c hc
        obtain ⟨l3, l4, e2⟩ := block_AddUnitList r c v ([] ++ [0 + j]) hv
        refine ⟨l1 ++ l3, l4 ++ l2, ?_, AddUnitList_head v _, fun q => mem_AddUnitList v _ q⟩
        rw [e1, e2]
        simp only [List.nil_append, Nat.zero_add, List.append_assoc, List.singleton_append]

/-! ## The resolution loop -/

theorem setName_children (n : List Nat) (i : Nat) (p : UnitPtr) (u : CompilationUnit) :
    (setName n (i :: p) u).children = u.children.modify (setName n p) i := by
  rw [setName]

theorem setName_nil (n : List Nat) (u : CompilationUnit) :
    setName n [] u = { u with name := n } := by
  rw [setName]

theorem ownFields_setName (n : List Nat) (r : UnitPtr) (u : CompilationUnit) :
    ownFields (setName n r u) = ownFields u := by
  cases r with
  | nil => rw [setName]; rfl
  | cons i r => rw [setName]; simp [ownFields]

/-- A field that `setName` does not change at the root of a tree is not changed
at any unit of the tree. -/
theorem unitAt_setName_frame {β : Type} (f : CompilationUnit → β)
    (hf : ∀ n r u, f (setName n r u) = f u) (n : List Nat) :
    ∀ (p q : UnitPtr) (root : CompilationUnit),
      (unitAt (setName n p root) q).map f = (unitAt root q).map f := by
  intro p
  induction p with
  | nil =>
    intro q root
    cases q with
    | nil => simp [unitAt, hf]
    | cons j q => rw [unitAt_cons, unitAt_cons, setName_nil]
  | cons i p ih =>
    intro q root
    cases q with
    | nil => simp [unitAt, hf]
    | cons j q =>
      rw [unitAt_cons, unitAt_cons, setName_children, List.getElem?_modify]
      cases hc : root.children[j]? with
      | none => simp
      | some c =>
        by_cases hij : i = j
        · simp only [hij, if_true, Option.map_eq_map, Option.map_some', Option.bind]
          exact ih q c
        · simp [hij]

/-- The name of the unit at `q` after `p->name = n`. -/
theorem unitAt_setName_name (n : List Nat) :
    ∀ (p q : UnitPtr) (root : CompilationUnit), (unitAt root p).isSome = true →
      (unitAt (setName n p root) q).map CompilationUnit.name =
        if q = p then some n else (unitAt root q).map CompilationUnit.name := by
  intro p
  induction p with
  | nil =>
    intro q root _
    cases q with
    | nil => simp [unitAt, setName_nil]
    | cons j q => rw [unitAt_cons, unitAt_cons, setName_nil]; simp
  | cons i p ih =>
    intro q root hv
    rw [unitAt_cons] at hv
    cases q with
    | nil =>
      simp only [unitAt, Option.map_some', List.nil_eq, reduceCtorEq, if_false]
      rw [setName]
    | cons j q =>
      rw [unitAt_cons, unitAt_cons, setName_children, List.getElem?_modify]
      cases hc : root.children[j]? with
      | none =>
        have : ¬ (j :: q = i :: p) := by
          intro e
          simp only [List.cons.injEq] at e
          rw [← e.1, hc] at hv
          simp at hv
        simp [this]
      | some c =>
        by_cases hij : i = j
        · subst hij
          rw [hc] at hv
          simp only [Option.bind] at hv
          simp only [if_true, Option.map_eq_map, Option.map_some', Option.bind,
            List.cons.injEq, true_and]
          exact ih q c hv
        · have : ¬ (j :: q = i :: p) := by
            intro e
            simp only [List.cons.injEq] at e
            exact hij e.1.symm
          simp [hij, this]

theorem frame_field {β : Type} (g : Int × Int × Int × Int × List (Int × Int) × Int × Nat → β)
    (a b : Option CompilationUnit) (h : a.map ownFields = b.map ownFields) :
    a.map (fun u => g (ownFields u)) = b.map (fun u => g (ownFields u)) := by
  have := congrArg (Option.map g) h
  simpa [Option.map_map, Function.comp] using this

theorem frame_isSome (a b : Option CompilationUnit) (h : a.map ownFields = b.map ownFields) :
    a.isSome = b.isSome := by
  cases a <;> cases b <;> simp at h ⊢

theorem frame_addr (a b : Option CompilationUnit) (h : a.map ownFields = b.map ownFields) :
    a.map CompilationUnit.addr = b.map CompilationUnit.addr :=
  frame_field (fun t => t.1) a b h

theorem frame_pointsTo (a b : Option CompilationUnit) (h : a.map ownFields = b.map ownFields) :
    a.map CompilationUnit.pointsTo = b.map CompilationUnit.pointsTo :=
  frame_field (fun t => t.2.2.2.2.2.1) a b h

theorem frame_ranges (a b : Option CompilationUnit) (h : a.map ownFields = b.map ownFields) :
    a.map CompilationUnit.ranges = b.map CompilationUnit.ranges :=
  frame_field (fun t => t.2.2.2.2.1) a b h

/-- The inner loop of the resolution: it returns, changes no field other than
the name of the unit `pi` points to, and leaves there the name of the unit
whose address matches, when at most one pointer of the list matches. -/
theorem copyNames_spec (pi : UnitPtr) :
    ∀ (L : List UnitPtr) (root ui : CompilationUnit),
      (∀ q ∈ L, (unitAt root q).isSome = true) → unitAt root pi = some ui →
      ∃ root1, copyNames pi L root = .ok root1
        ∧ (∀ q, (unitAt root1 q).map ownFields = (unitAt root q).map ownFields)
        ∧ (∀ q, q ≠ pi →
            (unitAt root1 q).map CompilationUnit.name = (unitAt root q).map CompilationUnit.name)
        ∧ ((∀ q ∈ L, (unitAt root q).map CompilationUnit.addr ≠ some ui.pointsTo) →
            (unitAt root1 pi).map CompilationUnit.name = some ui.name)
        ∧ (∀ pB, (∀ q ∈ L, (unitAt root q).map CompilationUnit.addr = some ui.pointsTo → q = pB) →
            (∃ q ∈ L, (unitAt root q).map CompilationUnit.addr = some ui.pointsTo) →
            (unitAt root1 pi).map CompilationUnit.name
              = (unitAt root pB).map CompilationUnit.name) := by
  intro L
  induction L with
  | nil =>
    intro root ui _ hpi
    refine ⟨root, rfl, fun _ => rfl, fun _ _ => rfl, fun _ => by simp [hpi], ?_⟩
    rintro pB _ ⟨q, hq, _⟩
    exact absurd hq (List.not_mem_nil q)
  | cons x rest ih =>
    intro root ui hv hpi
    obtain ⟨ux, hux⟩ := Option.isSome_iff_exists.mp (hv x (List.mem_cons_self x rest))
    rw [copyNames]
    simp only [hux, hpi]
    by_cases hm : ux.addr = ui.pointsTo
    · simp only [hm, if_true]
      have hF : ∀ q, (unitAt (setName ux.name pi root) q).map ownFields
          = (unitAt root q).map ownFields :=
        fun q => unitAt_setName_frame ownFields ownFields_setName ux.name pi q root
      have hN : ∀ q, (unitAt (setName ux.name pi root) q).map CompilationUnit.name
          = if q = pi then some ux.name else (unitAt root q).map CompilationUnit.name :=
        fun q => unitAt_setName_name ux.name pi q root (by simp [hpi])
      have hsome : (unitAt (setName ux.name pi root) pi).isSome = true := by
        rw [frame_isSome _ _ (hF pi), hpi]; rfl
      obtain ⟨ui1, hui1⟩ := Option.isSome_iff_exists.mp hsome
      have hpt : ui1.pointsTo = ui.pointsTo := by
        have := frame_pointsTo _ _ (hF pi)
        simpa [hui1, hpi] using this
      have hname1 : ui1.name = ux.name := by
        have := hN pi
        simpa [hui1] using this
      have hA : ∀ q, (unitAt (setName ux.name pi root) q).map CompilationUnit.addr
          = (unitAt root q).map CompilationUnit.addr := fun q => frame_addr _ _ (hF q)
      obtain ⟨root1, e, f1, f2, f3, f4⟩ := ih (setName ux.name pi root) ui1
        (fun q hq => by
          rw [frame_isSome _ _ (hF q)]
          exact hv q (List.mem_cons_of_mem x hq)) hui1
      have hxaddr : (unitAt root x).map CompilationUnit.addr = some ui.pointsTo := by
        simp [hux, hm]
      refine ⟨root1, e, fun q => (f1 q).trans (hF q), ?_, ?_, ?_⟩
      · intro q hq
        rw [f2 q hq, hN q, if_neg hq]
      · intro hno
        exact absurd hxaddr (hno x (List.mem_cons_self x rest))
      · intro pB huniq _
        have hxB : x = pB := huniq x (List.mem_cons_self x rest) hxaddr
        have hBname : (unitAt root pB).map CompilationUnit.name = some ux.name := by
          rw [← hxB, hux]; rfl
        rw [hBname]
        by_cases hex : ∃ q ∈ rest,
            (unitAt (setName ux.name pi root) q).map CompilationUnit.addr = some ui1.pointsTo
        · rw [f4 pB (fun q hq hqa => huniq q (List.mem_cons_of_mem x hq)
            (by rw [← hA q, hqa, hpt])) hex, hN pB]
          split
          · rfl
          · exact hBname
        · rw [f3 (fun q hq hqa => hex ⟨q, hq, hqa⟩), hname1]
    · simp only [hm, if_false]
      obtain ⟨root1, e, f1, f2, f3, f4⟩ := ih root ui
        (fun q hq => hv q (List.mem_cons_of_mem x hq)) hpi
      refine ⟨root1, e, f1, f2, ?_, ?_⟩
      · intro hno
        exact f3 (fun q hq => hno q (List.mem_cons_of_mem x hq))
      · intro pB huniq hex
        apply f4 pB (fun q hq => huniq q (List.mem_cons_of_mem x hq))
        obtain ⟨q, hq, hqa⟩ := hex
        rcases List.mem_cons.mp hq with h | h
        · subst h
          rw [hux] at hqa
          simp only [Option.map_some', Option.some.injEq] at hqa
          exact absurd hqa hm
        · exact ⟨q, h, hqa⟩

theorem isMain_eq (root root1 : CompilationUnit) (q : UnitPtr)
    (hF : (unitAt root1 q).map ownFields = (unitAt root q).map ownFields)
    (hN : (unitAt root1 q).map CompilationUnit.name = (unitAt root q).map CompilationUnit.name) :
    isMain root1 q = isMain root q := by
  have hR := frame_ranges _ _ hF
  unfold isMain
  cases h1 : unitAt root1 q <;> cases h2 : unitAt root q <;> simp [h1, h2] at hN hR ⊢
  rw [hN, hR]

/-- One iteration of the resolution loop, for the pointer `p`. -/
theorem resolveLoop_step (L : List UnitPtr) (p : UnitPtr) (rest : List UnitPtr)
    (root u : CompilationUnit) (rt : Option UnitPtr)
    (hv : ∀ q ∈ L, (unitAt root q).isSome = true) (hp : unitAt root p = some u) :
    ∃ root1,
      resolveLoop L (p :: rest) (root, rt)
        = resolveLoop L rest (root1, if isMain root p = true then some p else rt)
      ∧ (∀ q, (unitAt root1 q).map ownFields = (unitAt root q).map ownFields)
      ∧ (∀ q, q ≠ p →
          (unitAt root1 q).map CompilationUnit.name = (unitAt root q).map CompilationUnit.name)
      ∧ ((u.pointsTo < 0 ∨
            ∀ q ∈ L, (unitAt root q).map CompilationUnit.addr ≠ some u.pointsTo) →
          (unitAt root1 p).map CompilationUnit.name = some u.name)
      ∧ (0 ≤ u.pointsTo → ∀ pB,
          (∀ q ∈ L, (unitAt root q).map CompilationUnit.addr = some u.pointsTo → q = pB) →
          (∃ q ∈ L, (unitAt root q).map CompilationUnit.addr = some u.pointsTo) →
          (unitAt root1 p).map CompilationUnit.name
            = (unitAt root pB).map CompilationUnit.name) := by
  have hanchor : (if u.name = strMain then (if u.ranges.length > 0 then some p else rt) else rt)
      = (if isMain root p = true then some p else rt) := by
    simp only [isMain, hp]
    by_cases h1 : u.name = strMain <;> by_cases h2 : u.ranges.length > 0 <;> simp [h1, h2]
  rw [resolveLoop]
  simp only [hp, hanchor]
  by_cases hpt : u.pointsTo ≥ 0
  · obtain ⟨root1, e, f1, f2, f3, f4⟩ := copyNames_spec p L root u hv hp
    refine ⟨root1, by simp [hpt, e], f1, f2, ?_, fun _ => f4⟩
    rintro (h | h)
    · omega
    · exact f3 h
  · refine ⟨root, by simp [hpt], fun _ => rfl, fun _ _ => rfl, fun _ => by simp [hp], ?_⟩
    intro h
    omega

theorem getLast?_cons_match {α : Type} (x : α) (l : List α) :
    (x :: l).getLast? = (match l.getLast? with | some y => some y | none => some x) := by
  cases l with
  | nil => rfl
  | cons y l =>
    rw [List.getLast?_cons_cons]
    cases h : (y :: l).getLast? with
    | none => simp at h
    | some z => rfl

/-- The resolution loop over the rest of the pointers: it returns; it changes
names only, and only of units of the rest; `rootRuntime` is the last pointer of
the rest whose unit is named "main" and has a range; and the name of a unit of
the rest with a reference is the name its target had when the unit was
visited. -/
theorem resolveLoop_spec (L : List UnitPtr) :
    ∀ (rest : List UnitPtr) (root : CompilationUnit) (rt : Option UnitPtr),
      (∀ q ∈ L, (unitAt root q).isSome = true) → (∀ q ∈ rest, q ∈ L) → rest.Nodup →
      ∃ root1 rt1, resolveLoop L rest (root, rt) = .ok (root1, rt1)
        ∧ (∀ q, (unitAt root1 q).map ownFields = (unitAt root q).map ownFields)
        ∧ (∀ q, q ∉ rest →
            (unitAt root1 q).map CompilationUnit.name = (unitAt root q).map CompilationUnit.name)
        ∧ rt1 = (match (rest.filter (isMain root)).getLast? with
                  | some p => some p
                  | none => rt)
        ∧ (∀ pre p post u, rest = pre ++ p :: post → unitAt root p = some u →
            ((u.pointsTo < 0 ∨
                ∀ q ∈ L, (unitAt root q).map CompilationUnit.addr ≠ some u.pointsTo) →
              (unitAt root1 p).map CompilationUnit.name = some u.name)
            ∧ (0 ≤ u.pointsTo → ∀ pB,
                (∀ q ∈ L, (unitAt root q).map CompilationUnit.addr = some u.pointsTo → q = pB) →
                (∃ q ∈ L, (unitAt root q).map CompilationUnit.addr = some u.pointsTo) →
                (pB ∈ post → (unitAt root1 p).map CompilationUnit.name
                    = (unitAt root pB).map CompilationUnit.name)
                ∧ (pB ∉ post → (unitAt root1 p).map CompilationUnit.name
                    = (unitAt root1 pB).map CompilationUnit.name))) := by
  intro rest
  induction rest with
  | nil =>
    intro root rt _ _ _
    refine ⟨root, rt, rfl, fun _ => rfl, fun _ _ => rfl, rfl, ?_⟩
    intro pre p post u h
    simp at h
  | cons x rest ih =>
    intro root rt hv hsub hnd
    have hxL : x ∈ L := hsub x (List.mem_cons_self x rest)
    obtain ⟨ux, hux⟩ := Option.isSome_iff_exists.mp (hv x hxL)
    obtain ⟨hxrest, hnd'⟩ := List.nodup_cons.mp hnd
    obtain ⟨root1, e1, F1, N1, S1, S2⟩ := resolveLoop_step L x rest root ux rt hv hux
    have hA1 : ∀ q, (unitAt root1 q).map CompilationUnit.addr
        = (unitAt root q).map CompilationUnit.addr := fun q => frame_addr _ _ (F1 q)
    obtain ⟨root2, rt2, e2, F2, N2, A2, P2⟩ := ih root1
      (if isMain root x = true then some x else rt)
      (fun q hq => by rw [frame_isSome _ _ (F1 q)]; exact hv q hq)
      (fun q hq => hsub q (List.mem_cons_of_mem x hq)) hnd'
    refine ⟨root2, rt2, e1.trans e2, fun q => (F2 q).trans (F1 q), ?_, ?_, ?_⟩
    · intro q hq
      have h1 : q ≠ x := fun e => hq (e ▸ List.mem_cons_self x rest)
      have h2 : q ∉ rest := fun h => hq (List.mem_cons_of_mem x h)
      rw [N2 q h2, N1 q h1]
    · have hfilter : rest.filter (isMain root1) = rest.filter (isMain root) := by
        apply List.filter_congr
        intro q hq
        have h1 : q ≠ x := fun e => hxrest (e ▸ hq)
        exact isMain_eq root root1 q (F1 q) (N1 q h1)
      rw [A2, hfilter]
      by_cases hm : isMain root x = true
      · rw [List.filter_cons_of_pos hm, getLast?_cons_match]
        simp only [hm, if_true]
        cases (rest.filter (isMain root)).getLast? <;> rfl
      · rw [List.filter_cons_of_neg hm]
        simp only [hm, Bool.false_eq_true, if_false]
    · intro pre p post u hsplit hu
      cases pre with
      | nil =>
        simp only [List.nil_append, List.cons.injEq] at hsplit
        obtain ⟨hxp, hrest⟩ := hsplit
        subst hxp hrest
        rw [hux] at hu
        simp only [Option.some.injEq] at hu
        subst hu
        have hkeep := N2 x hxrest
        refine ⟨fun h => by rw [hkeep]; exact S1 h, ?_⟩
        intro hpt pB huniq hex
        have hname := S2 hpt pB huniq hex
        refine ⟨fun _ => by rw [hkeep, hname], ?_⟩
        intro hB
        by_cases hBx : pB = x
        · rw [hBx]
        · rw [hkeep, hname, N2 pB hB, N1 pB hBx]
      | cons y pre =>
        simp only [List.cons_append, List.cons.injEq] at hsplit
        obtain ⟨hxy, hrest⟩ := hsplit
        subst hxy
        have hprest : p ∈ rest := by rw [hrest]; simp
        have hpx : p ≠ x := fun e => hxrest (e ▸ hprest)
        have hsome : (unitAt root1 p).isSome = true := by
          rw [frame_isSome _ _ (F1 p), hu]; rfl
        obtain ⟨u1, hu1⟩ := Option.isSome_iff_exists.mp hsome
        have hpt1 : u1.pointsTo = u.pointsTo := by
          have := frame_pointsTo _ _ (F1 p)
          simpa [hu1, hu] using this
        have hn1 : u1.name = u.name := by
          have := N1 p hpx
          simpa [hu1, hu] using this
        obtain ⟨Q1, Q2⟩ := P2 pre p post u1 hrest hu1
        refine ⟨?_, ?_⟩
        · intro h
          rw [← hn1]
          apply Q1
          rcases h with h | h
          · left; omega
          · right
            intro q hq
            rw [hA1 q, hpt1]
            exact h q hq
        · intro hpt pB huniq hex
          obtain ⟨R1, R2⟩ := Q2 (by omega) pB
            (fun q hq hqa => huniq q hq (by rw [← hA1 q, hqa, hpt1]))
            (by
              obtain ⟨q, hq, hqa⟩ := hex
              exact ⟨q, hq, by rw [hA1 q, hqa, hpt1]⟩)
          refine ⟨?_, R2⟩
          intro hB
          have hBx : pB ≠ x := by
            intro e
            apply hxrest
            rw [← e, hrest]
            simp [hB]
          rw [R1 hB, N1 pB hBx]

theorem flat_valid (root : CompilationUnit) :
    ∀ q ∈ addChildren root.children [] 0, (unitAt root q).isSome = true := by
  intro q hq
  rw [mem_addChildren] at hq
  obtain ⟨j, c, r, hc, hq, hr⟩ := hq
  simp only [List.nil_append, Nat.zero_add] at hq
  rw [hq, unitAt_cons]
  simp only [hc, Option.bind]
  exact hr

theorem flat_nodup (root : CompilationUnit) : (addChildren root.children [] 0).Nodup := by
  unfold List.Nodup
  refine (sorted_addChildren root.children [] 0).imp ?_
  intro a b h e
  subst e
  exact ptrLt_irrefl a h

theorem split_at {α : Type} (L : List α) (i : Nat) (a : α) (h : L[i]? = some a) :
    L = L.take i ++ a :: L.drop (i + 1) := by
  obtain ⟨hlt, e⟩ := List.getElem?_eq_some_iff.mp h
  rw [← e, ← List.drop_eq_getElem_cons hlt, List.take_append_drop]

theorem mem_drop_iff_of_nodup {α : Type} (L : List α) (hnd : L.Nodup) (i j : Nat) (b : α)
    (hj : L[j]? = some b) : b ∈ L.drop (i + 1) ↔ i < j := by
  constructor
  · intro hmem
    obtain ⟨k, hk⟩ := List.mem_iff_getElem?.mp hmem
    rw [List.getElem?_drop] at hk
    obtain ⟨h1, e1⟩ := List.getElem?_eq_some_iff.mp hk
    obtain ⟨h2, e2⟩ := List.getElem?_eq_some_iff.mp hj
    have : i + 1 + k = j := (hnd.getElem_inj_iff).mp (e1.trans e2.symm)
    omega
  · intro hij
    apply List.mem_iff_getElem?.mpr
    refine ⟨j - (i + 1), ?_⟩
    rw [List.getElem?_drop]
    have : i + 1 + (j - (i + 1)) = j := by omega
    rw [this, hj]

/-! ## C6: reference forwarding -/

/-- C6 (as stated, refuted): in the chain example "a" refers to "b" and "b",
which stands behind "a" in the index, refers to "c".  After the resolution
loop the first unit is named "b" and the second "c": the name of the
referring unit is not the name its target has after the resolution. -/
theorem C6_chain_keeps_old_name :
    addChildren chainRoot.children [] 0 = [[0], [1], [2]]
    ∧ (unitAt chainRoot [0]).map CompilationUnit.pointsTo = some 20
    ∧ (unitAt chainRoot [1]).map CompilationUnit.addr = some 20
    ∧ ∃ root1, resolveLoop [[0], [1], [2]] [[0], [1], [2]] (chainRoot, none) = .ok (root1, none)
        ∧ (unitAt root1 [0]).map CompilationUnit.name = some [98]
        ∧ (unitAt root1 [1]).map CompilationUnit.name = some [99] :=
  ⟨rfl, rfl, rfl,
   rootOf [leafUnit 10 20 [98] [], leafUnit 20 30 [99] [], leafUnit 30 (-1) [99] []],
   rfl, rfl, rfl⟩

/-- C6 (amended): let A and B be the units at the indices i and j of the
flattened index, A with a reference that is set (not negative) and equal to
the address of B, and B the only unit of the index with that address.  The
resolution loop returns, and afterwards the name of A is the name B had when
A was visited: the name B has after the resolution when B does not stand
behind A (j <= i), the name B had before the resolution when it does
(i < j).  No field other than the name, of any unit, has changed, nor the
number of children of any unit. -/
theorem C6_reference_forwarding (root : CompilationUnit) (rt : Option UnitPtr) (i j : Nat)
    (pA pB : UnitPtr) (A B : CompilationUnit)
    (hi : (addChildren root.children [] 0)[i]? = some pA)
    (hj : (addChildren root.children [] 0)[j]? = some pB)
    (hA : unitAt root pA = some A) (hB : unitAt root pB = some B)
    (hset : 0 ≤ A.pointsTo) (href : B.addr = A.pointsTo)
    (huniq : ∀ q ∈ addChildren root.children [] 0, ∀ u, unitAt root q = some u →
      u.addr = A.pointsTo → q = pB) :
    ∃ root1 rt1 A1 B1,
      resolveLoop (addChildren root.children [] 0) (addChildren root.children [] 0) (root, rt)
        = .ok (root1, rt1)
      ∧ unitAt root1 pA = some A1 ∧ unitAt root1 pB = some B1
      ∧ (j ≤ i → A1.name = B1.name)
      ∧ (i < j → A1.name = B.name)
      ∧ A1.ranges = A.ranges ∧ B1.ranges = B.ranges
      ∧ A1.children.length = A.children.length ∧ B1.children.length = B.children.length
      ∧ ownFields A1 = ownFields A ∧ ownFields B1 = ownFields B
      ∧ (∀ q, (unitAt root1 q).map ownFields = (unitAt root q).map ownFields) := by
  have hv := flat_valid root
  have hnd := flat_nodup root
  obtain ⟨root1, rt1, e, F, _, _, P⟩ := resolveLoop_spec (addChildren root.children [] 0)
    (addChildren root.children [] 0) root rt hv (fun _ h => h) hnd
  have hpBL : pB ∈ addChildren root.children [] 0 := List.mem_iff_getElem?.mpr ⟨j, hj⟩
  obtain ⟨_, Q⟩ := P _ pA _ A (split_at _ i pA hi) hA
  obtain ⟨R1, R2⟩ := Q hset pB
    (fun q hq hqa => by
      cases hu : unitAt root q with
      | none => simp [hu] at hqa
      | some u =>
        simp only [hu, Option.map_some', Option.some.injEq] at hqa
        exact huniq q hq u hu hqa)
    ⟨pB, hpBL, by simp [hB, href]⟩
  have hsA : (unitAt root1 pA).isSome = true := by rw [frame_isSome _ _ (F pA), hA]; rfl
  have hsB : (unitAt root1 pB).isSome = true := by rw [frame_isSome _ _ (F pB), hB]; rfl
  obtain ⟨A1, hA1⟩ := Option.isSome_iff_exists.mp hsA
  obtain ⟨B1, hB1⟩ := Option.isSome_iff_exists.mp hsB
  have hdrop := mem_drop_iff_of_nodup _ hnd i j pB hj
  have fA : ownFields A1 = ownFields A := by
    have := F pA
    simpa [hA1, hA] using this
  have fB : ownFields B1 = ownFields B := by
    have := F pB
    simpa [hB1, hB] using this
  refine ⟨root1, rt1, A1, B1, e, hA1, hB1, ?_, ?_, ?_, ?_, ?_, ?_, fA, fB, F⟩
  · intro hji
    have := R2 (fun h => by have := hdrop.mp h; omega)
    simpa [hA1, hB1] using this
  · intro hij
    have := R1 (hdrop.mpr hij)
    simpa [hA1, hB] using this
  · have := congrArg (fun t => t.2.2.2.2.1) fA
    exact this
  · have := congrArg (fun t => t.2.2.2.2.1) fB
    exact this
  · have := congrArg (fun t => t.2.2.2.2.2.2) fA
    exact this
  · have := congrArg (fun t => t.2.2.2.2.2.2) fB
    exact this

/-- Witness of C6 (amended): "a" (index 0) and its target "b" (index 1) in the
chain example. -/
theorem C6_reference_forwarding_witness :
    ∃ root1 rt1 A1 B1,
      resolveLoop (addChildren chainRoot.children [] 0) (addChildren chainRoot.children [] 0)
          (chainRoot, none) = .ok (root1, rt1)
      ∧ unitAt root1 [0] = some A1 ∧ unitAt root1 [1] = some B1
      ∧ (1 ≤ 0 → A1.name = B1.name)
      ∧ (0 < 1 → A1.name = (leafUnit 20 30 [98] []).name)
      ∧ A1.ranges = (leafUnit 10 20 [97] []).ranges ∧ B1.ranges = (leafUnit 20 30 [98] []).ranges
      ∧ A1.children.length = (leafUnit 10 20 [97] []).children.length
      ∧ B1.children.length = (leafUnit 20 30 [98] []).children.length
      ∧ ownFields A1 = ownFields (leafUnit 10 20 [97] [])
      ∧ ownFields B1 = ownFields (leafUnit 20 30 [98] [])
      ∧ (∀ q, (unitAt root1 q).map ownFields = (unitAt chainRoot q).map ownFields) :=
  C6_reference_forwarding chainRoot none 0 1 [0] [1] (leafUnit 10 20 [97] [])
    (leafUnit 20 30 [98] []) rfl rfl rfl rfl (by decide) rfl
    (fun q hq u hu ha => by
      have hq2 : q = [0] ∨ q = [1] ∨ q = [2] := by
        have : q ∈ [[0], [1], [2]] := hq
        simpa using this
      rcases hq2 with rfl | rfl | rfl
      · have e : u = leafUnit 10 20 [97] [] := (Option.some.inj hu).symm
        rw [e] at ha
        exact absurd ha (by decide)
      · rfl
      · have e : u = leafUnit 30 (-1) [99] [] := (Option.some.inj hu).symm
        rw [e] at ha
        exact absurd ha (by decide))

/-! ## C7: the runtime anchor -/

/-- C7 (as stated, refuted): in the example both units of the index are named
"main" and have a range.  The loop assigns `rootRuntime` at the first of them
and again at the second, and ends with the second, the pointer [1], not with
the first. -/
theorem C7_two_mains_anchor_second :
    addChildren twoMainsRoot.children [] 0 = [[0], [1]]
    ∧ isMain twoMainsRoot [0] = true ∧ isMain twoMainsRoot [1] = true
    ∧ resolveLoop [[0], [1]] [[0], [1]] (twoMainsRoot, none)
        = resolveLoop [[0], [1]] [[1]] (twoMainsRoot, some [0])
    ∧ resolveLoop [[0], [1]] [[1]] (twoMainsRoot, some [0]) = .ok (twoMainsRoot, some [1])
    ∧ resolveLoop [[0], [1]] [[0], [1]] (twoMainsRoot, none) = .ok (twoMainsRoot, some [1]) :=
  ⟨rfl, rfl, rfl, rfl, rfl, rfl⟩

/-- C7 (amended): the resolution loop returns, and `rootRuntime` is then the
last pointer of the flattened index whose unit, with the name it has before
the resolution, is named "main" and has a range; without such a unit it is
what it was.  The loop assigns it anew at every such unit, whatever it was
before. -/
theorem C7_anchor_is_last_main (root : CompilationUnit) (rt : Option UnitPtr) :
    (∃ root1 rt1,
      resolveLoop (addChildren root.children [] 0) (addChildren root.children [] 0) (root, rt)
        = .ok (root1, rt1)
      ∧ rt1 = (match ((addChildren root.children [] 0).filter (isMain root)).getLast? with
                | some p => some p
                | none => rt))
    ∧ (∀ (L rest : List UnitPtr) (p : UnitPtr) (root0 : CompilationUnit) (rt0 : Option UnitPtr),
        (∀ q ∈ L, (unitAt root0 q).isSome = true) → (unitAt root0 p).isSome = true →
        isMain root0 p = true →
        ∃ root2, resolveLoop L (p :: rest) (root0, rt0) = resolveLoop L rest (root2, some p)) := by
  constructor
  · obtain ⟨root1, rt1, e, _, _, A, _⟩ := resolveLoop_spec (addChildren root.children [] 0)
      (addChildren root.children [] 0) root rt (flat_valid root) (fun _ h => h) (flat_nodup root)
    exact ⟨root1, rt1, e, A⟩
  · intro L rest p root0 rt0 hv hp hm
    obtain ⟨u, hu⟩ := Option.isSome_iff_exists.mp hp
    obtain ⟨root2, e, _⟩ := resolveLoop_step L p rest root0 u rt0 hv hu
    refine ⟨root2, ?_⟩
    rw [e]
    simp [hm]

/-! ## C8: the missing entry point -/

/-- C8: after a parse that returns (the abbreviation scan and the loop over the
units), `BuildSourceTree` on a new `DwarfReader` ends with the exit "Found no
main routine" exactly when no unit of the flattened index is named "main" and
has a range; `rootRuntime` is then still `NULL` after the resolution loop.
Otherwise, when the DOT file can be opened, it returns with `rootRuntime`
pointing to such a unit. -/
theorem C8_missing_entry_point (k : DwarfHeader) (self : DwarfReader)
    (data_table : List symbol) (jump_table : List Nat)
    (jtable_size debug_start abbrev_start : Int) (dotFileOpens : Bool) (fuel : Nat)
    (codes : List AbbreviationCode) (children : List CompilationUnit)
    (hnew : self.isNew)
    (hcodes : FindAbbrevCodes jump_table abbrev_start jtable_size self.abbrevCodes = .ok codes)
    (hparse : readUnits k codes data_table jump_table jtable_size debug_start abbrev_start
      fuel fuel debug_start self.rootSource.children = .ok children) :
    (BuildSourceTree k self data_table jump_table jtable_size debug_start abbrev_start
        dotFileOpens fuel = .error .exitNoMain
      ↔ ¬ ∃ p ∈ addChildren children [] 0,
          isMain { self.rootSource with children := children } p = true)
    ∧ ((¬ ∃ p ∈ addChildren children [] 0,
          isMain { self.rootSource with children := children } p = true) →
        ∃ root1, resolveLoop (addChildren children [] 0) (addChildren children [] 0)
          ({ self.rootSource with children := children }, none) = .ok (root1, none))
    ∧ ((∃ p ∈ addChildren children [] 0,
          isMain { self.rootSource with children := children } p = true) →
        ∃ s p, BuildSourceTree k self data_table jump_table jtable_size debug_start
            abbrev_start true fuel = .ok s
          ∧ s.rootRuntime = some p ∧ p ∈ addChildren children [] 0
          ∧ isMain { self.rootSource with children := children } p = true) := by
  obtain ⟨_, hul, _, hrt⟩ := hnew
  obtain ⟨root1, rt1, e, _, _, A, _⟩ := resolveLoop_spec
    (addChildren children [] 0) (addChildren children [] 0)
    { self.rootSource with children := children } none
    (flat_valid { self.rootSource with children := children }) (fun _ h => h)
    (flat_nodup { self.rootSource with children := children })
  have hbuild : ∀ dot, BuildSourceTree k self data_table jump_table jtable_size debug_start
      abbrev_start dot fuel =
      (if rt1 = none then .error .exitNoMain
       else if dot = true then
         .ok { self with abbrevCodes := codes, rootSource := root1,
                         unit_list := addChildren children [] 0, rootRuntime := rt1 }
       else .error .exitDotFile) := by
    intro dot
    simp only [BuildSourceTree, finishSourceTree, hcodes, hparse, hul, hrt, List.nil_append,
      bind, Except.bind, pure, Except.pure, e]
  cases hlast : ((addChildren children [] 0).filter
      (isMain { self.rootSource with children := children })).getLast? with
  | none =>
    rw [hlast] at A
    simp only at A
    have hnone : ¬ ∃ p ∈ addChildren children [] 0,
        isMain { self.rootSource with children := children } p = true := by
      rintro ⟨p, hp, hm⟩
      have := List.filter_eq_nil_iff.mp (List.getLast?_eq_none_iff.mp hlast) p hp
      exact this hm
    refine ⟨?_, ?_, ?_⟩
    · rw [hbuild, A]
      simp [hnone]
    · intro _
      exact ⟨root1, by rw [e, A]⟩
    · intro h
      exact absurd h hnone
  | some p =>
    rw [hlast] at A
    simp only at A
    have hmem := List.mem_filter.mp (List.mem_of_getLast?_eq_some hlast)
    have hex : ∃ p ∈ addChildren children [] 0,
        isMain { self.rootSource with children := children } p = true := ⟨p, hmem.1, hmem.2⟩
    refine ⟨?_, ?_, ?_⟩
    · rw [hbuild, A]
      simp only [reduceCtorEq, if_false]
      constructor
      · intro h
        split at h <;> simp at h
      · intro h
        exact absurd hex h
    · intro h
      exact absurd hex h
    · intro _
      refine ⟨{ self with abbrevCodes := codes, rootSource := root1,
                          unit_list := addChildren children [] 0, rootRuntime := some p },
        p, ?_, rfl, hmem.1, hmem.2⟩
      rw [hbuild, A]
      simp only [reduceCtorEq, if_false, if_true]

/-- Witness of C8: the "main" example, a unit header and one entry named
"main" with the range [0x1000, 0x1040). -/
theorem C8_missing_entry_point_witness :
    (BuildSourceTree dwarf4 newReader mainSymbols mainTable 41 0 24 true 2 = .error .exitNoMain
      ↔ ¬ ∃ p ∈ addChildren [mainEntry] [] 0,
          isMain { newReader.rootSource with children := [mainEntry] } p = true)
    ∧ ((¬ ∃ p ∈ addChildren [mainEntry] [] 0,
          isMain { newReader.rootSource with children := [mainEntry] } p = true) →
        ∃ root1, resolveLoop (addChildren [mainEntry] [] 0) (addChildren [mainEntry] [] 0)
          ({ newReader.rootSource with children := [mainEntry] }, none) = .ok (root1, none))
    ∧ ((∃ p ∈ addChildren [mainEntry] [] 0,
          isMain { newReader.rootSource with children := [mainEntry] } p = true) →
        ∃ s p, BuildSourceTree dwarf4 newReader mainSymbols mainTable 41 0 24 true 2 = .ok s
          ∧ s.rootRuntime = some p ∧ p ∈ addChildren [mainEntry] [] 0
          ∧ isMain { newReader.rootSource with children := [mainEntry] } p = true) :=
  C8_missing_entry_point dwarf4 newReader mainSymbols mainTable 41 0 24 true 2
    [{ addr := 24, code := 1 }] [mainEntry] ⟨rfl, rfl, rfl, rfl⟩ (by decide) rfl

/-! ## C12: the unit header -/

/-- C12 (the code at the failing input): a unit header with the version 2 and
the address size 4 is accepted like one with the version 4, with the first
word as the unit length and the cursor 11 bytes on; the version 3 and the
address size 8 end in their exits. -/
theorem C12_version_2_accepted :
    ReadUnitHeader (headerBytes 2 4) 0 = .ok (20, 11)
    ∧ ReadUnitHeader (headerBytes 4 4) 0 = .ok (20, 11)
    ∧ ReadUnitHeader (headerBytes 3 4) 0 = .error .exitWrongVersion
    ∧ ReadUnitHeader (headerBytes 4 8) 0 = .error .exitWrongAddressSize := by
  refine ⟨by decide, by decide, by decide, by decide⟩

/-! ## C16: `DW_AT_low_pc` -/

/-- C16 (as stated, refuted): on an entry whose last range (0x1000, -1) is still
open, decoding `DW_AT_low_pc` is no fatal error: it returns with a second open
range behind the first. -/
theorem C16_second_open_range :
    ReadAttribute dwarf4 (endToEndEntry 0 [] [(0x1000, -1)]) dwarf4.DW_AT_low_pc
        dwarf4.DW_FORM_addr 0 labelTable 1 [symbol.mk 1 4] 0 0 =
      .ok (endToEndEntry 0 [] [(0x1000, -1), (0x1000, -1)], 5, 1) :=
  rfl

/-- C16 (amended): decoding `DW_AT_low_pc`, whose word is v (as an `int`),
appends the one range (v, -1), with the high bound unset, and leaves the
ranges before it unchanged, whatever the ranges of the entry are, also when
the last of them is still open.  Every result of the call has these ranges,
and for a form that is not a block form the call returns with the cursor
behind the word. -/
theorem C16_low_pc_appends (k : DwarfHeader) (retval : CompilationUnit) (type : Int)
    (debug_start : Int) (jump_table : List Nat) (current_addr : Int)
    (data_table : List symbol) (dtable_ptr top_unit_pc : Int) (w next : Int)
    (hk : k.attributeLabelsDistinct)
    (hw : readWord jump_table current_addr = .ok (w, next)) :
    (∀ r a d, ReadAttribute k retval k.DW_AT_low_pc type debug_start jump_table current_addr
          data_table dtable_ptr top_unit_pc = .ok (r, a, d) →
        r = { retval with ranges := retval.ranges ++ [(toInt32 w, -1)] })
    ∧ (k.isBlockForm type = false →
        ∃ d, ReadAttribute k retval k.DW_AT_low_pc type debug_start jump_table current_addr
          data_table dtable_ptr top_unit_pc =
        .ok ({ retval with ranges := retval.ranges ++ [(toInt32 w, -1)] }, next, d)) := by
  obtain ⟨h1, h2⟩ := labels_low_pc k hk
  have hv : readAttributeValue k retval k.DW_AT_low_pc type debug_start jump_table current_addr
      data_table top_unit_pc =
      .ok ({ retval with ranges := retval.ranges ++ [(toInt32 w, -1)] }, next, false) := by
    simp [readAttributeValue, h1, hw, bind, Except.bind, pure, Except.pure]
  refine ⟨?_, ?_⟩
  · intro r a d hres
    rcases ReadAttribute_value k retval k.DW_AT_low_pc type debug_start jump_table current_addr
      data_table dtable_ptr top_unit_pc r a d hres with ⟨⟨_, h⟩, _⟩ | ⟨a1, u, e⟩
    · exact absurd h h2
    · rw [hv] at e
      simp only [Except.ok.injEq, Prod.mk.injEq] at e
      exact e.1.symm
  · intro hb
    simp only [ReadAttribute, h2, and_false, if_false, hv, bind, Except.bind, pure,
      Except.pure, hb]
    by_cases hf : type = k.DW_FORM_flag_present
    · exact ⟨dtable_ptr - 1 + 1, by simp [hf]⟩
    · exact ⟨dtable_ptr + 1, by simp [hf]⟩

/-- Witness of C16 (amended): the word 0x1000 of the label example, on an entry
whose last range is open. -/
theorem C16_low_pc_appends_witness :
    (∀ r a d, ReadAttribute dwarf4 (endToEndEntry 0 [] [(0x1000, -1)]) dwarf4.DW_AT_low_pc
          dwarf4.DW_FORM_addr 0 labelTable 1 [symbol.mk 1 4] 0 0 = .ok (r, a, d) →
        r = { endToEndEntry 0 [] [(0x1000, -1)] with
              ranges := (endToEndEntry 0 [] [(0x1000, -1)]).ranges ++ [(toInt32 0x1000, -1)] })
    ∧ (dwarf4.isBlockForm dwarf4.DW_FORM_addr = false →
        ∃ d, ReadAttribute dwarf4 (endToEndEntry 0 [] [(0x1000, -1)]) dwarf4.DW_AT_low_pc
          dwarf4.DW_FORM_addr 0 labelTable 1 [symbol.mk 1 4] 0 0 =
        .ok ({ endToEndEntry 0 [] [(0x1000, -1)] with
               ranges := (endToEndEntry 0 [] [(0x1000, -1)]).ranges ++ [(toInt32 0x1000, -1)] },
             5, d)) :=
  C16_low_pc_appends dwarf4 (endToEndEntry 0 [] [(0x1000, -1)]) dwarf4.DW_FORM_addr 0
    labelTable 1 [symbol.mk 1 4] 0 0 0x1000 5 dwarf4_labels rfl

/-! ## C17: a range list whose symbol is not found -/

/-- C17 (the code at the failing input): the value 2 of the `DW_AT_ranges`
attribute is the address of no symbol.  The call does not end in the exit
"Can't find debug ranges symbol": it takes 2 as the index of a symbol, reads
the pair (0x20, 0x30) from the symbols 2 and 3, the terminator from the
symbols 4 and 5, and appends (0x1020, 0x1030) to the ranges of the entry.
The exit is taken for the value 0xFFFFFFFF, which is -1 as an `int`. -/
theorem C17_stray_range_list :
    strayRangeSymbols.findIdx (fun s => s.address == 2) = strayRangeSymbols.length
    ∧ ReadAttribute dwarf4 (endToEndEntry 0 [] []) dwarf4.DW_AT_ranges dwarf4.DW_FORM_data4 0
        strayRangeTable 0 strayRangeSymbols 0 0x1000 =
      .ok (endToEndEntry 0 [] [(0x1020, 0x1030)], 4, 1)
    ∧ ReadAttribute dwarf4 (endToEndEntry 0 [] []) dwarf4.DW_AT_ranges dwarf4.DW_FORM_data4 0
        minusOneRangeTable 0 strayRangeSymbols 0 0x1000 =
      .error .exitNoRangesSymbol :=
  ⟨rfl, rfl, rfl⟩

/-! ## C13: references without a target -/

/-- C13: let A be a unit of the flattened index whose reference is set (not
negative) and is the address of no unit of the index.  The resolution loop
returns, without an error, and A has the name it had before; no field other
than the name, of A or of any other unit, has changed, nor the number of
children of any unit; and every unit of the index whose reference is unset, or
is the address of no unit of the index, has the name it had before. -/
theorem C13_unresolved_reference (root : CompilationUnit) (rt : Option UnitPtr) (i : Nat)
    (pA : UnitPtr) (A : CompilationUnit)
    (hi : (addChildren root.children [] 0)[i]? = some pA)
    (hA : unitAt root pA = some A)
    (hset : 0 ≤ A.pointsTo)
    (hno : ∀ q ∈ addChildren root.children [] 0, ∀ u, unitAt root q = some u →
      u.addr ≠ A.pointsTo) :
    ∃ root1 rt1 A1,
      resolveLoop (addChildren root.children [] 0) (addChildren root.children [] 0) (root, rt)
        = .ok (root1, rt1)
      ∧ unitAt root1 pA = some A1
      ∧ A1.name = A.name
      ∧ ownFields A1 = ownFields A
      ∧ A1.ranges = A.ranges ∧ A1.children.length = A.children.length
      ∧ (∀ q, (unitAt root1 q).map ownFields = (unitAt root q).map ownFields)
      ∧ (∀ q ∈ addChildren root.children [] 0, ∀ u, unitAt root q = some u →
          (u.pointsTo < 0 ∨ ∀ t ∈ addChildren root.children [] 0, ∀ v,
              unitAt root t = some v → v.addr ≠ u.pointsTo) →
          (unitAt root1 q).map CompilationUnit.name = some u.name) := by
  have hv := flat_valid root
  have hnd := flat_nodup root
  obtain ⟨root1, rt1, e, F, _, _, P⟩ := resolveLoop_spec (addChildren root.children [] 0)
    (addChildren root.children [] 0) root rt hv (fun _ h => h) hnd
  have key : ∀ q ∈ addChildren root.children [] 0, ∀ u, unitAt root q = some u →
      (u.pointsTo < 0 ∨ ∀ t ∈ addChildren root.children [] 0, ∀ v,
          unitAt root t = some v → v.addr ≠ u.pointsTo) →
      (unitAt root1 q).map CompilationUnit.name = some u.name := by
    intro q hq u hu hcase
    obtain ⟨n, hn⟩ := List.mem_iff_getElem?.mp hq
    obtain ⟨Q, _⟩ := P _ q _ u (split_at _ n q hn) hu
    apply Q
    rcases hcase with h | h
    · exact Or.inl h
    · refine Or.inr ?_
      intro t ht
      cases hv : unitAt root t with
      | none => simp
      | some v =>
        simp only [Option.map_some', ne_eq, Option.some.injEq]
        exact h t ht v hv
  have hpA : pA ∈ addChildren root.children [] 0 := List.mem_iff_getElem?.mpr ⟨i, hi⟩
  have hname := key pA hpA A hA (Or.inr hno)
  have hsA : (unitAt root1 pA).isSome = true := by rw [frame_isSome _ _ (F pA), hA]; rfl
  obtain ⟨A1, hA1⟩ := Option.isSome_iff_exists.mp hsA
  have fA : ownFields A1 = ownFields A := by
    have := F pA
    simpa [hA1, hA] using this
  refine ⟨root1, rt1, A1, e, hA1, ?_, fA, ?_, ?_, F, key⟩
  · simpa [hA1] using hname
  · have := congrArg (fun t => t.2.2.2.2.1) fA
    exact this
  · have := congrArg (fun t => t.2.2.2.2.2.2) fA
    exact this

/-- Witness of C13: "a" (index 0) of the example, whose reference 99 is the
address of no unit. -/
theorem C13_unresolved_reference_witness :
    ∃ root1 rt1 A1,
      resolveLoop (addChildren danglingRoot.children [] 0)
          (addChildren danglingRoot.children [] 0) (danglingRoot, none) = .ok (root1, rt1)
      ∧ unitAt root1 [0] = some A1
      ∧ A1.name = (leafUnit 10 99 [97] []).name
      ∧ ownFields A1 = ownFields (leafUnit 10 99 [97] [])
      ∧ A1.ranges = (leafUnit 10 99 [97] []).ranges
      ∧ A1.children.length = (leafUnit 10 99 [97] []).children.length
      ∧ (∀ q, (unitAt root1 q).map ownFields = (unitAt danglingRoot q).map ownFields)
      ∧ (∀ q ∈ addChildren danglingRoot.children [] 0, ∀ u, unitAt danglingRoot q = some u →
          (u.pointsTo < 0 ∨ ∀ t ∈ addChildren danglingRoot.children [] 0, ∀ v,
              unitAt danglingRoot t = some v → v.addr ≠ u.pointsTo) →
          (unitAt root1 q).map CompilationUnit.name = some u.name) :=
  C13_unresolved_reference danglingRoot none 0 [0] (leafUnit 10 99 [97] []) rfl rfl
    (by decide)
    (fun q hq u hu ha => by
      have hq2 : q = [0] ∨ q = [1] := by
        have : q ∈ [[0], [1]] := hq
        simpa using this
      rcases hq2 with rfl | rfl
      · have e : u = leafUnit 10 99 [97] [] := (Option.some.inj hu).symm
        rw [e] at ha
        exact absurd ha (by decide)
      · have e : u = leafUnit 20 (-1) [98] [] := (Option.some.inj hu).symm
        rw [e] at ha
        exact absurd ha (by decide))

/-! ## C14: soundness of `FindFunctionCall` -/

/-- `ContainsPC` with the range that contains `pc`. -/
theorem ContainsPC_iff (ranges : List (Int × Int)) (pc : Int) :
    ContainsPC ranges pc = true ↔ ∃ low high, (low, high) ∈ ranges ∧ low ≤ pc ∧ pc < high := by
  simp only [ContainsPC, List.any_eq_true, Bool.and_eq_true, decide_eq_true_eq]
  constructor
  · rintro ⟨⟨low, high⟩, hm, h1, h2⟩
    exact ⟨low, high, hm, h1, h2⟩
  · rintro ⟨low, high, hm, h1, h2⟩
    exact ⟨(low, high), hm, h1, h2⟩

/-- `FindFunctionCall` in terms of the fields of the unit. -/
theorem FindFunctionCall_eq (k : DwarfHeader) (pc : Int) (n : CompilationUnit) (this : UnitPtr) :
    FindFunctionCall k pc n this =
      if ContainsPC n.ranges pc then
        if n.tag ≠ k.DW_TAG_compile_unit then some this
        else findInChildren k pc n.children this 0
      else none := by
  obtain ⟨a1, a2, a3, a4, a5, a6, a7, a8⟩ := n
  rw [FindFunctionCall]

/-- The loop over the children returns `NULL` when the search of every child
does. -/
theorem findInChildren_none (k : DwarfHeader) (pc : Int) :
    ∀ (cs : List CompilationUnit) (this : UnitPtr) (i : Nat),
      (∀ (j : Nat) (c : CompilationUnit), cs[j]? = some c →
        FindFunctionCall k pc c (this ++ [i + j]) = none) →
      findInChildren k pc cs this i = none
  | [], _, _, _ => by rw [findInChildren]
  | c :: cs, this, i, h => by
    rw [findInChildren]
    have h0 := h 0 c (by simp)
    simp only [Nat.add_zero] at h0
    rw [h0]
    simp only
    apply findInChildren_none k pc cs this (i + 1)
    intro j d hd
    have := h (j + 1) d (by simpa using hd)
    rw [show i + (j + 1) = i + 1 + j by omega] at this
    exact this

/-- The loop over the children returns what the search of the first child
returns whose search does not return `NULL`. -/
theorem findInChildren_first (k : DwarfHeader) (pc : Int) :
    ∀ (cs : List CompilationUnit) (this : UnitPtr) (i j : Nat) (c : CompilationUnit),
      cs[j]? = some c → FindFunctionCall k pc c (this ++ [i + j]) ≠ none →
      (∀ (t : Nat) (d : CompilationUnit), t < j → cs[t]? = some d →
        FindFunctionCall k pc d (this ++ [i + t]) = none) →
      findInChildren k pc cs this i = FindFunctionCall k pc c (this ++ [i + j])
  | [], _, _, _, _, hc, _, _ => by simp at hc
  | x :: cs, this, i, 0, c, hc, hne, _ => by
    simp only [List.getElem?_cons_zero, Option.some.injEq] at hc
    subst hc
    rw [findInChildren]
    simp only [Nat.add_zero] at hne ⊢
    cases h : FindFunctionCall k pc x (this ++ [i]) with
    | none => exact absurd h hne
    | some r => rfl
  | x :: cs, this, i, j + 1, c, hc, hne, hbefore => by
    rw [findInChildren]
    have h0 := hbefore 0 x (by omega) (by simp)
    simp only [Nat.add_zero] at h0
    rw [h0]
    simp only
    rw [show i + (j + 1) = i + 1 + j by omega] at hne ⊢
    apply findInChildren_first k pc cs this (i + 1) j c (by simpa using hc) hne
    intro t d ht hd
    have := hbefore (t + 1) d (by omega) (by simpa using hd)
    rw [show i + (t + 1) = i + 1 + t by omega] at this
    exact this

mutual
/-- A unit that `FindFunctionCall` returns is a unit of the subtree, is no
compile unit, and contains `pc`. -/
theorem FindFunctionCall_sound (k : DwarfHeader) (pc : Int) :
    ∀ (n : CompilationUnit) (this r : UnitPtr), FindFunctionCall k pc n this = some r →
      ∃ path v, r = this ++ path ∧ unitAt n path = some v
        ∧ v.tag ≠ k.DW_TAG_compile_unit ∧ ContainsPC v.ranges pc = true
  | ⟨a1, a2, a3, tag, a5, ranges, a7, children⟩, this, r, h => by
    rw [FindFunctionCall] at h
    by_cases h1 : ContainsPC ranges pc = true
    · by_cases h2 : tag ≠ k.DW_TAG_compile_unit
      · simp only [h1, h2, if_true, ne_eq, not_false_eq_true, Option.some.injEq] at h
        exact ⟨[], _, by simp [h], rfl, h2, h1⟩
      · simp only [h1, h2, if_true, if_false] at h
        obtain ⟨j, c, path, v, hc, hr, hv, ht, hp⟩ :=
          findInChildren_sound k pc children this 0 r h
        refine ⟨j :: path, v, by simpa using hr, ?_, ht, hp⟩
        rw [unitAt_cons]
        simp only [hc, Option.bind]
        exact hv
    · simp [h1] at h
/-- A unit that the loop over the children returns is a unit of the subtree of
one of the children, is no compile unit, and contains `pc`. -/
theorem findInChildren_sound (k : DwarfHeader) (pc : Int) :
    ∀ (cs : List CompilationUnit) (this : UnitPtr) (i : Nat) (r : UnitPtr),
      findInChildren k pc cs this i = some r →
      ∃ j c path v, cs[j]? = some c ∧ r = this ++ (i + j) :: path ∧ unitAt c path = some v
        ∧ v.tag ≠ k.DW_TAG_compile_unit ∧ ContainsPC v.ranges pc = true
  | [], this, i, r, h => by simp [findInChildren] at h
  | c :: cs, this, i, r, h => by
    rw [findInChildren] at h
    cases hc : FindFunctionCall k pc c (this ++ [i]) with
    | some cu =>
      simp only [hc, Option.some.injEq] at h
      subst h
      obtain ⟨path, v, hr, hv, ht, hp⟩ := FindFunctionCall_sound k pc c (this ++ [i]) cu hc
      exact ⟨0, c, path, v, by simp, by simpa using hr, hv, ht, hp⟩
    | none =>
      simp only [hc] at h
      obtain ⟨j, d, path, v, hd, hr, hv, ht, hp⟩ :=
        findInChildren_sound k pc cs this (i + 1) r h
      refine ⟨j + 1, d, path, v, by simpa using hd, ?_, hv, ht, hp⟩
      rw [hr]
      congr 2
      omega
end

/-- C14: for every unit n of a tree and every pc: a unit that
`FindFunctionCall` on n returns lies in the subtree of n (its pointer is the
pointer to n followed by a path below n), its tag is not compile-unit, and pc
lies in one of its ranges, low <= pc < high.  The result is `NULL` when no
unit of the subtree contains pc, when n itself does not contain pc, and when n
is a compile unit that contains pc and the search of each of its children
returns `NULL`.  For a compile unit n that contains pc the result is that of
the first child, in the order of the children, whose own search does not
return `NULL`. -/
theorem C14_locator_sound (k : DwarfHeader) (pc : Int) (n : CompilationUnit) (this : UnitPtr) :
    (∀ r, FindFunctionCall k pc n this = some r →
      ∃ path v, r = this ++ path ∧ unitAt n path = some v
        ∧ v.tag ≠ k.DW_TAG_compile_unit
        ∧ ContainsPC v.ranges pc = true
        ∧ ∃ low high, (low, high) ∈ v.ranges ∧ low ≤ pc ∧ pc < high)
    ∧ ((∀ path v, unitAt n path = some v → ContainsPC v.ranges pc = false) →
        FindFunctionCall k pc n this = none)
    ∧ (ContainsPC n.ranges pc = false → FindFunctionCall k pc n this = none)
    ∧ (ContainsPC n.ranges pc = true → n.tag = k.DW_TAG_compile_unit →
        (∀ (i : Nat) (c : CompilationUnit), n.children[i]? = some c →
          FindFunctionCall k pc c (this ++ [i]) = none) →
        FindFunctionCall k pc n this = none)
    ∧ (ContainsPC n.ranges pc = true → n.tag = k.DW_TAG_compile_unit →
        ∀ (i : Nat) (c : CompilationUnit), n.children[i]? = some c →
          FindFunctionCall k pc c (this ++ [i]) ≠ none →
          (∀ (j : Nat) (d : CompilationUnit), j < i → n.children[j]? = some d →
            FindFunctionCall k pc d (this ++ [j]) = none) →
          FindFunctionCall k pc n this = FindFunctionCall k pc c (this ++ [i])) := by
  refine ⟨?_, ?_, ?_, ?_, ?_⟩
  · intro r h
    obtain ⟨path, v, hr, hv, ht, hp⟩ := FindFunctionCall_sound k pc n this r h
    exact ⟨path, v, hr, hv, ht, hp, (ContainsPC_iff v.ranges pc).mp hp⟩
  · intro hno
    have h := hno [] n rfl
    rw [FindFunctionCall_eq]
    simp [h]
  · intro h
    rw [FindFunctionCall_eq]
    simp [h]
  · intro h1 h2 hall
    rw [FindFunctionCall_eq]
    simp only [h1, h2, if_true, ne_eq, not_true_eq_false, if_false]
    apply findInChildren_none
    intro j c hc
    simpa using hall j c hc
  · intro h1 h2 i c hc hne hbefore
    rw [FindFunctionCall_eq]
    simp only [h1, h2, if_true, ne_eq, not_true_eq_false, if_false]
    have := findInChildren_first k pc n.children this 0 i c hc (by simpa using hne)
      (fun t d ht hd => by simpa using hbefore t d ht hd)
    simpa using this

/-! ## C11: the reads are not checked against a buffer length -/

theorem readByte_bounds (jump_table : List Nat) (c : Int) :
    (0 ≤ c ∧ c + 1 ≤ jump_table.length → ∃ v, readByte jump_table c = .ok (v, c + 1))
    ∧ (¬ (0 ≤ c ∧ c + 1 ≤ jump_table.length) →
        readByte jump_table c = .error .undefinedBehaviour) := by
  constructor
  · rintro ⟨h0, h1⟩
    have hlt : c.toNat < jump_table.length := by omega
    simp only [readByte, h0, if_true, List.getElem?_eq_getElem hlt]
    exact ⟨_, rfl⟩
  · intro h
    by_cases h0 : 0 ≤ c
    · have hge : jump_table.length ≤ c.toNat := by omega
      simp only [readByte, h0, if_true, List.getElem?_eq_none hge]
    · simp only [readByte, h0, if_false]

theorem readHalf_bounds (jump_table : List Nat) (c : Int) :
    (0 ≤ c ∧ c + 2 ≤ jump_table.length → ∃ v, readHalf jump_table c = .ok (v, c + 2))
    ∧ (¬ (0 ≤ c ∧ c + 2 ≤ jump_table.length) →
        readHalf jump_table c = .error .undefinedBehaviour) := by
  constructor
  · rintro ⟨h0, h1⟩
    have hlt0 : c.toNat < jump_table.length := by omega
    have hlt1 : c.toNat + 1 < jump_table.length := by omega
    simp only [readHalf, h0, if_true, List.getElem?_eq_getElem hlt0,
      List.getElem?_eq_getElem hlt1]
    exact ⟨_, rfl⟩
  · intro h
    by_cases h0 : 0 ≤ c
    · have hge : jump_table.length ≤ c.toNat + 1 := by omega
      simp only [readHalf, h0, if_true, List.getElem?_eq_none hge]
      cases jump_table[c.toNat]? <;> rfl
    · simp only [readHalf, h0, if_false]

theorem readWord_bounds (jump_table : List Nat) (c : Int) :
    (0 ≤ c ∧ c + 4 ≤ jump_table.length → ∃ v, readWord jump_table c = .ok (v, c + 4))
    ∧ (¬ (0 ≤ c ∧ c + 4 ≤ jump_table.length) →
        readWord jump_table c = .error .undefinedBehaviour) := by
  constructor
  · rintro ⟨h0, h1⟩
    have hlt0 : c.toNat < jump_table.length := by omega
    have hlt1 : c.toNat + 1 < jump_table.length := by omega
    have hlt2 : c.toNat + 2 < jump_table.length := by omega
    have hlt3 : c.toNat + 3 < jump_table.length := by omega
    simp only [readWord, h0, if_true, List.getElem?_eq_getElem hlt0,
      List.getElem?_eq_getElem hlt1, List.getElem?_eq_getElem hlt2,
      List.getElem?_eq_getElem hlt3]
    exact ⟨_, rfl⟩
  · intro h
    by_cases h0 : 0 ≤ c
    · have hge : jump_table.length ≤ c.toNat + 3 := by omega
      simp only [readWord, h0, if_true, List.getElem?_eq_none hge]
      cases jump_table[c.toNat]? <;> cases jump_table[c.toNat + 1]? <;>
        cases jump_table[c.toNat + 2]? <;> rfl
    · simp only [readWord, h0, if_false]

/-- The parameter `jtable_size` of `ReadCompilationUnit` is not used. -/
theorem jtable_size_unused (k : DwarfHeader) (abbrevCodes : List AbbreviationCode)
    (data_table : List symbol) (jump_table : List Nat) (s1 s2 : Int)
    (debug_start abbrev_start top_unit_start : Int) :
    ∀ fuel : Nat,
      (∀ a pc, ReadCompilationUnit k abbrevCodes data_table jump_table s1 debug_start
            abbrev_start top_unit_start fuel a pc =
          ReadCompilationUnit k abbrevCodes data_table jump_table s2 debug_start
            abbrev_start top_unit_start fuel a pc)
      ∧ (∀ a pc retval children, readChildren k abbrevCodes data_table jump_table s1
            debug_start abbrev_start top_unit_start fuel a pc retval children =
          readChildren k abbrevCodes data_table jump_table s2 debug_start
            abbrev_start top_unit_start fuel a pc retval children) := by
  intro fuel
  induction fuel with
  | zero =>
    refine ⟨fun a pc => ?_, fun a pc retval children => ?_⟩
    · simp only [ReadCompilationUnit]
    · simp only [readChildren]
  | succ fuel ih =>
    refine ⟨fun a pc => ?_, fun a pc retval children => ?_⟩
    · simp only [ReadCompilationUnit, ih.2]
    · simp only [readChildren, ih.1, ih.2]

theorem readByte_next (jump_table : List Nat) (a v n : Int)
    (h : readByte jump_table a = .ok (v, n)) : n = a + 1 := by
  unfold readByte at h
  split at h
  · split at h
    · simp only [Except.ok.injEq, Prod.mk.injEq] at h
      exact h.2.symm
    · simp at h
  · simp at h

/-- `ReadCompilationUnit` for an entry within the section whose code is not 0,
when no symbol has the address of the cursor after the code byte. -/
theorem ReadCompilationUnit_no_symbol (k : DwarfHeader) (abbrevCodes : List AbbreviationCode)
    (data_table : List symbol) (jump_table : List Nat) (jtable_size : Int)
    (debug_start abbrev_start top_unit_start : Int) (fuel : Nat) (a top_unit_pc code next : Int)
    (hrange : debug_start ≤ a ∧ a < abbrev_start)
    (hb : readByte jump_table a = .ok (code, next)) (hcode : code ≠ 0)
    (hno : ∀ s ∈ data_table, s.address ≠ next) :
    ReadCompilationUnit k abbrevCodes data_table jump_table jtable_size debug_start
      abbrev_start top_unit_start (fuel + 1) a top_unit_pc = .error .exitNoSymbol := by
  have hr : ¬ (a < debug_start ∨ a ≥ abbrev_start) := by omega
  have hi : data_table.findIdx (fun s => next == s.address) = data_table.length := by
    apply List.findIdx_eq_length_of_false
    intro s hs
    have := hno s hs
    simp only [beq_eq_false_iff_ne, ne_eq]
    exact fun e => this e.symm
  rw [ReadCompilationUnit]
  simp only [hr, if_false, hb, bind, Except.bind, hcode, hi, lt_irrefl, not_false_eq_true,
    if_true]

/-- `ReadCompilationUnit` for an entry within the section whose code is not 0,
when the symbol `i` is the first that has the address of the cursor after the
code byte. -/
theorem ReadCompilationUnit_body (k : DwarfHeader) (abbrevCodes : List AbbreviationCode)
    (data_table : List symbol) (jump_table : List Nat) (jtable_size : Int)
    (debug_start abbrev_start top_unit_start : Int) (fuel : Nat) (a top_unit_pc code next : Int)
    (i : Nat) (s : symbol)
    (hrange : debug_start ≤ a ∧ a < abbrev_start)
    (hb : readByte jump_table a = .ok (code, next)) (hcode : code ≠ 0)
    (hs : data_table[i]? = some s) (hsa : s.address = next)
    (hfirst : ∀ (j : Nat) (t : symbol), j < i → data_table[j]? = some t → t.address ≠ next) :
    ReadCompilationUnit k abbrevCodes data_table jump_table jtable_size debug_start
        abbrev_start top_unit_start (fuel + 1) a top_unit_pc =
      readEntryBody k abbrevCodes data_table jump_table jtable_size debug_start abbrev_start
        top_unit_start fuel (newEntry k a top_unit_start code) code next top_unit_pc i := by
  have hr : ¬ (a < debug_start ∨ a ≥ abbrev_start) := by omega
  obtain ⟨hlt, he⟩ := List.getElem?_eq_some_iff.mp hs
  have hi : data_table.findIdx (fun s => next == s.address) = i := by
    rw [List.findIdx_eq hlt]
    refine ⟨by simp [he, hsa], ?_⟩
    intro j hji
    have := hfirst j data_table[j] hji (List.getElem?_eq_getElem (by omega))
    simp only [beq_eq_false_iff_ne, ne_eq]
    exact fun e => this e.symm
  rw [ReadCompilationUnit]
  simp only [hr, if_false, hb, bind, Except.bind, hcode, hi, hlt, not_true_eq_false]
  rfl

/-- C15 (as stated, refuted): the entry of the end-to-end example starts at the
address 0, which is its `addr`.  With a symbol at the address 0, and none at
the address 1, the call ends in the exit of the lookup; with no symbol at the
address 0, and one at the address 1, it returns the entry. -/
theorem C15_lookup_behind_code_byte :
    ReadCompilationUnit dwarf4 [{ addr := 13, code := 1 }]
        [symbol.mk 0 4, symbol.mk 5 4, symbol.mk 9 4] endToEndTable 29 0 13 0 1 0 0 =
      .error .exitNoSymbol
    ∧ ReadCompilationUnit dwarf4 [{ addr := 13, code := 1 }]
        [symbol.mk 1 4, symbol.mk 5 4, symbol.mk 9 4] endToEndTable 29 0 13 0 1 0 0 =
      .ok (endToEndEntry 0 [102, 111, 111] [(0x1000, 0x1040)], 13)
    ∧ (endToEndEntry 0 [102, 111, 111] [(0x1000, 0x1040)]).addr = 0 :=
  ⟨rfl, rfl, rfl⟩

/-- C15 (amended): for an entry that starts at the address a within the
section, with a code byte that is not 0, `ReadCompilationUnit` looks up the
symbol by the cursor after the code byte, a + 1, not by a: it ends in the exit
of the lookup when no symbol of the table has the address a + 1, and otherwise
goes on, from the abbreviation lookup to the children loop, with the index of
the first symbol whose address is a + 1 as the symbol of the first attribute;
the entry has the address a. -/
theorem C15_symbol_lookup (k : DwarfHeader) (abbrevCodes : List AbbreviationCode)
    (data_table : List symbol) (jump_table : List Nat) (jtable_size : Int)
    (debug_start abbrev_start top_unit_start : Int) (fuel : Nat) (a top_unit_pc code next : Int)
    (hrange : debug_start ≤ a ∧ a < abbrev_start)
    (hb : readByte jump_table a = .ok (code, next)) (hcode : code ≠ 0) :
    next = a + 1
    ∧ ((∀ s ∈ data_table, s.address ≠ a + 1) →
        ReadCompilationUnit k abbrevCodes data_table jump_table jtable_size debug_start
          abbrev_start top_unit_start (fuel + 1) a top_unit_pc = .error .exitNoSymbol)
    ∧ (∀ (i : Nat) (s : symbol), data_table[i]? = some s → s.address = a + 1 →
        (∀ (j : Nat) (t : symbol), j < i → data_table[j]? = some t → t.address ≠ a + 1) →
        ReadCompilationUnit k abbrevCodes data_table jump_table jtable_size debug_start
            abbrev_start top_unit_start (fuel + 1) a top_unit_pc =
          readEntryBody k abbrevCodes data_table jump_table jtable_size debug_start
            abbrev_start top_unit_start fuel (newEntry k a top_unit_start code) code (a + 1)
            top_unit_pc i
        ∧ (newEntry k a top_unit_start code).addr = a) := by
  have hn := readByte_next jump_table a code next hb
  subst hn
  refine ⟨rfl, ?_, ?_⟩
  · intro hno
    exact ReadCompilationUnit_no_symbol k abbrevCodes data_table jump_table jtable_size
      debug_start abbrev_start top_unit_start fuel a top_unit_pc code (a + 1) hrange hb hcode hno
  · intro i s hs hsa hfirst
    exact ⟨ReadCompilationUnit_body k abbrevCodes data_table jump_table jtable_size
      debug_start abbrev_start top_unit_start fuel a top_unit_pc code (a + 1) i s hrange hb
      hcode hs hsa hfirst, rfl⟩

/-- Witness of C15 (amended): the entry of the end-to-end example, at the
address 0 with the code 1. -/
theorem C15_symbol_lookup_witness :
    (1 : Int) = 0 + 1
    ∧ ((∀ s ∈ [symbol.mk 1 4, symbol.mk 5 4, symbol.mk 9 4], s.address ≠ 0 + 1) →
        ReadCompilationUnit dwarf4 [{ addr := 13, code := 1 }]
          [symbol.mk 1 4, symbol.mk 5 4, symbol.mk 9 4] endToEndTable 29 0 13 0 (0 + 1) 0 0 =
          .error .exitNoSymbol)
    ∧ (∀ (i : Nat) (s : symbol),
        [symbol.mk 1 4, symbol.mk 5 4, symbol.mk 9 4][i]? = some s → s.address = 0 + 1 →
        (∀ (j : Nat) (t : symbol), j < i →
          [symbol.mk 1 4, symbol.mk 5 4, symbol.mk 9 4][j]? = some t → t.address ≠ 0 + 1) →
        ReadCompilationUnit dwarf4 [{ addr := 13, code := 1 }]
            [symbol.mk 1 4, symbol.mk 5 4, symbol.mk 9 4] endToEndTable 29 0 13 0 (0 + 1) 0 0 =
          readEntryBody dwarf4 [{ addr := 13, code := 1 }]
            [symbol.mk 1 4, symbol.mk 5 4, symbol.mk 9 4] endToEndTable 29 0 13 0 0
            (newEntry dwarf4 0 0 1) 1 (0 + 1) 0 i
        ∧ (newEntry dwarf4 0 0 1).addr = 0) :=
  C15_symbol_lookup dwarf4 [{ addr := 13, code := 1 }]
    [symbol.mk 1 4, symbol.mk 5 4, symbol.mk 9 4] endToEndTable 29 0 13 0 0 0 0 1 1
    (by decide) rfl (by decide)

/-! ## The fields that the attribute decoder leaves alone -/

theorem readAttributeValue_frame (k : DwarfHeader) (retval : CompilationUnit) (attr type : Int)
    (debug_start : Int) (jump_table : List Nat) (current_addr : Int)
    (data_table : List symbol) (top_unit_pc : Int) (r : CompilationUnit) (a : Int) (u : Bool)
    (h : readAttributeValue k retval attr type debug_start jump_table current_addr
      data_table top_unit_pc = .ok (r, a, u)) :
    entryShell r = entryShell retval := by
  unfold readAttributeValue at h
  simp only [bind, Except.bind, pure, Except.pure] at h
  iterate 9 (all_goals (try split at h))
  all_goals first
    | (simp only [Except.ok.injEq, Prod.mk.injEq] at h; obtain ⟨h1, _⟩ := h; subst h1; rfl)
    | (simp at h)

theorem ReadAttribute_frame (k : DwarfHeader) (retval : CompilationUnit) (attr type : Int)
    (debug_start : Int) (jump_table : List Nat) (current_addr : Int)
    (data_table : List symbol) (dtable_ptr top_unit_pc : Int)
    (r : CompilationUnit) (a d : Int)
    (h : ReadAttribute k retval attr type debug_start jump_table current_addr
      data_table dtable_ptr top_unit_pc = .ok (r, a, d)) :
    entryShell r = entryShell retval := by
  rcases ReadAttribute_value k retval attr type debug_start jump_table current_addr
    data_table dtable_ptr top_unit_pc r a d h with ⟨_, e⟩ | ⟨a1, u, e⟩
  · rw [e]
  · exact readAttributeValue_frame k retval attr type debug_start jump_table current_addr
      data_table top_unit_pc r a1 u e

theorem readAttributes_frame (k : DwarfHeader) (debug_start : Int) (jump_table : List Nat)
    (data_table : List symbol) (top_unit_pc : Int) :
    ∀ (fuel : Nat) (abbrev_addr : Int) (retval : CompilationUnit) (current_addr dtable_ptr : Int)
      (r : CompilationUnit) (a : Int),
      readAttributes k debug_start jump_table data_table top_unit_pc fuel abbrev_addr retval
        current_addr dtable_ptr = .ok (r, a) →
      entryShell r = entryShell retval := by
  intro fuel
  induction fuel with
  | zero =>
    intro abbrev_addr retval current_addr dtable_ptr r a h
    simp [readAttributes] at h
  | succ fuel ih =>
    intro abbrev_addr retval current_addr dtable_ptr r a h
    rw [readAttributes] at h
    simp only [bind, Except.bind, pure, Except.pure] at h
    cases h1 : readByte jump_table abbrev_addr with
    | error e => simp [h1] at h
    | ok v1 =>
      obtain ⟨attr, a1⟩ := v1
      simp only [h1] at h
      by_cases hc : attr = k.DW_AT_MIPS_linkage_name ∨ attr = k.DW_AT_APPLE_optimized
      · simp only [hc, if_true] at h
        cases h2 : readByte jump_table a1 with
        | error e => simp [h2] at h
        | ok v2 =>
          obtain ⟨x2, a2⟩ := v2
          simp only [h2] at h
          cases h3 : readByte jump_table a2 with
          | error e => simp [h3] at h
          | ok v3 =>
            obtain ⟨type, a3⟩ := v3
            simp only [h3] at h
            split at h
            · simp only [Except.ok.injEq, Prod.mk.injEq] at h
              rw [h.1]
            · cases h4 : ReadAttribute k retval attr type debug_start jump_table current_addr
                  data_table dtable_ptr top_unit_pc with
              | error e => simp [h4] at h
              | ok v4 =>
                obtain ⟨r4, c4, d4⟩ := v4
                simp only [h4] at h
                rw [ih a3 r4 c4 d4 r a h]
                exact ReadAttribute_frame k retval attr type debug_start jump_table current_addr
                  data_table dtable_ptr top_unit_pc r4 c4 d4 h4
      · simp only [hc, if_false] at h
        cases h3 : readByte jump_table a1 with
        | error e => simp [h3] at h
        | ok v3 =>
          obtain ⟨type, a3⟩ := v3
          simp only [h3] at h
          split at h
          · simp only [Except.ok.injEq, Prod.mk.injEq] at h
            rw [h.1]
          · cases h4 : ReadAttribute k retval attr type debug_start jump_table current_addr
                data_table dtable_ptr top_unit_pc with
            | error e => simp [h4] at h
            | ok v4 =>
              obtain ⟨r4, c4, d4⟩ := v4
              simp only [h4] at h
              rw [ih a3 r4 c4 d4 r a h]
              exact ReadAttribute_frame k retval attr type debug_start jump_table current_addr
                data_table dtable_ptr top_unit_pc r4 c4 d4 h4

/-! ## The children loop -/

theorem qualifyChild_shell (k : DwarfHeader) (retval child : CompilationUnit) :
    entryShell (qualifyChild k retval child) = entryShell child
    ∧ (qualifyChild k retval child).ranges = child.ranges
    ∧ (qualifyChild k retval child).pointsTo = child.pointsTo := by
  unfold qualifyChild
  split_ifs <;> exact ⟨rfl, rfl, rfl⟩

theorem qualifyChild_congr (k : DwarfHeader) (p q child : CompilationUnit)
    (ht : p.tag = q.tag) (hn : p.name = q.name) :
    qualifyChild k p child = qualifyChild k q child := by
  unfold qualifyChild
  rw [ht, hn]

/-- The children that the children loop appends: each is an entry that a call
of `ReadCompilationUnit` with less fuel returned, with the name that
`qualifyChild` gives it, and has a code that is not 0. -/
theorem readChildren_spec (k : DwarfHeader) (abbrevCodes : List AbbreviationCode)
    (data_table : List symbol) (jump_table : List Nat) (jtable_size : Int)
    (debug_start abbrev_start top_unit_start : Int) :
    ∀ (fuel : Nat) (c pc : Int) (retval : CompilationUnit) (acc L : List CompilationUnit)
      (n : Int),
      readChildren k abbrevCodes data_table jump_table jtable_size debug_start abbrev_start
        top_unit_start fuel c pc retval acc = .ok (L, n) →
      ∃ new, L = acc ++ new ∧ ∀ C ∈ new, C.abbrevCode ≠ 0 ∧
        ∃ (fuel1 : Nat) (c1 : Int) (C0 : CompilationUnit) (n1 : Int), fuel1 < fuel
          ∧ ReadCompilationUnit k abbrevCodes data_table jump_table jtable_size debug_start
              abbrev_start top_unit_start fuel1 c1 pc = .ok (C0, n1)
          ∧ C = qualifyChild k retval C0 := by
  intro fuel
  induction fuel with
  | zero =>
    intro c pc retval acc L n h
    simp [readChildren] at h
  | succ fuel ih =>
    intro c pc retval acc L n h
    rw [readChildren] at h
    simp only [bind, Except.bind, pure, Except.pure] at h
    cases h1 : ReadCompilationUnit k abbrevCodes data_table jump_table jtable_size debug_start
        abbrev_start top_unit_start fuel c pc with
    | error e => simp [h1] at h
    | ok v =>
      obtain ⟨C0, n1⟩ := v
      simp only [h1] at h
      split at h
      · simp only [Except.ok.injEq, Prod.mk.injEq] at h
        exact ⟨[], by simp [h.1], fun C hC => absurd hC (List.not_mem_nil C)⟩
      · rename_i hcode
        obtain ⟨new, hL, hnew⟩ := ih n1 pc retval (acc ++ [qualifyChild k retval C0]) L n h
        refine ⟨qualifyChild k retval C0 :: new, by simpa using hL, ?_⟩
        intro C hC
        rcases List.mem_cons.mp hC with e | hC
        · subst e
          exact ⟨hcode, fuel, c, C0, n1, Nat.lt_succ_self fuel, h1, rfl⟩
        · obtain ⟨hc, fuel1, c1, D0, m1, hlt, hr, hq⟩ := hnew C hC
          exact ⟨hc, fuel1, c1, D0, m1, Nat.lt_succ_of_lt hlt, hr, hq⟩

/-- An entry that `ReadCompilationUnit` returns: it has the address of the
cursor; with the code 0 it is the entry of the constructor, one byte was read;
with another code its children are none or those of the children loop, run
for the entry as it is after the attribute loop. -/
theorem ReadCompilationUnit_cases (k : DwarfHeader) (abbrevCodes : List AbbreviationCode)
    (data_table : List symbol) (jump_table : List Nat) (jtable_size : Int)
    (debug_start abbrev_start top_unit_start : Int) (fuel : Nat) (a pc : Int)
    (P : CompilationUnit) (n : Int)
    (h : ReadCompilationUnit k abbrevCodes data_table jump_table jtable_size debug_start
      abbrev_start top_unit_start fuel a pc = .ok (P, n)) :
    P.addr = a ∧ P.top_level_addr = top_unit_start
    ∧ ((P = newEntry k a top_unit_start 0 ∧ n = a + 1)
      ∨ (P.abbrevCode ≠ 0 ∧ ∃ fuel1, fuel = fuel1 + 1 ∧
          (P.children = []
            ∨ ∃ (retval : CompilationUnit) (c pc1 : Int),
                retval.tag = P.tag ∧ retval.name = P.name
                ∧ readChildren k abbrevCodes data_table jump_table jtable_size debug_start
                    abbrev_start top_unit_start fuel1 c pc1 retval [] = .ok (P.children, n)
                ∧ retval.ranges = P.ranges ∧ pc1 = childBase k retval pc)))
    ∧ (∃ (fuel1 : Nat) (code : Int), fuel = fuel1 + 1
        ∧ (debug_start ≤ a ∧ a < abbrev_start)
        ∧ readByte jump_table a = .ok (code, a + 1) ∧ P.abbrevCode = code) := by
  cases fuel with
  | zero => simp [ReadCompilationUnit] at h
  | succ fuel =>
    rw [ReadCompilationUnit] at h
    split at h
    · simp at h
    · rename_i hnr
      have hrange : debug_start ≤ a ∧ a < abbrev_start := by omega
      simp only [bind, Except.bind, pure, Except.pure] at h
      cases h1 : readByte jump_table a with
      | error e => simp [h1] at h
      | ok v1 =>
        obtain ⟨code, c1⟩ := v1
        have hc1 := readByte_next jump_table a code c1 h1
        simp only [h1] at h
        split at h
        · rename_i hz
          simp only [Except.ok.injEq, Prod.mk.injEq] at h
          obtain ⟨hP, hn⟩ := h
          subst hP hn
          exact ⟨rfl, rfl, Or.inl ⟨by rw [hz]; rfl, hc1⟩, fuel, code, rfl, hrange, by rw [hc1], rfl⟩
        · rename_i hnz
          split at h
          · simp at h
          · split at h
            · simp at h
            · split at h
              · simp at h
              · rename_i v2 h2
                split at h
                · simp at h
                · rename_i v3 h3
                  split at h
                  · simp at h
                  · rename_i v4 h4
                    split at h
                    · simp at h
                    · rename_i v5 h5
                      obtain ⟨r5, c5⟩ := v5
                      have hf := readAttributes_frame k debug_start jump_table data_table pc _ _ _
                        _ _ r5 c5 h5
                      simp only [entryShell, Prod.mk.injEq] at hf
                      obtain ⟨f1, f2, f3, f4, f5⟩ := hf
                      by_cases hz : v4.1 ≠ 0
                      · rw [if_pos hz] at h
                        simp only at h
                        generalize hv6 : readChildren k abbrevCodes data_table jump_table
                          jtable_size debug_start abbrev_start top_unit_start fuel c5 _ r5 [] = x
                          at h
                        cases x with
                        | error e => simp at h
                        | ok v6 =>
                          obtain ⟨children, c6⟩ := v6
                          simp only [Except.ok.injEq, Prod.mk.injEq] at h
                          obtain ⟨hP, hn⟩ := h
                          subst hP hn
                          exact ⟨f1, f2, Or.inr ⟨by simpa [f3] using hnz, fuel, rfl,
                            Or.inr ⟨r5, _, _, rfl, rfl, hv6, rfl, rfl⟩⟩, fuel, code, rfl, hrange, by rw [hc1],
                            f3⟩
                      · rw [if_neg hz] at h
                        simp only [Except.ok.injEq, Prod.mk.injEq] at h
                        obtain ⟨hP, hn⟩ := h
                        subst hP hn
                        exact ⟨f1, f2, Or.inr ⟨by simpa [f3] using hnz, fuel, rfl,
                          Or.inl f5⟩, fuel, code, rfl, hrange, by rw [hc1], f3⟩

/-! ## C18: the names of the children of a class -/

/-- The children of an entry that `ReadCompilationUnit` returns: each is the
entry that the call for the child returned, at the address of the child and
with less fuel, with the name that `qualifyChild` gives it for the parent. -/
theorem children_qualified (k : DwarfHeader) (abbrevCodes : List AbbreviationCode)
    (data_table : List symbol) (jump_table : List Nat) (jtable_size : Int)
    (debug_start abbrev_start top_unit_start : Int) (fuel : Nat) (a pc : Int)
    (P : CompilationUnit) (n : Int)
    (h : ReadCompilationUnit k abbrevCodes data_table jump_table jtable_size debug_start
      abbrev_start top_unit_start fuel a pc = .ok (P, n)) :
    ∀ C ∈ P.children, C.abbrevCode ≠ 0 ∧
      ∃ (fuel1 : Nat) (pc1 : Int) (C0 : CompilationUnit) (n1 : Int), fuel1 < fuel
        ∧ ReadCompilationUnit k abbrevCodes data_table jump_table jtable_size debug_start
            abbrev_start top_unit_start fuel1 C.addr pc1 = .ok (C0, n1)
        ∧ C = qualifyChild k P C0 := by
  intro C hC
  obtain ⟨_, _, hcase, _⟩ := ReadCompilationUnit_cases k abbrevCodes data_table jump_table
    jtable_size debug_start abbrev_start top_unit_start fuel a pc P n h
  rcases hcase with ⟨hP, _⟩ | ⟨_, fuel0, hfuel, hch⟩
  · rw [hP] at hC
    exact absurd hC (List.not_mem_nil C)
  · rcases hch with hnil | ⟨retval, c, pc1, ht, hn, hrc, _, _⟩
    · rw [hnil] at hC
      exact absurd hC (List.not_mem_nil C)
    · obtain ⟨new, hL, hnew⟩ := readChildren_spec k abbrevCodes data_table jump_table
        jtable_size debug_start abbrev_start top_unit_start fuel0 c pc1 retval [] P.children n hrc
      rw [List.nil_append] at hL
      rw [hL] at hC
      obtain ⟨hcode, fuel1, c1, C0, n1, hlt, hr, hq⟩ := hnew C hC
      obtain ⟨haddr, _, _⟩ := ReadCompilationUnit_cases k abbrevCodes data_table jump_table
        jtable_size debug_start abbrev_start top_unit_start fuel1 c1 pc1 C0 n1 hr
      have hCaddr : C.addr = c1 := by
        rw [hq, ← haddr]
        exact congrArg (fun t => t.1) (qualifyChild_shell k retval C0).1
      refine ⟨hcode, fuel1, pc1, C0, n1, by omega, ?_, ?_⟩
      · rw [hCaddr]
        exact hr
      · rw [hq]
        exact qualifyChild_congr k retval P C0 ht hn

theorem qualifyChild_name (k : DwarfHeader) (P C0 : CompilationUnit) :
    (P.tag = k.DW_TAG_class_type → P.name ≠ [] → C0.name ≠ [] →
        (qualifyChild k P C0).name = P.name ++ strColons ++ C0.name)
    ∧ (C0.name = [] → (qualifyChild k P C0).name = [])
    ∧ (¬ (P.tag = k.DW_TAG_class_type ∧ P.name ≠ []) → qualifyChild k P C0 = C0)
    ∧ (qualifyChild k P C0).children = C0.children := by
  refine ⟨?_, ?_, ?_, ?_⟩
  · intro ht hn hc
    have h1 : P.name.length > 0 := List.length_pos.mpr hn
    have h2 : C0.name.length > 0 := List.length_pos.mpr hc
    simp [qualifyChild, ht, h1, h2]
  · intro hc
    unfold qualifyChild
    split_ifs with h1 h2
    · rw [hc] at h2
      simp at h2
    · exact hc
    · exact hc
  · intro hno
    unfold qualifyChild
    split_ifs with h1 h2
    · exact absurd ⟨h1.1, List.length_pos.mp h1.2⟩ hno
    · rfl
    · rfl
  · unfold qualifyChild
    split_ifs <;> rfl

/-- C18 (as stated, refuted): in the example the named class A contains the
named class B, which contains the function g.  The names in the tree that
`ReadCompilationUnit` returns are "A", "A::B" and "B::g", not "A::B::g": g got
its name within the call for B, when the name of B was "B".  A child without a
name stays without a name. -/
theorem C18_names_do_not_accumulate :
    FindAbbrevCodes classTable 17 38 [] = .ok [{ addr := 17, code := 2 }, { addr := 24, code := 3 }]
    ∧ ReadCompilationUnit dwarf4 [{ addr := 17, code := 2 }, { addr := 24, code := 3 }]
        classSymbols classTable 38 0 17 0 8 0 0 =
      .ok (classTree, 17)
    ∧ qualifyChild dwarf4 (classEntry 0 2 0x02 [65] []) (classEntry 5 3 0x2e [] []) =
        classEntry 5 3 0x2e [] [] :=
  ⟨by decide, rfl, rfl⟩

/-- C18 (amended): when `ReadCompilationUnit` returns an entry P, every child C
of P is the entry C0 that the call for the child has returned, with its
children as that call has left them, and with a name that depends on P and on
the name of C0, the decoded name of the child.  When the tag of P is class
type, and P and C0 have a name that is not empty, the name of C is the name of
P, "::" and the name of C0; a child decoded without a name stays without a
name; when P is no class or has no name, C is C0.  The names do not accumulate
over nesting: every child G of C is an entry G0 with the name that it got for
C0, with the decoded name of C0, not with the name of C. -/
theorem C18_qualification (k : DwarfHeader) (abbrevCodes : List AbbreviationCode)
    (data_table : List symbol) (jump_table : List Nat) (jtable_size : Int)
    (debug_start abbrev_start top_unit_start : Int) (fuel : Nat) (a pc : Int)
    (P : CompilationUnit) (n : Int)
    (h : ReadCompilationUnit k abbrevCodes data_table jump_table jtable_size debug_start
      abbrev_start top_unit_start fuel a pc = .ok (P, n)) :
    ∀ (i : Nat) (C : CompilationUnit), P.children[i]? = some C →
      ∃ (fuel1 : Nat) (pc1 : Int) (C0 : CompilationUnit) (n1 : Int), fuel1 < fuel
        ∧ ReadCompilationUnit k abbrevCodes data_table jump_table jtable_size debug_start
            abbrev_start top_unit_start fuel1 C.addr pc1 = .ok (C0, n1)
        ∧ C = qualifyChild k P C0
        ∧ (P.tag = k.DW_TAG_class_type → P.name ≠ [] → C0.name ≠ [] →
            C.name = P.name ++ strColons ++ C0.name)
        ∧ (C0.name = [] → C.name = [])
        ∧ (¬ (P.tag = k.DW_TAG_class_type ∧ P.name ≠ []) → C = C0)
        ∧ C.children = C0.children
        ∧ (∀ (j : Nat) (G : CompilationUnit), C.children[j]? = some G →
            ∃ (fuel2 : Nat) (pc2 : Int) (G0 : CompilationUnit) (n2 : Int), fuel2 < fuel1
              ∧ ReadCompilationUnit k abbrevCodes data_table jump_table jtable_size debug_start
                  abbrev_start top_unit_start fuel2 G.addr pc2 = .ok (G0, n2)
              ∧ G = qualifyChild k C0 G0) := by
  intro i C hC
  obtain ⟨_, fuel1, pc1, C0, n1, hlt, hr, hq⟩ := children_qualified k abbrevCodes data_table
    jump_table jtable_size debug_start abbrev_start top_unit_start fuel a pc P n h C
    (List.mem_iff_getElem?.mpr ⟨i, hC⟩)
  obtain ⟨q1, q2, q3, q4⟩ := qualifyChild_name k P C0
  refine ⟨fuel1, pc1, C0, n1, hlt, hr, hq, ?_, ?_, ?_, ?_, ?_⟩
  · rw [hq]
    exact q1
  · rw [hq]
    exact q2
  · rw [hq]
    exact q3
  · rw [hq]
    exact q4
  · intro j G hG
    have hG0 : G ∈ C0.children := by
      rw [← q4, ← hq]
      exact List.mem_iff_getElem?.mpr ⟨j, hG⟩
    obtain ⟨_, fuel2, pc2, G0, n2, hlt2, hr2, hq2⟩ := children_qualified k abbrevCodes
      data_table jump_table jtable_size debug_start abbrev_start top_unit_start fuel1 C.addr
      pc1 C0 n1 hr G hG0
    exact ⟨fuel2, pc2, G0, n2, hlt2, hr2, hq2⟩

/-- Witness of C18 (amended): the class A of the nested-class example and its
child 0, the class B. -/
theorem C18_qualification_witness :
    ∃ (fuel1 : Nat) (pc1 : Int) (C0 : CompilationUnit) (n1 : Int), fuel1 < 8
      ∧ ReadCompilationUnit dwarf4 [{ addr := 17, code := 2 }, { addr := 24, code := 3 }]
          classSymbols classTable 38 0 17 0 fuel1
          (classEntry 5 2 0x02 [65, 58, 58, 66]
            [classEntry 10 3 0x2e [66, 58, 58, 103] []]).addr pc1 = .ok (C0, n1)
      ∧ classEntry 5 2 0x02 [65, 58, 58, 66] [classEntry 10 3 0x2e [66, 58, 58, 103] []] =
          qualifyChild dwarf4 classTree C0
      ∧ (classTree.tag = dwarf4.DW_TAG_class_type → classTree.name ≠ [] → C0.name ≠ [] →
          (classEntry 5 2 0x02 [65, 58, 58, 66]
            [classEntry 10 3 0x2e [66, 58, 58, 103] []]).name =
            classTree.name ++ strColons ++ C0.name)
      ∧ (C0.name = [] →
          (classEntry 5 2 0x02 [65, 58, 58, 66]
            [classEntry 10 3 0x2e [66, 58, 58, 103] []]).name = [])
      ∧ (¬ (classTree.tag = dwarf4.DW_TAG_class_type ∧ classTree.name ≠ []) →
          classEntry 5 2 0x02 [65, 58, 58, 66] [classEntry 10 3 0x2e [66, 58, 58, 103] []] = C0)
      ∧ (classEntry 5 2 0x02 [65, 58, 58, 66]
          [classEntry 10 3 0x2e [66, 58, 58, 103] []]).children = C0.children
      ∧ (∀ (j : Nat) (G : CompilationUnit),
          (classEntry 5 2 0x02 [65, 58, 58, 66]
            [classEntry 10 3 0x2e [66, 58, 58, 103] []]).children[j]? = some G →
          ∃ (fuel2 : Nat) (pc2 : Int) (G0 : CompilationUnit) (n2 : Int), fuel2 < fuel1
            ∧ ReadCompilationUnit dwarf4 [{ addr := 17, code := 2 }, { addr := 24, code := 3 }]
                classSymbols classTable 38 0 17 0 fuel2 G.addr pc2 = .ok (G0, n2)
            ∧ G = qualifyChild dwarf4 C0 G0) :=
  C18_qualification dwarf4 [{ addr := 17, code := 2 }, { addr := 24, code := 3 }]
    classSymbols classTable 38 0 17 0 8 0 0 classTree 17 rfl 0
    (classEntry 5 2 0x02 [65, 58, 58, 66] [classEntry 10 3 0x2e [66, 58, 58, 103] []]) rfl

/-! ## C19: entries with the code 0 -/

/-- `ReadCompilationUnit` at a byte 0 within the section: the entry of the
constructor with the code 0, whatever the symbols and the abbreviations are. -/
theorem ReadCompilationUnit_sentinel (k : DwarfHeader) (abbrevCodes : List AbbreviationCode)
    (data_table : List symbol) (jump_table : List Nat) (jtable_size : Int)
    (debug_start abbrev_start top_unit_start : Int) (fuel : Nat) (a pc c : Int)
    (hrange : debug_start ≤ a ∧ a < abbrev_start)
    (hb : readByte jump_table a = .ok (0, c)) :
    ReadCompilationUnit k abbrevCodes data_table jump_table jtable_size debug_start
      abbrev_start top_unit_start (fuel + 1) a pc = .ok (newEntry k a top_unit_start 0, c) := by
  have hr : ¬ (a < debug_start ∨ a ≥ abbrev_start) := by omega
  rw [ReadCompilationUnit]
  simp only [hr, if_false, hb, bind, Except.bind, pure, Except.pure, if_true]
  rfl

/-- The units below an entry that `ReadCompilationUnit` returns have a code
that is not 0. -/
theorem below_nonzero (k : DwarfHeader) (abbrevCodes : List AbbreviationCode)
    (data_table : List symbol) (jump_table : List Nat) (jtable_size : Int)
    (debug_start abbrev_start top_unit_start : Int) :
    ∀ (fuel : Nat) (a pc : Int) (P : CompilationUnit) (n : Int),
      ReadCompilationUnit k abbrevCodes data_table jump_table jtable_size debug_start
        abbrev_start top_unit_start fuel a pc = .ok (P, n) →
      ∀ (path : UnitPtr) (v : CompilationUnit), path ≠ [] → unitAt P path = some v →
        v.abbrevCode ≠ 0 := by
  intro fuel
  induction fuel using Nat.strong_induction_on with
  | _ fuel ih =>
    intro a pc P n h path v hne hv
    cases path with
    | nil => exact absurd rfl hne
    | cons i rest =>
      rw [unitAt_cons] at hv
      cases hC : P.children[i]? with
      | none => simp [hC] at hv
      | some C =>
        simp only [hC, Option.bind] at hv
        obtain ⟨hcode, fuel1, pc1, C0, n1, hlt, hr, hq⟩ := children_qualified k abbrevCodes
          data_table jump_table jtable_size debug_start abbrev_start top_unit_start fuel a pc
          P n h C (List.mem_iff_getElem?.mpr ⟨i, hC⟩)
        cases rest with
        | nil =>
          simp only [unitAt, Option.some.injEq] at hv
          rw [← hv]
          exact hcode
        | cons j rest2 =>
          have hch : C.children = C0.children := by
            rw [hq]
            exact (qualifyChild_name k P C0).2.2.2
          rw [unitAt_cons, hch, ← unitAt_cons] at hv
          exact ih fuel1 hlt C.addr pc1 C0 n1 hr (j :: rest2) v (by simp) hv

/-- The units that the loop over the top-level units appends are entries that
`ReadCompilationUnit` returned. -/
theorem readUnits_spec (k : DwarfHeader) (abbrevCodes : List AbbreviationCode)
    (data_table : List symbol) (jump_table : List Nat) (jtable_size : Int)
    (debug_start abbrev_start : Int) (fuel : Nat) :
    ∀ (m : Nat) (unit_ptr : Int) (children L : List CompilationUnit),
      readUnits k abbrevCodes data_table jump_table jtable_size debug_start abbrev_start fuel
        m unit_ptr children = .ok L →
      ∃ new, L = children ++ new ∧ ∀ U ∈ new, ∃ (start c n1 : Int),
        ReadCompilationUnit k abbrevCodes data_table jump_table jtable_size debug_start
          abbrev_start start fuel c 0 = .ok (U, n1) := by
  intro m
  induction m with
  | zero =>
    intro unit_ptr children L h
    simp [readUnits] at h
  | succ m ih =>
    intro unit_ptr children L h
    rw [readUnits] at h
    split at h
    · simp only [bind, Except.bind] at h
      cases h1 : ReadUnitHeader jump_table unit_ptr with
      | error e => simp [h1] at h
      | ok v1 =>
        obtain ⟨len, c⟩ := v1
        simp only [h1] at h
        cases h2 : ReadCompilationUnit k abbrevCodes data_table jump_table jtable_size
            debug_start abbrev_start unit_ptr fuel c 0 with
        | error e => simp [h2] at h
        | ok v2 =>
          obtain ⟨U, n1⟩ := v2
          simp only [h2] at h
          obtain ⟨new, hL, hnew⟩ := ih n1 (children ++ [U]) L h
          refine ⟨U :: new, by simpa using hL, ?_⟩
          intro V hV
          rcases List.mem_cons.mp hV with e | hV
          · subst e
            exact ⟨unit_ptr, c, n1, h2⟩
          · exact hnew V hV
    · simp only [pure, Except.pure, Except.ok.injEq] at h
      exact ⟨[], by simp [h], fun U hU => absurd hU (List.not_mem_nil U)⟩

/-- In the tree that `BuildSourceTree` leaves on a new object, every unit below
the children of the root has a code that is not 0. -/
theorem BuildSourceTree_below (k : DwarfHeader) (self : DwarfReader)
    (data_table : List symbol) (jump_table : List Nat)
    (jtable_size debug_start abbrev_start : Int) (dotFileOpens : Bool) (fuel : Nat)
    (r : DwarfReader) (hnew : self.isNew)
    (h : BuildSourceTree k self data_table jump_table jtable_size debug_start abbrev_start
      dotFileOpens fuel = .ok r) :
    ∀ (path : UnitPtr) (v : CompilationUnit), 2 ≤ path.length →
      unitAt r.rootSource path = some v → v.abbrevCode ≠ 0 := by
  obtain ⟨hch, hul, _, hrt⟩ := hnew
  cases hcodes : FindAbbrevCodes jump_table abbrev_start jtable_size self.abbrevCodes with
  | error e => simp [BuildSourceTree, hcodes, bind, Except.bind] at h
  | ok codes =>
    cases hparse : readUnits k codes data_table jump_table jtable_size debug_start abbrev_start
        fuel fuel debug_start self.rootSource.children with
    | error e => simp [BuildSourceTree, hcodes, hparse, bind, Except.bind] at h
    | ok children =>
      obtain ⟨root1, rt1, e, F, _, _, _⟩ := resolveLoop_spec
        (addChildren children [] 0) (addChildren children [] 0)
        { self.rootSource with children := children } none
        (flat_valid { self.rootSource with children := children }) (fun _ h => h)
        (flat_nodup { self.rootSource with children := children })
      simp only [BuildSourceTree, finishSourceTree, hcodes, hparse, hul, hrt, List.nil_append,
        bind, Except.bind, pure, Except.pure, e] at h
      split at h
      · simp at h
      · split at h
        · simp only [Except.ok.injEq] at h
          subst h
          obtain ⟨new, hL, hnew⟩ := readUnits_spec k codes data_table jump_table jtable_size
            debug_start abbrev_start fuel fuel debug_start self.rootSource.children children
            hparse
          rw [hch, List.nil_append] at hL
          intro path v hlen hv
          have hF := F path
          rw [hv] at hF
          cases hv0 : unitAt { self.rootSource with children := children } path with
          | none => simp [hv0] at hF
          | some v0 =>
            simp only [hv0, Option.map_some', Option.some.injEq] at hF
            have hcode : v.abbrevCode = v0.abbrevCode := congrArg (fun t => t.2.2.1) hF
            rw [hcode]
            cases path with
            | nil => simp at hlen
            | cons i rest =>
              cases rest with
              | nil => simp at hlen
              | cons j rest2 =>
                rw [unitAt_cons] at hv0
                cases hU : children[i]? with
                | none => simp [hU] at hv0
                | some U =>
                  simp only [hU, Option.bind] at hv0
                  have hmem : U ∈ new := by
                    rw [← hL]
                    exact List.mem_iff_getElem?.mpr ⟨i, hU⟩
                  obtain ⟨start, c, n1, hr⟩ := hnew U hmem
                  exact below_nonzero k codes data_table jump_table jtable_size debug_start
                    abbrev_start start fuel c 0 U n1 hr (j :: rest2) v0 (by simp) hv0
        · simp at h

/-- C19 (as stated, refuted): in the example the entry of the first unit is
read at a byte 0.  `BuildSourceTree` returns, and the first child of the root
of its tree is that entry, with the code 0. -/
theorem C19_top_level_sentinel_stored :
    BuildSourceTree dwarf4 newReader emptyUnitSymbols emptyUnitTable 53 0 36 true 3 =
      .ok emptyUnitReader
    ∧ (emptyUnitReader.rootSource.children[0]?).map CompilationUnit.abbrevCode = some 0 :=
  ⟨rfl, rfl⟩

/-- C19 (amended): let `ReadCompilationUnit` return the entry P, read at the
address a.  Every unit below P, in the children list of P or of a unit below
it, has a code that is not 0.  If the code of P is 0, the byte at a is 0, one
byte was read, P is the entry of the constructor, without a name, ranges or
children, the call returns P whatever the symbols and the abbreviation codes
are, and the children loop that reads P stops there and returns its list
without P.  If the code of P is not 0, the children loop appends P, with the
name of `qualifyChild`, and goes on.  The loop over the top-level units of
`BuildSourceTree` appends P whatever its code is, so an entry with the code 0
can be a child of the root; in the tree that `BuildSourceTree` leaves on a new
object every unit below the children of the root has a code that is not 0. -/
theorem C19_sentinel (k : DwarfHeader) (abbrevCodes : List AbbreviationCode)
    (data_table : List symbol) (jump_table : List Nat) (jtable_size : Int)
    (debug_start abbrev_start top_unit_start : Int) (fuel : Nat) (a pc : Int)
    (P : CompilationUnit) (n : Int)
    (h : ReadCompilationUnit k abbrevCodes data_table jump_table jtable_size debug_start
      abbrev_start top_unit_start fuel a pc = .ok (P, n)) :
    (∀ (path : UnitPtr) (v : CompilationUnit), path ≠ [] → unitAt P path = some v →
        v.abbrevCode ≠ 0)
    ∧ (P.abbrevCode = 0 →
        readByte jump_table a = .ok (0, a + 1) ∧ n = a + 1
        ∧ P = newEntry k a top_unit_start 0
        ∧ P.name = [] ∧ P.ranges = [] ∧ P.children = []
        ∧ (∀ (codes2 : List AbbreviationCode) (table2 : List symbol),
            ReadCompilationUnit k codes2 table2 jump_table jtable_size debug_start
              abbrev_start top_unit_start fuel a pc = .ok (P, n))
        ∧ (∀ (retval : CompilationUnit) (children : List CompilationUnit),
            readChildren k abbrevCodes data_table jump_table jtable_size debug_start
              abbrev_start top_unit_start (fuel + 1) a pc retval children = .ok (children, n)))
    ∧ (P.abbrevCode ≠ 0 →
        ∀ (retval : CompilationUnit) (children : List CompilationUnit),
          readChildren k abbrevCodes data_table jump_table jtable_size debug_start
              abbrev_start top_unit_start (fuel + 1) a pc retval children =
            readChildren k abbrevCodes data_table jump_table jtable_size debug_start
              abbrev_start top_unit_start fuel n pc retval
              (children ++ [qualifyChild k retval P]))
    ∧ (∀ (m : Nat) (start len : Int) (children : List CompilationUnit),
        start < abbrev_start → ReadUnitHeader jump_table start = .ok (len, a) →
        top_unit_start = start → pc = 0 →
        readUnits k abbrevCodes data_table jump_table jtable_size debug_start abbrev_start
            fuel (m + 1) start children =
          readUnits k abbrevCodes data_table jump_table jtable_size debug_start abbrev_start
            fuel m n (children ++ [P]))
    ∧ (∀ (self r : DwarfReader) (dotFileOpens : Bool) (fuel0 : Nat), self.isNew →
        BuildSourceTree k self data_table jump_table jtable_size debug_start abbrev_start
          dotFileOpens fuel0 = .ok r →
        ∀ (path : UnitPtr) (v : CompilationUnit), 2 ≤ path.length →
          unitAt r.rootSource path = some v → v.abbrevCode ≠ 0) := by
  obtain ⟨_, _, hcase, fuel1, code, hfuel, hrange, hb, hcode⟩ :=
    ReadCompilationUnit_cases k abbrevCodes data_table jump_table jtable_size debug_start
      abbrev_start top_unit_start fuel a pc P n h
  have hq : ∀ retval : CompilationUnit,
      (qualifyChild k retval P).abbrevCode = P.abbrevCode := fun retval =>
    congrArg (fun t => t.2.2.1) (qualifyChild_shell k retval P).1
  refine ⟨?_, ?_, ?_, ?_, ?_⟩
  · exact below_nonzero k abbrevCodes data_table jump_table jtable_size debug_start
      abbrev_start top_unit_start fuel a pc P n h
  · intro hz
    rcases hcase with ⟨hP, hn⟩ | ⟨hnz, _⟩
    · rw [hz] at hcode
      rw [← hcode] at hb
      refine ⟨hb, hn, hP, by rw [hP]; rfl, by rw [hP]; rfl, by rw [hP]; rfl, ?_, ?_⟩
      · intro codes2 table2
        rw [hfuel, hP, hn]
        exact ReadCompilationUnit_sentinel k codes2 table2 jump_table jtable_size debug_start
          abbrev_start top_unit_start fuel1 a pc (a + 1) hrange hb
      · intro retval children
        rw [readChildren]
        simp only [h, bind, Except.bind, pure, Except.pure, hq retval, hz, if_true]
    · exact absurd hz hnz
  · intro hnz retval children
    rw [readChildren]
    simp only [h, bind, Except.bind, pure, Except.pure, hq retval, hnz, if_false]
  · intro m start len children hlt hh hs hpc
    subst hs hpc
    rw [readUnits]
    simp only [hlt, if_true, hh, h, bind, Except.bind]
  · intro self r dot fuel0 hnew hbuild
    exact BuildSourceTree_below k self data_table jump_table jtable_size debug_start
      abbrev_start dot fuel0 r hnew hbuild

/-- Witness of C19 (amended): the class A of the nested-class example, read at
the address 0. -/
theorem C19_sentinel_witness :
    (∀ (path : UnitPtr) (v : CompilationUnit), path ≠ [] → unitAt classTree path = some v →
        v.abbrevCode ≠ 0)
    ∧ (classTree.abbrevCode = 0 →
        readByte classTable 0 = .ok (0, 0 + 1) ∧ (17 : Int) = 0 + 1
        ∧ classTree = newEntry dwarf4 0 0 0
        ∧ classTree.name = [] ∧ classTree.ranges = [] ∧ classTree.children = []
        ∧ (∀ (codes2 : List AbbreviationCode) (table2 : List symbol),
            ReadCompilationUnit dwarf4 codes2 table2 classTable 38 0 17 0 8 0 0 =
              .ok (classTree, 17))
        ∧ (∀ (retval : CompilationUnit) (children : List CompilationUnit),
            readChildren dwarf4 [{ addr := 17, code := 2 }, { addr := 24, code := 3 }]
              classSymbols classTable 38 0 17 0 (8 + 1) 0 0 retval children =
              .ok (children, 17)))
    ∧ (classTree.abbrevCode ≠ 0 →
        ∀ (retval : CompilationUnit) (children : List CompilationUnit),
          readChildren dwarf4 [{ addr := 17, code := 2 }, { addr := 24, code := 3 }]
              classSymbols classTable 38 0 17 0 (8 + 1) 0 0 retval children =
            readChildren dwarf4 [{ addr := 17, code := 2 }, { addr := 24, code := 3 }]
              classSymbols classTable 38 0 17 0 8 17 0 retval
              (children ++ [qualifyChild dwarf4 retval classTree]))
    ∧ (∀ (m : Nat) (start len : Int) (children : List CompilationUnit),
        start < 17 → ReadUnitHeader classTable start = .ok (len, 0) →
        (0 : Int) = start → (0 : Int) = 0 →
        readUnits dwarf4 [{ addr := 17, code := 2 }, { addr := 24, code := 3 }]
            classSymbols classTable 38 0 17 8 (m + 1) start children =
          readUnits dwarf4 [{ addr := 17, code := 2 }, { addr := 24, code := 3 }]
            classSymbols classTable 38 0 17 8 m 17 (children ++ [classTree]))
    ∧ (∀ (self r : DwarfReader) (dotFileOpens : Bool) (fuel0 : Nat), self.isNew →
        BuildSourceTree dwarf4 self classSymbols classTable 38 0 17 dotFileOpens fuel0 = .ok r →
        ∀ (path : UnitPtr) (v : CompilationUnit), 2 ≤ path.length →
          unitAt r.rootSource path = some v → v.abbrevCode ≠ 0) :=
  C19_sentinel dwarf4 [{ addr := 17, code := 2 }, { addr := 24, code := 3 }]
    classSymbols classTable 38 0 17 0 8 0 0 classTree 17 rfl

/-! ## C20: the cursor and the symbol index -/

theorem readHalf_next (jump_table : List Nat) (a v n : Int)
    (h : readHalf jump_table a = .ok (v, n)) : n = a + 2 := by
  unfold readHalf at h
  split at h
  · split at h
    · simp only [Except.ok.injEq, Prod.mk.injEq] at h
      exact h.2.symm
    · simp at h
  · simp at h

theorem readWord_next (jump_table : List Nat) (a v n : Int)
    (h : readWord jump_table a = .ok (v, n)) : n = a + 4 := by
  unfold readWord at h
  split at h
  · split at h
    · simp only [Except.ok.injEq, Prod.mk.injEq] at h
      exact h.2.symm
    · simp at h
  · simp at h

theorem readVarType_next (k : DwarfHeader) (jump_table : List Nat) (a type v n : Int)
    (h : readVarType k jump_table a type = .ok (v, n)) : n = a + readVarTypeWidth k type := by
  unfold readVarType at h
  unfold readVarTypeWidth
  split_ifs at h ⊢
  · exact readWord_next jump_table a v n h
  · exact readHalf_next jump_table a v n h
  · exact readByte_next jump_table a v n h

/-- The cursor after the attribute `switch`: 4 bytes on for the name, the
bounds and the range list, the width of the form on for the two references,
and unchanged, with the attribute marked as unused, for any other attribute. -/
theorem readAttributeValue_cursor (k : DwarfHeader) (retval : CompilationUnit) (attr type : Int)
    (debug_start : Int) (jump_table : List Nat) (current_addr : Int)
    (data_table : List symbol) (top_unit_pc : Int) (r : CompilationUnit) (a1 : Int) (u : Bool)
    (h : readAttributeValue k retval attr type debug_start jump_table current_addr
      data_table top_unit_pc = .ok (r, a1, u)) :
    if attr = k.DW_AT_name ∨ attr = k.DW_AT_low_pc ∨ attr = k.DW_AT_high_pc
        ∨ attr = k.DW_AT_ranges then u = false ∧ a1 = current_addr + 4
    else if attr = k.DW_AT_specification ∨ attr = k.DW_AT_abstract_origin then
      u = false ∧ a1 = current_addr + readVarTypeWidth k type
    else u = true ∧ a1 = current_addr := by
  have hw := readWord_next jump_table current_addr
  have hv := readVarType_next k jump_table current_addr type
  unfold readAttributeValue at h
  simp only [bind, Except.bind, pure, Except.pure] at h
  by_cases c1 : attr = k.DW_AT_name
  · rw [if_pos c1] at h
    rw [if_pos (Or.inl c1)]
    cases e : readWord jump_table current_addr with
    | error x => simp [e] at h
    | ok v =>
      obtain ⟨w, nx⟩ := v
      simp only [e] at h
      split at h
      · simp at h
      · simp only [Except.ok.injEq, Prod.mk.injEq] at h
        exact ⟨h.2.2.symm, by rw [← h.2.1]; exact hw w nx e⟩
  · rw [if_neg c1] at h
    by_cases c2 : attr = k.DW_AT_low_pc
    · rw [if_pos c2] at h
      rw [if_pos (Or.inr (Or.inl c2))]
      cases e : readWord jump_table current_addr with
      | error x => simp [e] at h
      | ok v =>
        obtain ⟨w, nx⟩ := v
        simp only [e, Except.ok.injEq, Prod.mk.injEq] at h
        exact ⟨h.2.2.symm, by rw [← h.2.1]; exact hw w nx e⟩
    · rw [if_neg c2] at h
      by_cases c3 : attr = k.DW_AT_high_pc
      · rw [if_pos c3] at h
        rw [if_pos (Or.inr (Or.inr (Or.inl c3)))]
        split at h
        · simp at h
        · split at h
          · simp at h
          · cases e : readWord jump_table current_addr with
            | error x => simp [e] at h
            | ok v =>
              obtain ⟨w, nx⟩ := v
              simp only [e, Except.ok.injEq, Prod.mk.injEq] at h
              exact ⟨h.2.2.symm, by rw [← h.2.1]; exact hw w nx e⟩
      · rw [if_neg c3] at h
        by_cases c4 : attr = k.DW_AT_ranges
        · rw [if_pos c4] at h
          rw [if_pos (Or.inr (Or.inr (Or.inr c4)))]
          cases e : readWord jump_table current_addr with
          | error x => simp [e] at h
          | ok v =>
            obtain ⟨w, nx⟩ := v
            simp only [e] at h
            iterate 3 (all_goals (try split at h))
            all_goals first
              | (simp only [Except.ok.injEq, Prod.mk.injEq] at h
                 exact ⟨h.2.2.symm, by rw [← h.2.1]; exact hw w nx e⟩)
              | simp at h
        · rw [if_neg c4] at h
          have c1234 : ¬ (attr = k.DW_AT_name ∨ attr = k.DW_AT_low_pc ∨ attr = k.DW_AT_high_pc
              ∨ attr = k.DW_AT_ranges) := by
            rintro (x | x | x | x)
            · exact c1 x
            · exact c2 x
            · exact c3 x
            · exact c4 x
          rw [if_neg c1234]
          by_cases c5 : attr = k.DW_AT_specification ∨ attr = k.DW_AT_abstract_origin
          · rw [if_pos c5] at h
            rw [if_pos c5]
            cases e : readVarType k jump_table current_addr type with
            | error x => simp [e] at h
            | ok v =>
              obtain ⟨w, nx⟩ := v
              simp only [e] at h
              split at h
              · simp only [Except.ok.injEq, Prod.mk.injEq] at h
                exact ⟨h.2.2.symm, by rw [← h.2.1]; exact hv w nx e⟩
              · simp only [Except.ok.injEq, Prod.mk.injEq] at h
                exact ⟨h.2.2.symm, by rw [← h.2.1]; exact hv w nx e⟩
          · rw [if_neg c5] at h
            rw [if_neg c5]
            simp only [Except.ok.injEq, Prod.mk.injEq] at h
            exact ⟨h.2.2.symm, h.2.1.symm⟩

/-- C20 (as stated, refuted): the symbols of the example are contiguous, and
the cursor 0 is the address of the symbol 0, a 2-byte symbol for a
`DW_AT_high_pc` of the form `DW_FORM_data2`.  `ReadAttribute` reads a word,
and returns with the cursor 4 and the symbol index 1, while the address of
the symbol 1 is 2. -/
theorem C20_short_high_pc :
    contiguous shortHighSymbols
    ∧ shortHighSymbols[0]? = some ⟨0, 2⟩ ∧ shortHighSymbols[1]? = some ⟨2, 4⟩
    ∧ dwarf4.isBlockForm dwarf4.DW_FORM_data2 = false
    ∧ dwarf4.DW_FORM_data2 ≠ dwarf4.DW_FORM_flag_present
    ∧ ReadAttribute dwarf4 (endToEndEntry 0 [] [(0x1000, -1)]) dwarf4.DW_AT_high_pc
        dwarf4.DW_FORM_data2 0 shortHighTable 0 shortHighSymbols 0 0 =
      .ok (endToEndEntry 0 [] [(0x1000, 0x22111040)], 4, 1) := by
  refine ⟨?_, rfl, rfl, rfl, by decide, rfl⟩
  intro i s t hs ht
  cases i with
  | zero =>
    simp only [shortHighSymbols, List.getElem?_cons_zero, Option.some.injEq, Nat.zero_add,
      List.getElem?_cons_succ] at hs ht
    subst hs ht
    rfl
  | succ i =>
    simp [shortHighSymbols] at ht

/-- C20 (amended): assume the symbol table is contiguous, the cursor is the
address of the symbol s at the symbol index d, and t is the symbol d + 1,
whose address is an `int`.  When `ReadAttribute` returns from an attribute
other than `DW_AT_APPLE_optimized` (for which it moves neither) with a form
that is no block form and not flag-present, the symbol index is d + 1 and the
cursor has moved by `attributeWidth`: by 4 bytes for the name, the bounds and
the range list, by the width of the form for the two references, by the size
of s for an attribute that is not used.  So the cursor is the address of the
symbol d + 1 exactly when that number is the size of s: always for an
attribute that is not used, and for the others when the symbol has the size
that is read. -/
theorem C20_lockstep (k : DwarfHeader) (retval : CompilationUnit) (attr type : Int)
    (debug_start : Int) (jump_table : List Nat) (current_addr : Int)
    (data_table : List symbol) (top_unit_pc : Int) (d : Nat) (s t : symbol)
    (r : CompilationUnit) (a1 d1 : Int)
    (hcont : contiguous data_table)
    (hs : data_table[d]? = some s) (ht : data_table[d + 1]? = some t)
    (hcur : current_addr = s.address)
    (hform : k.isBlockForm type = false) (hflag : type ≠ k.DW_FORM_flag_present)
    (happle : ¬ (attr ≠ k.DW_AT_name ∧ attr = k.DW_AT_APPLE_optimized))
    (hint : toInt32 t.address = t.address)
    (hres : ReadAttribute k retval attr type debug_start jump_table current_addr
      data_table d top_unit_pc = .ok (r, a1, d1)) :
    d1 = d + 1
    ∧ a1 = current_addr + attributeWidth k attr type s.size
    ∧ (a1 = t.address ↔ attributeWidth k attr type s.size = s.size)
    ∧ (¬ (attr = k.DW_AT_name ∨ attr = k.DW_AT_low_pc ∨ attr = k.DW_AT_high_pc
          ∨ attr = k.DW_AT_ranges ∨ attr = k.DW_AT_specification
          ∨ attr = k.DW_AT_abstract_origin) → a1 = t.address) := by
  have htaddr := hcont d s t hs ht
  have hsym : symbolAt data_table (d : Int) = .ok s := by
    simp [symbolAt, hs]
  unfold ReadAttribute at hres
  rw [if_neg happle] at hres
  simp only [bind, Except.bind, pure, Except.pure] at hres
  cases hv : readAttributeValue k retval attr type debug_start jump_table current_addr
      data_table top_unit_pc with
  | error e => simp [hv] at hres
  | ok v =>
    obtain ⟨r1, c1, u⟩ := v
    have hc := readAttributeValue_cursor k retval attr type debug_start jump_table
      current_addr data_table top_unit_pc r1 c1 u hv
    simp only [hv, hform, Bool.false_eq_true, if_false, hflag] at hres
    have key : d1 = d + 1 ∧ a1 = current_addr + attributeWidth k attr type s.size := by
      unfold attributeWidth
      split_ifs at hc ⊢ with c1234 c56
      · obtain ⟨hu, hc1⟩ := hc
        subst hu
        simp only [Bool.false_eq_true, if_false, Except.ok.injEq, Prod.mk.injEq] at hres
        exact ⟨hres.2.2.symm, by rw [← hres.2.1, hc1]⟩
      · obtain ⟨hu, hc1⟩ := hc
        subst hu
        simp only [Bool.false_eq_true, if_false, Except.ok.injEq, Prod.mk.injEq] at hres
        exact ⟨hres.2.2.symm, by rw [← hres.2.1, hc1]⟩
      · obtain ⟨hu, hc1⟩ := hc
        subst hu
        simp only [if_true, hsym, Except.ok.injEq, Prod.mk.injEq] at hres
        refine ⟨hres.2.2.symm, ?_⟩
        rw [← hres.2.1, hc1, hcur, ← htaddr, hint]
    obtain ⟨k1, k2⟩ := key
    refine ⟨k1, k2, ?_, ?_⟩
    · rw [k2, htaddr, hcur]
      constructor
      · intro h
        omega
      · intro h
        rw [h]
    · intro hno
      rw [k2, htaddr, hcur]
      unfold attributeWidth
      rw [if_neg (fun h => hno (by tauto)), if_neg (fun h => hno (by tauto))]

/-- Witness of C20 (amended): the 2-byte `DW_AT_high_pc` of the example. -/
theorem C20_lockstep_witness :
    (1 : Int) = (0 : Nat) + 1
    ∧ (4 : Int) = 0 + attributeWidth dwarf4 dwarf4.DW_AT_high_pc dwarf4.DW_FORM_data2
        (symbol.mk 0 2).size
    ∧ ((4 : Int) = (symbol.mk 2 4).address ↔
        attributeWidth dwarf4 dwarf4.DW_AT_high_pc dwarf4.DW_FORM_data2 (symbol.mk 0 2).size =
          (symbol.mk 0 2).size)
    ∧ (¬ (dwarf4.DW_AT_high_pc = dwarf4.DW_AT_name ∨ dwarf4.DW_AT_high_pc = dwarf4.DW_AT_low_pc
          ∨ dwarf4.DW_AT_high_pc = dwarf4.DW_AT_high_pc
          ∨ dwarf4.DW_AT_high_pc = dwarf4.DW_AT_ranges
          ∨ dwarf4.DW_AT_high_pc = dwarf4.DW_AT_specification
          ∨ dwarf4.DW_AT_high_pc = dwarf4.DW_AT_abstract_origin) →
        (4 : Int) = (symbol.mk 2 4).address) :=
  C20_lockstep dwarf4 (endToEndEntry 0 [] [(0x1000, -1)]) dwarf4.DW_AT_high_pc
    dwarf4.DW_FORM_data2 0 shortHighTable 0 shortHighSymbols 0 0 ⟨0, 2⟩ ⟨2, 4⟩
    (endToEndEntry 0 [] [(0x1000, 0x22111040)]) 4 1
    (by
      intro i s t hs ht
      cases i with
      | zero =>
        simp only [shortHighSymbols, List.getElem?_cons_zero, Option.some.injEq, Nat.zero_add,
          List.getElem?_cons_succ] at hs ht
        subst hs ht
        rfl
      | succ i =>
        simp [shortHighSymbols] at ht)
    rfl rfl rfl rfl (by decide) (by decide) rfl (by rfl)

/-! ## C21: an unused attribute of the form flag-present -/

/-- The attribute `switch` for an attribute that is none of its labels. -/
theorem readAttributeValue_unused (k : DwarfHeader) (retval : CompilationUnit) (attr type : Int)
    (debug_start : Int) (jump_table : List Nat) (current_addr : Int)
    (data_table : List symbol) (top_unit_pc : Int) (h : k.isUnusedAttribute attr) :
    attr ≠ k.DW_AT_APPLE_optimized
    ∧ readAttributeValue k retval attr type debug_start jump_table current_addr data_table
        top_unit_pc = .ok (retval, current_addr, true) := by
  simp only [DwarfHeader.isUnusedAttribute, List.mem_cons, List.mem_singleton, not_or,
    List.not_mem_nil, or_false] at h
  obtain ⟨h1, h2, h3, h4, h5, h6, h7⟩ := h
  refine ⟨h2, ?_⟩
  simp [readAttributeValue, h1, h3, h4, h5, h6, h7, pure, Except.pure]

theorem flag_present_not_block (k : DwarfHeader) (h : k.formLabelsDistinct) :
    k.isBlockForm k.DW_FORM_flag_present = false := by
  simp only [DwarfHeader.formLabelsDistinct, List.nodup_cons, List.mem_cons,
    List.mem_singleton, not_or] at h
  simp only [DwarfHeader.isBlockForm, Bool.or_eq_false_iff, beq_eq_false_iff_ne, ne_eq]
  refine ⟨⟨⟨⟨?_, ?_⟩, ?_⟩, ?_⟩, ?_⟩ <;> intro e <;> simp_all

theorem dwarf4_forms : dwarf4.formLabelsDistinct := by decide

/-- C21: for an attribute that is none of the labels of the attribute `switch`
(an unused attribute) with the form `DW_FORM_flag_present`, `ReadAttribute`
returns with the cursor where it was, with the symbol index it had before the
call (one back and one on), and with the entry as it was: no field is
changed.  It reads neither the buffer nor the symbol table. -/
theorem C21_flag_present (k : DwarfHeader) (retval : CompilationUnit) (attr : Int)
    (debug_start : Int) (jump_table : List Nat) (current_addr : Int)
    (data_table : List symbol) (dtable_ptr top_unit_pc : Int)
    (hforms : k.formLabelsDistinct) (hunused : k.isUnusedAttribute attr) :
    ReadAttribute k retval attr k.DW_FORM_flag_present debug_start jump_table current_addr
        data_table dtable_ptr top_unit_pc = .ok (retval, current_addr, dtable_ptr) := by
  obtain ⟨happle, hv⟩ := readAttributeValue_unused k retval attr k.DW_FORM_flag_present
    debug_start jump_table current_addr data_table top_unit_pc hunused
  have hb := flag_present_not_block k hforms
  have hd : dtable_ptr - 1 + 1 = dtable_ptr := by omega
  simp only [ReadAttribute, happle, and_false, if_false, hv, bind, Except.bind, pure,
    Except.pure, hb, Bool.false_eq_true, if_true, hd]

/-- Witness of C21: the attribute 0x3f (`DW_AT_external`) of the form
flag-present, on the entry of the end-to-end example, with an empty buffer
and an empty symbol table. -/
theorem C21_flag_present_witness :
    ReadAttribute dwarf4 (endToEndEntry 0 [102, 111, 111] [(0x1000, 0x1040)]) 0x3f
        dwarf4.DW_FORM_flag_present 0 [] 13 [] 3 0 =
      .ok (endToEndEntry 0 [102, 111, 111] [(0x1000, 0x1040)], 13, 3) :=
  C21_flag_present dwarf4 (endToEndEntry 0 [102, 111, 111] [(0x1000, 0x1040)]) 0x3f 0 [] 13 []
    3 0 (by decide) (by decide)

/-! ## C22: an unused attribute of a block form -/

theorem readVarSize_next (jump_table : List Nat) (a size v n : Int)
    (h : readVarSize jump_table a size = .ok (v, n)) :
    (size = 1 ∨ size = 2 ∨ size = 4) ∧ n = a + size := by
  unfold readVarSize at h
  split_ifs at h with h1 h2 h4
  · exact ⟨Or.inl h1, by rw [h1]; exact readByte_next jump_table a v n h⟩
  · exact ⟨Or.inr (Or.inl h2), by rw [h2]; exact readHalf_next jump_table a v n h⟩
  · exact ⟨Or.inr (Or.inr h4), by rw [h4]; exact readWord_next jump_table a v n h⟩

/-- C22: for an attribute that is none of the labels of the attribute `switch`
(an unused attribute) with a block form (exprloc, block, block1, block2,
block4), whose symbol s has the size w and whose length, read with that size
at the cursor, is L: w is 1, 2 or 4, and, with L and the sums below values of
an `int`, `ReadAttribute` returns with the cursor w + L bytes on (the length
and the L bytes behind it), with the symbol index L + 1 on (L, and the one of
every attribute), and with the entry as it was. -/
theorem C22_block_form (k : DwarfHeader) (retval : CompilationUnit) (attr type : Int)
    (debug_start : Int) (jump_table : List Nat) (current_addr : Int)
    (data_table : List symbol) (dtable_ptr top_unit_pc : Int) (s : symbol) (L next : Int)
    (hunused : k.isUnusedAttribute attr)
    (hblock : k.isBlockForm type = true)
    (hs : symbolAt data_table dtable_ptr = .ok s)
    (hL : readVarSize jump_table current_addr s.size = .ok (L, next))
    (hfitL : toInt32 L = L)
    (hfitc : toInt32 (current_addr + s.size + L) = current_addr + s.size + L)
    (hfitd : toInt32 (dtable_ptr + L) = dtable_ptr + L) :
    (s.size = 1 ∨ s.size = 2 ∨ s.size = 4)
    ∧ next = current_addr + s.size
    ∧ ReadAttribute k retval attr type debug_start jump_table current_addr
        data_table dtable_ptr top_unit_pc =
      .ok (retval, current_addr + s.size + L, dtable_ptr + L + 1) := by
  obtain ⟨happle, hv⟩ := readAttributeValue_unused k retval attr type
    debug_start jump_table current_addr data_table top_unit_pc hunused
  obtain ⟨hw, hn⟩ := readVarSize_next jump_table current_addr s.size L next hL
  refine ⟨hw, hn, ?_⟩
  subst hn
  simp only [ReadAttribute, happle, and_false, if_false, hv, bind, Except.bind, pure,
    Except.pure, hblock, if_true, hs, hL, hfitL, hfitc, hfitd]

/-- Witness of C22: the attribute 0x02 (`DW_AT_location`) of the form exprloc,
with a length of 3 in a 1-byte symbol: the cursor goes from 0 to 4, the symbol
index from 0 to 4. -/
theorem C22_block_form_witness :
    ((symbol.mk 0 1).size = 1 ∨ (symbol.mk 0 1).size = 2 ∨ (symbol.mk 0 1).size = 4)
    ∧ (1 : Int) = 0 + (symbol.mk 0 1).size
    ∧ ReadAttribute dwarf4 (endToEndEntry 0 [102, 111, 111] [(0x1000, 0x1040)]) 0x02
        dwarf4.DW_FORM_exprloc 0 blockTable 0 blockSymbols 0 0 =
      .ok (endToEndEntry 0 [102, 111, 111] [(0x1000, 0x1040)], 0 + (symbol.mk 0 1).size + 3,
        0 + 3 + 1) :=
  C22_block_form dwarf4 (endToEndEntry 0 [102, 111, 111] [(0x1000, 0x1040)]) 0x02
    dwarf4.DW_FORM_exprloc 0 blockTable 0 blockSymbols 0 0 ⟨0, 1⟩ 3 1
    (by decide) (by decide) (by decide) (by decide) (by decide) (by decide) (by decide)

/-! ## C23: the reference of `DW_AT_specification` and `DW_AT_abstract_origin` -/

theorem labels_reference (k : DwarfHeader) (h : k.attributeLabelsDistinct) (attr : Int)
    (hattr : attr = k.DW_AT_specification ∨ attr = k.DW_AT_abstract_origin) :
    attr ≠ k.DW_AT_name ∧ attr ≠ k.DW_AT_APPLE_optimized ∧ attr ≠ k.DW_AT_low_pc
      ∧ attr ≠ k.DW_AT_high_pc ∧ attr ≠ k.DW_AT_ranges := by
  simp only [DwarfHeader.attributeLabelsDistinct, List.nodup_cons, List.mem_cons,
    List.mem_singleton, not_or] at h
  rcases hattr with e | e <;> subst e <;> refine ⟨?_, ?_, ?_, ?_, ?_⟩ <;> intro e <;> simp_all

/-- The width of the read of `readVarType` for the forms of its three groups
of labels. -/
theorem readVarTypeWidth_cases (k : DwarfHeader) (h : k.varTypeLabelsDistinct) (type : Int) :
    (type = k.DW_FORM_addr ∨ type = k.DW_FORM_data4 ∨ type = k.DW_FORM_strp
        ∨ type = k.DW_FORM_ref_addr ∨ type = k.DW_FORM_ref4 → readVarTypeWidth k type = 4)
    ∧ (type = k.DW_FORM_data2 ∨ type = k.DW_FORM_ref2 → readVarTypeWidth k type = 2)
    ∧ (type = k.DW_FORM_data1 ∨ type = k.DW_FORM_ref1 → readVarTypeWidth k type = 1) := by
  simp only [DwarfHeader.varTypeLabelsDistinct, List.nodup_cons, List.mem_cons,
    List.mem_singleton, not_or] at h
  refine ⟨?_, ?_, ?_⟩
  · intro ht
    simp only [readVarTypeWidth, ht, if_true]
  · intro ht
    have hw : ¬ (type = k.DW_FORM_addr ∨ type = k.DW_FORM_data4 ∨ type = k.DW_FORM_strp
        ∨ type = k.DW_FORM_ref_addr ∨ type = k.DW_FORM_ref4) := by
      rcases ht with e | e <;> subst e <;> rintro (x | x | x | x | x) <;> simp_all
    simp only [readVarTypeWidth, hw, ht, if_true, if_false]
  · intro ht
    have hw : ¬ (type = k.DW_FORM_addr ∨ type = k.DW_FORM_data4 ∨ type = k.DW_FORM_strp
        ∨ type = k.DW_FORM_ref_addr ∨ type = k.DW_FORM_ref4) := by
      rcases ht with e | e <;> subst e <;> rintro (x | x | x | x | x) <;> simp_all
    have hh : ¬ (type = k.DW_FORM_data2 ∨ type = k.DW_FORM_ref2) := by
      rcases ht with e | e <;> subst e <;> rintro (x | x) <;> simp_all
    simp only [readVarTypeWidth, hw, hh, ht, if_true, if_false]

theorem readVarType_unhandled (k : DwarfHeader) (jump_table : List Nat) (a type : Int)
    (h : ¬ k.isVarTypeForm type) :
    readVarType k jump_table a type = .error .exitUnhandledForm := by
  simp only [DwarfHeader.isVarTypeForm, List.mem_cons, List.mem_singleton, not_or,
    List.not_mem_nil, or_false] at h
  obtain ⟨h1, h2, h3, h4, h5, h6, h7, h8, h9⟩ := h
  simp [readVarType, h1, h2, h3, h4, h5, h6, h7, h8, h9]

theorem dwarf4_varTypes : dwarf4.varTypeLabelsDistinct := by decide

theorem byteAt_of_getElem (jump_table : List Nat) (x : Nat) (h : x < jump_table.length) :
    jump_table[x] % 256 = byteAt jump_table x := by
  have hg : jump_table[x]? = some jump_table[x] := List.getElem?_eq_getElem h
  simp [byteAt, List.getD, hg]

/-- `readVarSize` with a size of 1, 2 or 4 inside the buffer reads that many
bytes, the least significant first. -/
theorem readVarSize_value (jump_table : List Nat) (a size : Int)
    (hsize : size = 1 ∨ size = 2 ∨ size = 4) (h0 : 0 ≤ a)
    (hin : a + size ≤ jump_table.length) :
    readVarSize jump_table a size =
      .ok (((littleEndian jump_table a.toNat size.toNat : Nat) : Int), a + size) := by
  rcases hsize with rfl | rfl | rfl
  · have hlt0 : a.toNat < jump_table.length := by omega
    have e : (1 : Int).toNat = 1 := rfl
    simp only [readVarSize, if_true, readByte, h0, List.getElem?_eq_getElem hlt0, e,
      littleEndian, byteAt_of_getElem jump_table _ hlt0, Nat.mul_zero, Nat.add_zero]
  · have hlt0 : a.toNat < jump_table.length := by omega
    have hlt1 : a.toNat + 1 < jump_table.length := by omega
    have e : (2 : Int).toNat = 2 := rfl
    have h21 : ¬ ((2 : Int) = 1) := by decide
    simp only [readVarSize, h21, if_false, if_true, readHalf, h0,
      List.getElem?_eq_getElem hlt0, List.getElem?_eq_getElem hlt1, e, littleEndian,
      byteAt_of_getElem jump_table _ hlt0, byteAt_of_getElem jump_table _ hlt1,
      Nat.mul_zero, Nat.add_zero]
  · have hlt0 : a.toNat < jump_table.length := by omega
    have hlt1 : a.toNat + 1 < jump_table.length := by omega
    have hlt2 : a.toNat + 2 < jump_table.length := by omega
    have hlt3 : a.toNat + 3 < jump_table.length := by omega
    have e : (4 : Int).toNat = 4 := rfl
    have h41 : ¬ ((4 : Int) = 1) := by decide
    have h42 : ¬ ((4 : Int) = 2) := by decide
    have e2 : a.toNat + 1 + 1 = a.toNat + 2 := rfl
    have e3 : a.toNat + 2 + 1 = a.toNat + 3 := rfl
    simp only [readVarSize, h41, h42, if_false, if_true, readWord, h0,
      List.getElem?_eq_getElem hlt0, List.getElem?_eq_getElem hlt1,
      List.getElem?_eq_getElem hlt2, List.getElem?_eq_getElem hlt3, e, littleEndian, e2, e3,
      byteAt_of_getElem jump_table _ hlt0, byteAt_of_getElem jump_table _ hlt1,
      byteAt_of_getElem jump_table _ hlt2, byteAt_of_getElem jump_table _ hlt3,
      Nat.mul_zero, Nat.add_zero, Except.ok.injEq, Prod.mk.injEq, and_true]
    push_cast
    ring

/-- `readRangeBound` reads the bound of the symbol `j` with the size of that
symbol: its result is `specBound`. -/
theorem readRangeBound_spec (jump_table : List Nat) (data_table : List symbol) (j : Nat)
    (s : symbol) (hs : data_table[j]? = some s)
    (hsize : s.size = 1 ∨ s.size = 2 ∨ s.size = 4) (h0 : 0 ≤ s.address)
    (hin : s.address + s.size ≤ jump_table.length) :
    readRangeBound jump_table data_table (j : Int) = .ok (specBound jump_table data_table j) := by
  have hj : (0 : Int) ≤ (j : Int) := Int.ofNat_nonneg j
  simp only [readRangeBound, symbolAt, hj, if_true, Int.toNat_ofNat, hs, bind, Except.bind,
    readVarSize_value jump_table s.address s.size hsize h0 hin, pure, Except.pure, specBound]

/-- C5: let the word of a `DW_AT_ranges` attribute be the address of the symbol
with index kk (the first symbol with that address), let the symbols kk to
kk + 2n + 1 have a size of 1, 2 or 4 and lie within the buffer, and let the
pair number n, counted from kk, be the first pair of symbols whose two values
are both zero, where the value of a symbol is that of the bytes at its
address, as many as its own size declares (`specBound`).  Then each bound is
read as that value, `ReadAttribute` returns, and it has appended to the ranges
of the entry exactly the n pairs before the terminator, in order, each as
(low + top_unit_pc, high + top_unit_pc) in `int` arithmetic; the loop itself
ends there for any fuel above n. -/
theorem C5_range_list (k : DwarfHeader) (retval : CompilationUnit) (type : Int)
    (debug_start : Int) (jump_table : List Nat) (current_addr : Int)
    (data_table : List symbol) (dtable_ptr top_unit_pc : Int)
    (w next : Int) (kk n : Nat)
    (hk : k.attributeLabelsDistinct)
    (hlen : data_table.length < 2147483648)
    (hform : k.isBlockForm type = false) (hflag : type ≠ k.DW_FORM_flag_present)
    (hw : readWord jump_table current_addr = .ok (w, next))
    (hkk : data_table.findIdx (fun s => s.address == toInt32 w) = kk)
    (hin : kk + 2 * n + 1 < data_table.length)
    (hsym : ∀ j, kk ≤ j → j ≤ kk + 2 * n + 1 →
      ∃ s, data_table[j]? = some s ∧ (s.size = 1 ∨ s.size = 2 ∨ s.size = 4)
        ∧ 0 ≤ s.address ∧ s.address + s.size ≤ jump_table.length)
    (hbefore : ∀ m, m < n → ¬ (specBound jump_table data_table (kk + 2 * m) = 0
      ∧ specBound jump_table data_table (kk + 2 * m + 1) = 0))
    (hz0 : specBound jump_table data_table (kk + 2 * n) = 0)
    (hz1 : specBound jump_table data_table (kk + 2 * n + 1) = 0) :
    ReadAttribute k retval k.DW_AT_ranges type debug_start jump_table current_addr
        data_table dtable_ptr top_unit_pc =
      .ok ({ retval with ranges := (retval.ranges ++ (List.range n).map
              (fun m => (toInt32 (specBound jump_table data_table (kk + 2 * m) + top_unit_pc),
                toInt32 (specBound jump_table data_table (kk + 2 * m + 1) + top_unit_pc)))) },
           next, dtable_ptr + 1)
    ∧ (∀ j : Nat, kk ≤ j → j ≤ kk + 2 * n + 1 →
        readRangeBound jump_table data_table (j : Int) =
          .ok (specBound jump_table data_table j))
    ∧ ∀ fuel, n < fuel →
        readRangePairs jump_table data_table top_unit_pc fuel (kk : Int) retval.ranges =
          .ok (retval.ranges ++ (List.range n).map
              (fun m => (toInt32 (specBound jump_table data_table (kk + 2 * m) + top_unit_pc),
                toInt32 (specBound jump_table data_table (kk + 2 * m + 1) + top_unit_pc)))) := by
  obtain ⟨h1, h2, h3, h4⟩ := labels_ranges k hk
  have hval : ∀ j, kk ≤ j → j ≤ kk + 2 * n + 1 →
      readRangeBound jump_table data_table (j : Int) =
        .ok (specBound jump_table data_table j) := by
    intro j hj1 hj2
    obtain ⟨s, hs, hsize, h0, hins⟩ := hsym j hj1 hj2
    exact readRangeBound_spec jump_table data_table j s hs hsize h0 hins
  have hloop := fun fuel (hf : n < fuel) =>
    readRangePairs_terminator jump_table data_table top_unit_pc
      (specBound jump_table data_table) hlen n fuel kk retval.ranges hf hin hval hbefore hz0 hz1
  refine ⟨?_, hval, hloop⟩
  have hfound : kk < data_table.length := by omega
  have hne : ¬ ((kk : Int) = -1) := by omega
  simp only [ReadAttribute, readAttributeValue, h1, h2, h3, h4, and_false, if_false, hw, bind,
    Except.bind, pure, Except.pure, hkk, hfound, if_true, hne,
    hloop (data_table.length + 1) (by omega), hform, hflag]
  rfl

/-- Witness of C5: a list of one pair, (0x10, 0x0120), read with the sizes 1
and 2, a terminator read with the sizes 4 and 1, and the base 0x1000.  The
entry that the code returns has the one range (0x1010, 0x1120); the pair
behind the terminator is not appended. -/
theorem C5_range_list_witness :
    (ReadAttribute dwarf4 (endToEndEntry 0 [] []) dwarf4.DW_AT_ranges dwarf4.DW_FORM_data4 0
        rangeListTable 0 rangeListSymbols 0 0x1000 =
      .ok ({ endToEndEntry 0 [] [] with ranges := ((endToEndEntry 0 [] []).ranges ++
              (List.range 1).map
                (fun m =>
                  (toInt32 (specBound rangeListTable rangeListSymbols (1 + 2 * m) + 0x1000),
                   toInt32 (specBound rangeListTable rangeListSymbols (1 + 2 * m + 1)
                     + 0x1000)))) },
           4, 0 + 1)
    ∧ (∀ j : Nat, 1 ≤ j → j ≤ 1 + 2 * 1 + 1 →
        readRangeBound rangeListTable rangeListSymbols (j : Int) =
          .ok (specBound rangeListTable rangeListSymbols j))
    ∧ ∀ fuel, 1 < fuel →
        readRangePairs rangeListTable rangeListSymbols 0x1000 fuel ((1 : Nat) : Int)
            (endToEndEntry 0 [] []).ranges =
          .ok ((endToEndEntry 0 [] []).ranges ++ (List.range 1).map
              (fun m =>
                (toInt32 (specBound rangeListTable rangeListSymbols (1 + 2 * m) + 0x1000),
                 toInt32 (specBound rangeListTable rangeListSymbols (1 + 2 * m + 1)
                   + 0x1000)))))
    ∧ ReadAttribute dwarf4 (endToEndEntry 0 [] []) dwarf4.DW_AT_ranges dwarf4.DW_FORM_data4 0
        rangeListTable 0 rangeListSymbols 0 0x1000 =
      .ok (endToEndEntry 0 [] [(0x1010, 0x1120)], 4, 1) :=
  ⟨C5_range_list dwarf4 (endToEndEntry 0 [] []) dwarf4.DW_FORM_data4 0 rangeListTable 0
    rangeListSymbols 0 0x1000 4 4 1 1 dwarf4_labels (by decide) rfl
    (by decide) rfl rfl (by decide)
    (fun j h1 h2 => by
      have h3 : j = 1 ∨ j = 2 ∨ j = 3 ∨ j = 4 := by omega
      rcases h3 with rfl | rfl | rfl | rfl
      · exact ⟨⟨4, 1⟩, rfl, by decide, by decide, by decide⟩
      · exact ⟨⟨5, 2⟩, rfl, by decide, by decide, by decide⟩
      · exact ⟨⟨7, 4⟩, rfl, by decide, by decide, by decide⟩
      · exact ⟨⟨11, 1⟩, rfl, by decide, by decide, by decide⟩)
    (fun m hm => by
      have h0 : m = 0 := by omega
      subst h0
      decide)
    (by decide) (by decide), rfl⟩

/-! ## C4: the bounds of the ranges of an entry -/

/-- The tree of the example of a unit with a function, a label and a block. -/
theorem unitTree_parsed :
    FindAbbrevCodes unitTable 33 86 [] = .ok unitCodes
    ∧ ReadCompilationUnit dwarf4 unitCodes unitSymbols unitTable 86 0 33 0 8 0 0 =
        .ok (unitTree, 33)
    ∧ baseAt dwarf4 unitTree 0 [2] = 0x1000 :=
  ⟨by decide, rfl, rfl⟩

/-- The attribute loop reads the list of the abbreviation and calls
`ReadAttribute` for each of its pairs, in order. -/
theorem readAttributes_split (k : DwarfHeader) (debug_start : Int) (jump_table : List Nat)
    (data_table : List symbol) (top_unit_pc : Int) :
    ∀ (fuel : Nat) (abbrev_addr : Int) (retval : CompilationUnit) (current_addr dtable_ptr : Int)
      (r : CompilationUnit) (a : Int),
      readAttributes k debug_start jump_table data_table top_unit_pc fuel abbrev_addr retval
        current_addr dtable_ptr = .ok (r, a) →
      ∃ L, abbrevAttributes k jump_table fuel abbrev_addr = .ok L
        ∧ decodeAttributes k debug_start jump_table data_table top_unit_pc L retval
            current_addr dtable_ptr = .ok (r, a) := by
  intro fuel
  induction fuel with
  | zero =>
    intro abbrev_addr retval current_addr dtable_ptr r a h
    simp [readAttributes] at h
  | succ fuel ih =>
    intro abbrev_addr retval current_addr dtable_ptr r a h
    rw [readAttributes] at h
    rw [abbrevAttributes]
    simp only [bind, Except.bind, pure, Except.pure] at h ⊢
    cases h1 : readByte jump_table abbrev_addr with
    | error e => simp [h1] at h
    | ok v1 =>
      obtain ⟨attr, a1⟩ := v1
      simp only [h1] at h ⊢
      by_cases hc : attr = k.DW_AT_MIPS_linkage_name ∨ attr = k.DW_AT_APPLE_optimized
      · simp only [hc, if_true] at h ⊢
        cases h2 : readByte jump_table a1 with
        | error e => simp [h2] at h
        | ok v2 =>
          obtain ⟨x2, a2⟩ := v2
          simp only [h2] at h ⊢
          cases h3 : readByte jump_table a2 with
          | error e => simp [h3] at h
          | ok v3 =>
            obtain ⟨type, a3⟩ := v3
            simp only [h3] at h ⊢
            by_cases hend : attr = 0 ∧ type = 0
            · rw [if_pos hend] at h ⊢
              exact ⟨[], rfl, by simpa [decodeAttributes, pure, Except.pure] using h⟩
            · rw [if_neg hend] at h ⊢
              cases h4 : ReadAttribute k retval attr type debug_start jump_table current_addr
                  data_table dtable_ptr top_unit_pc with
              | error e => simp [h4] at h
              | ok v4 =>
                obtain ⟨r4, c4, d4⟩ := v4
                simp only [h4] at h
                obtain ⟨L, hL, hd⟩ := ih a3 r4 c4 d4 r a h
                refine ⟨(attr, type) :: L, by simp only [hL], ?_⟩
                simp only [decodeAttributes, h4, bind, Except.bind]
                exact hd
      · simp only [hc, if_false] at h ⊢
        cases h3 : readByte jump_table a1 with
        | error e => simp [h3] at h
        | ok v3 =>
          obtain ⟨type, a3⟩ := v3
          simp only [h3] at h ⊢
          by_cases hend : attr = 0 ∧ type = 0
          · rw [if_pos hend] at h ⊢
            exact ⟨[], rfl, by simpa [decodeAttributes, pure, Except.pure] using h⟩
          · rw [if_neg hend] at h ⊢
            cases h4 : ReadAttribute k retval attr type debug_start jump_table current_addr
                data_table dtable_ptr top_unit_pc with
            | error e => simp [h4] at h
            | ok v4 =>
              obtain ⟨r4, c4, d4⟩ := v4
              simp only [h4] at h
              obtain ⟨L, hL, hd⟩ := ih a3 r4 c4 d4 r a h
              refine ⟨(attr, type) :: L, by simp only [hL], ?_⟩
              simp only [decodeAttributes, h4, bind, Except.bind]
              exact hd

/-- The loop of `DW_AT_ranges` appends to the ranges it is given. -/
theorem readRangePairs_appends (jump_table : List Nat) (data_table : List symbol)
    (top_unit_pc : Int) :
    ∀ (fuel : Nat) (rangePtr : Int) (ranges out : List (Int × Int)),
      readRangePairs jump_table data_table top_unit_pc fuel rangePtr ranges = .ok out →
      ∃ new, out = ranges ++ new := by
  intro fuel
  induction fuel with
  | zero =>
    intro rangePtr ranges out h
    simp [readRangePairs] at h
  | succ fuel ih =>
    intro rangePtr ranges out h
    rw [readRangePairs] at h
    split at h
    · simp at h
    · simp only [bind, Except.bind, pure, Except.pure, add_zero] at h
      cases h1 : readRangeBound jump_table data_table rangePtr with
      | error e => simp [h1] at h
      | ok low =>
        simp only [h1] at h
        cases h2 : readRangeBound jump_table data_table (rangePtr + 1) with
        | error e => simp [h2] at h
        | ok high =>
          simp only [h2] at h
          split at h
          · simp only [Except.ok.injEq] at h
            exact ⟨[], by simp [h]⟩
          · obtain ⟨new, hnew⟩ := ih _ _ out h
            exact ⟨_ :: new, by simpa using hnew⟩

/-- `ReadAttribute` for `DW_AT_ranges` appends to the ranges of the entry. -/
theorem ReadAttribute_ranges_appends (k : DwarfHeader) (retval : CompilationUnit) (type : Int)
    (debug_start : Int) (jump_table : List Nat) (current_addr : Int)
    (data_table : List symbol) (dtable_ptr top_unit_pc : Int)
    (r : CompilationUnit) (a d : Int) (hk : k.attributeLabelsDistinct)
    (hres : ReadAttribute k retval k.DW_AT_ranges type debug_start jump_table current_addr
      data_table dtable_ptr top_unit_pc = .ok (r, a, d)) :
    ∃ new, r.ranges = retval.ranges ++ new := by
  obtain ⟨h1, h2, h3, h4⟩ := labels_ranges k hk
  rcases ReadAttribute_value k retval k.DW_AT_ranges type debug_start jump_table current_addr
    data_table dtable_ptr top_unit_pc r a d hres with ⟨⟨_, h⟩, _⟩ | ⟨a1, u, hv⟩
  · exact absurd h h2
  · simp only [readAttributeValue, h1, h3, h4, if_false, if_true] at hv
    cases hw : readWord jump_table current_addr with
    | error e => simp [hw, bind, Except.bind] at hv
    | ok v =>
      simp only [hw, bind, Except.bind, pure, Except.pure] at hv
      generalize (if List.findIdx (fun s => s.address == toInt32 v.1) data_table
          < data_table.length
        then ((List.findIdx (fun s => s.address == toInt32 v.1) data_table : Nat) : Int)
        else toInt32 v.1) = ptr at hv
      by_cases hm : ptr = -1
      · rw [if_pos hm] at hv
        simp at hv
      · rw [if_neg hm] at hv
        generalize hx : readRangePairs jump_table data_table top_unit_pc
          (data_table.length + 1) ptr retval.ranges = x at hv
        cases x with
        | error e => simp at hv
        | ok out =>
          simp only [Except.ok.injEq, Prod.mk.injEq] at hv
          obtain ⟨new, hnew⟩ := readRangePairs_appends jump_table data_table top_unit_pc _ _ _
            out hx
          exact ⟨new, by rw [← hv.1]; exact hnew⟩

/-- The ranges of the entry before the attributes that are left of a paired
list: all closed, or, with a `DW_AT_low_pc` pending, all closed but the last,
which is open. -/
theorem decodeAttributes_closed (k : DwarfHeader) (debug_start : Int) (jump_table : List Nat)
    (data_table : List symbol) (top_unit_pc : Int) (hk : k.attributeLabelsDistinct) :
    ∀ (L : List (Int × Int)) (retval : CompilationUnit) (current_addr dtable_ptr : Int)
      (r : CompilationUnit) (a : Int) (pending : Bool),
      decodeAttributes k debug_start jump_table data_table top_unit_pc L retval
        current_addr dtable_ptr = .ok (r, a) →
      boundsPaired k pending L = true →
      highBoundsSet k debug_start jump_table data_table top_unit_pc L retval
        current_addr dtable_ptr = true →
      (pending = false → rangesClosed retval.ranges) →
      (pending = true → ∃ earlier low, retval.ranges = earlier ++ [(low, -1)]
        ∧ rangesClosed earlier) →
      rangesClosed r.ranges := by
  obtain ⟨_, _, hhl⟩ := labels_high_pc k hk
  obtain ⟨_, _, hrl, hrh⟩ := labels_ranges k hk
  intro L
  induction L with
  | nil =>
    intro retval current_addr dtable_ptr r a pending h hp _ hclosed _
    simp only [decodeAttributes, pure, Except.pure, Except.ok.injEq, Prod.mk.injEq] at h
    rw [← h.1]
    cases pending with
    | false => exact hclosed rfl
    | true => simp [boundsPaired] at hp
  | cons x L ih =>
    obtain ⟨attr, type⟩ := x
    intro retval current_addr dtable_ptr r a pending h hp hvals hclosed hopen
    simp only [decodeAttributes, bind, Except.bind] at h
    cases h4 : ReadAttribute k retval attr type debug_start jump_table current_addr
        data_table dtable_ptr top_unit_pc with
    | error e => simp [h4] at h
    | ok v4 =>
      obtain ⟨r4, c4, d4⟩ := v4
      simp only [h4] at h
      simp only [highBoundsSet, h4, Bool.and_eq_true] at hvals
      obtain ⟨hlast, hvals⟩ := hvals
      obtain ⟨wlow, whigh, wother, _⟩ := ReadAttribute_range_writes k retval attr type
        debug_start jump_table current_addr data_table dtable_ptr top_unit_pc r4 c4 d4 hk h4
      by_cases c1 : attr = k.DW_AT_low_pc
      · simp only [boundsPaired, c1, if_true, Bool.and_eq_true, Bool.not_eq_true'] at hp
        obtain ⟨v, hv⟩ := wlow c1
        exact ih r4 c4 d4 r a true h hp.2 hvals (fun e => by simp at e)
          (fun _ => ⟨retval.ranges, v, hv, hclosed hp.1⟩)
      · by_cases c2 : attr = k.DW_AT_high_pc
        · subst c2
          simp only [boundsPaired, hhl, if_false, if_true, Bool.and_eq_true] at hp
          obtain ⟨earlier, low, hr, hcl⟩ := hopen hp.1
          obtain ⟨earlier2, low2, hi, _, hr2, hr4⟩ := whigh rfl
          have hinj := List.append_inj' (hr.symm.trans hr2) rfl
          have he : earlier2 = earlier := hinj.1.symm
          subst he
          have hg : r4.ranges.getLast? = some (low2, hi) := by
            rw [hr4]
            simp
          have hhi : hi ≠ -1 := by
            simp only [if_true, hg, decide_eq_true_eq] at hlast
            exact hlast
          refine ih r4 c4 d4 r a false h hp.2 hvals (fun _ => ?_) (fun e => by simp at e)
          intro p hp4
          rw [hr4] at hp4
          rcases List.mem_append.mp hp4 with hm | hm
          · exact hcl p hm
          · simp only [List.mem_singleton] at hm
            rw [hm]
            exact hhi
        · by_cases c3 : attr = k.DW_AT_ranges
          · subst c3
            simp only [boundsPaired, hrl, hrh, if_false, if_true, Bool.and_eq_true,
              Bool.not_eq_true'] at hp
            obtain ⟨new, hnew⟩ := ReadAttribute_ranges_appends k retval type debug_start
              jump_table current_addr data_table dtable_ptr top_unit_pc r4 c4 d4 hk h4
            have hdrop : r4.ranges.drop retval.ranges.length = new := by
              rw [hnew]
              simp
            simp only [hrh, if_false, if_true, hdrop, List.all_eq_true,
              decide_eq_true_eq] at hlast
            refine ih r4 c4 d4 r a false h hp.2 hvals (fun _ => ?_) (fun e => by simp at e)
            intro p hp4
            rw [hnew] at hp4
            rcases List.mem_append.mp hp4 with hm | hm
            · exact hclosed hp.1 p hm
            · exact hlast p hm
          · simp only [boundsPaired, c1, c2, c3, if_false] at hp
            have hsame := wother c1 c2 c3
            exact ih r4 c4 d4 r a pending h hp hvals
              (fun e => by rw [hsame]; exact hclosed e)
              (fun e => by rw [hsame]; exact hopen e)

/-- The last range of the entry is open when the last of the attributes
`DW_AT_low_pc`, `DW_AT_high_pc` and `DW_AT_ranges` of the list is a
`DW_AT_low_pc`. -/
theorem decodeAttributes_open (k : DwarfHeader) (debug_start : Int) (jump_table : List Nat)
    (data_table : List symbol) (top_unit_pc : Int) (hk : k.attributeLabelsDistinct) :
    ∀ (L : List (Int × Int)) (retval : CompilationUnit) (current_addr dtable_ptr : Int)
      (r : CompilationUnit) (a : Int) (last : Bool),
      decodeAttributes k debug_start jump_table data_table top_unit_pc L retval
        current_addr dtable_ptr = .ok (r, a) →
      endsWithLow k last L = true →
      (last = true → ∃ earlier low, retval.ranges = earlier ++ [(low, -1)]) →
      ∃ earlier low, r.ranges = earlier ++ [(low, -1)] := by
  intro L
  induction L with
  | nil =>
    intro retval current_addr dtable_ptr r a last h he hopen
    simp only [decodeAttributes, pure, Except.pure, Except.ok.injEq, Prod.mk.injEq] at h
    rw [← h.1]
    exact hopen (by simpa [endsWithLow] using he)
  | cons x L ih =>
    obtain ⟨attr, type⟩ := x
    intro retval current_addr dtable_ptr r a last h he hopen
    simp only [decodeAttributes, bind, Except.bind] at h
    cases h4 : ReadAttribute k retval attr type debug_start jump_table current_addr
        data_table dtable_ptr top_unit_pc with
    | error e => simp [h4] at h
    | ok v4 =>
      obtain ⟨r4, c4, d4⟩ := v4
      simp only [h4] at h
      obtain ⟨wlow, _, wother, _⟩ := ReadAttribute_range_writes k retval attr type
        debug_start jump_table current_addr data_table dtable_ptr top_unit_pc r4 c4 d4 hk h4
      by_cases c1 : attr = k.DW_AT_low_pc
      · simp only [endsWithLow, c1, if_true] at he
        obtain ⟨v, hv⟩ := wlow c1
        exact ih r4 c4 d4 r a true h he (fun _ => ⟨retval.ranges, v, hv⟩)
      · by_cases c23 : attr = k.DW_AT_high_pc ∨ attr = k.DW_AT_ranges
        · simp only [endsWithLow, c1, c23, if_false, if_true] at he
          exact ih r4 c4 d4 r a false h he (fun e => by simp at e)
        · simp only [endsWithLow, c1, c23, if_false] at he
          have hsame := wother c1 (fun e => c23 (Or.inl e)) (fun e => c23 (Or.inr e))
          exact ih r4 c4 d4 r a last h he (fun e => by rw [hsame]; exact hopen e)

/-- An entry with a code other than 0 that `ReadCompilationUnit` returns has
the ranges that the attribute loop leaves, run from behind the three leading
bytes of its abbreviation, on the new entry with its tag, at the cursor behind
the code byte, with the symbol of that cursor. -/
theorem ReadCompilationUnit_attributes (k : DwarfHeader) (abbrevCodes : List AbbreviationCode)
    (data_table : List symbol) (jump_table : List Nat) (jtable_size : Int)
    (debug_start abbrev_start top_unit_start : Int) (fuel : Nat) (a pc : Int)
    (P : CompilationUnit) (n : Int)
    (h : ReadCompilationUnit k abbrevCodes data_table jump_table jtable_size debug_start
      abbrev_start top_unit_start fuel a pc = .ok (P, n))
    (hcode : P.abbrevCode ≠ 0) :
    ∃ r c, readAttributes k debug_start jump_table data_table pc (jump_table.length + 1)
        (entryAbbrevAddr abbrevCodes P.abbrevCode + 3)
        { newEntry k a top_unit_start P.abbrevCode with tag := P.tag } (a + 1)
        ((data_table.findIdx (fun s => a + 1 == s.address) : Nat) : Int) = .ok (r, c)
      ∧ r.ranges = P.ranges := by
  cases fuel with
  | zero => simp [ReadCompilationUnit] at h
  | succ fuel =>
    rw [ReadCompilationUnit] at h
    split at h
    · simp at h
    · simp only [bind, Except.bind, pure, Except.pure] at h
      cases h1 : readByte jump_table a with
      | error e => simp [h1] at h
      | ok v1 =>
        obtain ⟨code, c1⟩ := v1
        have hc1 := readByte_next jump_table a code c1 h1
        simp only [h1] at h
        split at h
        · rename_i hz
          simp only [Except.ok.injEq, Prod.mk.injEq] at h
          obtain ⟨hP, hn⟩ := h
          subst hP
          exact absurd hz hcode
        · split at h
          · simp at h
          · split at h
            · simp at h
            · split at h
              · simp at h
              · rename_i v2 h2
                split at h
                · simp at h
                · rename_i v3 h3
                  split at h
                  · simp at h
                  · rename_i v4 h4
                    split at h
                    · simp at h
                    · rename_i v5 h5
                      obtain ⟨r5, c5⟩ := v5
                      have hf := readAttributes_frame k debug_start jump_table data_table pc _ _ _
                        _ _ r5 c5 h5
                      simp only [entryShell, Prod.mk.injEq] at hf
                      obtain ⟨_, _, f3, f4, _⟩ := hf
                      have hX : readByte jump_table (entryAbbrevAddr abbrevCodes code) =
                          .ok (v2.1, v2.2) := h2
                      have n2 := readByte_next jump_table _ v2.1 v2.2 hX
                      have n3 := readByte_next jump_table v2.2 v3.1 v3.2 h3
                      have n4 := readByte_next jump_table v3.2 v4.1 v4.2 h4
                      have a4eq : v4.2 = entryAbbrevAddr abbrevCodes code + 3 := by omega
                      have key : readAttributes k debug_start jump_table data_table pc
                          (jump_table.length + 1) (entryAbbrevAddr abbrevCodes code + 3)
                          { newEntry k a top_unit_start code with tag := v3.1 } (a + 1)
                          ((data_table.findIdx (fun s => a + 1 == s.address) : Nat) : Int) =
                          .ok (r5, c5) := by
                        rw [← a4eq, ← hc1]
                        exact h5
                      by_cases hz : v4.1 ≠ 0
                      · rw [if_pos hz] at h
                        simp only at h
                        generalize readChildren k abbrevCodes data_table jump_table
                          jtable_size debug_start abbrev_start top_unit_start fuel c5 _ r5 [] = x
                          at h
                        cases x with
                        | error e => simp at h
                        | ok v6 =>
                          obtain ⟨children, c6⟩ := v6
                          simp only [Except.ok.injEq, Prod.mk.injEq] at h
                          obtain ⟨hP, hn⟩ := h
                          have e1 : P.abbrevCode = code := by rw [← hP]; exact f3
                          have e2 : P.tag = v3.1 := by rw [← hP]; exact f4
                          have e3 : r5.ranges = P.ranges := by rw [← hP]
                          rw [e1, e2]
                          exact ⟨r5, c5, key, e3⟩
                      · rw [if_neg hz] at h
                        simp only [Except.ok.injEq, Prod.mk.injEq] at h
                        obtain ⟨hP, hn⟩ := h
                        have e1 : P.abbrevCode = code := by rw [← hP]; exact f3
                        have e2 : P.tag = v3.1 := by rw [← hP]; exact f4
                        have e3 : r5.ranges = P.ranges := by rw [← hP]
                        rw [e1, e2]
                        exact ⟨r5, c5, key, e3⟩

/-- The children of an entry are read with the base that the entry leaves:
the low bound of the one range of a compile unit, zero for a compile unit with
another number of ranges, and the base of the entry itself otherwise. -/
theorem children_base (k : DwarfHeader) (abbrevCodes : List AbbreviationCode)
    (data_table : List symbol) (jump_table : List Nat) (jtable_size : Int)
    (debug_start abbrev_start top_unit_start : Int) (fuel : Nat) (a pc : Int)
    (P : CompilationUnit) (n : Int)
    (h : ReadCompilationUnit k abbrevCodes data_table jump_table jtable_size debug_start
      abbrev_start top_unit_start fuel a pc = .ok (P, n)) :
    ∀ C ∈ P.children,
      ∃ (fuel1 : Nat) (C0 : CompilationUnit) (n1 : Int), fuel1 < fuel
        ∧ ReadCompilationUnit k abbrevCodes data_table jump_table jtable_size debug_start
            abbrev_start top_unit_start fuel1 C.addr (childBase k P pc) = .ok (C0, n1)
        ∧ C = qualifyChild k P C0 := by
  intro C hC
  obtain ⟨_, _, hcase, _⟩ := ReadCompilationUnit_cases k abbrevCodes data_table jump_table
    jtable_size debug_start abbrev_start top_unit_start fuel a pc P n h
  rcases hcase with ⟨hP, _⟩ | ⟨_, fuel0, hfuel, hch⟩
  · rw [hP] at hC
    exact absurd hC (List.not_mem_nil C)
  · rcases hch with hnil | ⟨retval, c, pc1, ht, hn, hrc, hrg, hpc⟩
    · rw [hnil] at hC
      exact absurd hC (List.not_mem_nil C)
    · obtain ⟨new, hL, hnew⟩ := readChildren_spec k abbrevCodes data_table jump_table
        jtable_size debug_start abbrev_start top_unit_start fuel0 c pc1 retval [] P.children n hrc
      rw [List.nil_append] at hL
      rw [hL] at hC
      obtain ⟨_, fuel1, c1, C0, n1, hlt, hr, hq⟩ := hnew C hC
      obtain ⟨haddr, _, _⟩ := ReadCompilationUnit_cases k abbrevCodes data_table jump_table
        jtable_size debug_start abbrev_start top_unit_start fuel1 c1 pc1 C0 n1 hr
      have hCaddr : C.addr = c1 := by
        rw [hq, ← haddr]
        exact congrArg (fun t => t.1) (qualifyChild_shell k retval C0).1
      have hbase : childBase k P pc = pc1 := by
        rw [hpc]
        simp only [childBase, ht, hrg]
      refine ⟨fuel1, C0, n1, by omega, ?_, ?_⟩
      · rw [hCaddr, hbase]
        exact hr
      · rw [hq]
        exact qualifyChild_congr k retval P C0 ht hn

/-- The base below a child depends on the tag, the ranges and the children of
the entry only. -/
theorem baseAt_cons_congr (k : DwarfHeader) (C C0 : CompilationUnit) (pc : Int) (j : Nat)
    (rest : UnitPtr) (hch : C.children = C0.children) (ht : C.tag = C0.tag)
    (hr : C.ranges = C0.ranges) :
    baseAt k C pc (j :: rest) = baseAt k C0 pc (j :: rest) := by
  simp only [baseAt, childBase, hch, ht, hr]

/-- Every unit of the tree that `ReadCompilationUnit` returns is an entry that
a call of `ReadCompilationUnit` has returned, at its address and with the base
that the entries above it leave, but for its name and the names below it. -/
theorem tree_entry_parsed (k : DwarfHeader) (abbrevCodes : List AbbreviationCode)
    (data_table : List symbol) (jump_table : List Nat) (jtable_size : Int)
    (debug_start abbrev_start top_unit_start : Int) :
    ∀ (fuel : Nat) (a pc : Int) (P : CompilationUnit) (n : Int),
      ReadCompilationUnit k abbrevCodes data_table jump_table jtable_size debug_start
        abbrev_start top_unit_start fuel a pc = .ok (P, n) →
      ∀ (path : UnitPtr) (v : CompilationUnit), unitAt P path = some v →
        ∃ (fuel1 : Nat) (v0 : CompilationUnit) (n1 : Int),
          ReadCompilationUnit k abbrevCodes data_table jump_table jtable_size debug_start
            abbrev_start top_unit_start fuel1 v.addr (baseAt k P pc path) = .ok (v0, n1)
          ∧ v0.abbrevCode = v.abbrevCode ∧ v0.tag = v.tag ∧ v0.ranges = v.ranges := by
  intro fuel
  induction fuel using Nat.strong_induction_on with
  | _ fuel ih =>
    intro a pc P n h path v hv
    cases path with
    | nil =>
      simp only [unitAt, Option.some.injEq] at hv
      subst hv
      obtain ⟨haddr, _⟩ := ReadCompilationUnit_cases k abbrevCodes data_table jump_table
        jtable_size debug_start abbrev_start top_unit_start fuel a pc P n h
      rw [haddr]
      exact ⟨fuel, P, n, h, rfl, rfl, rfl⟩
    | cons i rest =>
      rw [unitAt_cons] at hv
      cases hC : P.children[i]? with
      | none => simp [hC] at hv
      | some C =>
        simp only [hC, Option.bind] at hv
        obtain ⟨fuel1, C0, n1, hlt, hr, hq⟩ := children_base k abbrevCodes
          data_table jump_table jtable_size debug_start abbrev_start top_unit_start fuel a pc
          P n h C (List.mem_iff_getElem?.mpr ⟨i, hC⟩)
        obtain ⟨hshell, hranges, _⟩ := qualifyChild_shell k P C0
        simp only [entryShell, Prod.mk.injEq] at hshell
        obtain ⟨s1, _, s3, s4, s5⟩ := hshell
        have hbase : baseAt k P pc (i :: rest) = baseAt k C (childBase k P pc) rest := by
          simp only [baseAt, hC]
        rw [hbase]
        cases rest with
        | nil =>
          simp only [unitAt, Option.some.injEq] at hv
          subst hv
          refine ⟨fuel1, C0, n1, hr, ?_, ?_, ?_⟩
          · rw [hq, s3]
          · rw [hq, s4]
          · rw [hq, hranges]
        | cons j rest2 =>
          have hch : C.children = C0.children := by rw [hq]; exact s5
          rw [unitAt_cons, hch, ← unitAt_cons] at hv
          rw [baseAt_cons_congr k C C0 (childBase k P pc) j rest2 hch
            (by rw [hq, s4]) (by rw [hq, hranges])]
          exact ih fuel1 hlt C.addr (childBase k P pc) C0 n1 hr (j :: rest2) v hv
end Simtrax
